import Mathlib

/-!
ChCore lab 2, the buddy allocator of `kernel/mm/buddy.c`: a shallow embedding
of the allocator and a verification of its specification.

Modelling conventions.

* A `struct page *` is a natural number counted in units of `struct page`;
  `NULL` is `none` of an `Option`.  A `struct phys_mem_pool *` is an index into
  the array `global_mem`, the only place where the kernel keeps its pools.
* `vaddr_t` and `unsigned long` arithmetic on addresses is taken modulo `2^64`.
  The difference `page - pool->page_metadata` is taken for a page at or behind
  the start of the table.  The counter `nr_free` is a natural number.
* `order` fields and arguments are the non-negative values of the C `int`, and
  `allocated` is a `Bool`.
* The members of a free list are a `List` from the list head onwards; the list
  node inside a descriptor is not represented.
* A function that can hit a `BUG_ON`, dereference a bad pointer or spin on a
  held lock returns an `Except Err`.  Recursion is by fuel, and running out of
  fuel is an error of its own.
* The macros of `mm/buddy.h` are the fields of `Config`.
-/

set_option linter.dupNamespace false
set_option linter.unusedVariables false

namespace Buddy

/-- The three macros of `mm/buddy.h` used by `buddy.c`. -/
structure Config where
  BUDDY_MAX_ORDER : Nat
  BUDDY_PAGE_SIZE : Nat
  BUDDY_PAGE_SIZE_ORDER : Nat

/-- Ways in which a call fails to return. -/
inductive Err where
  | bug_on
  | bad_pointer
  | deadlock
  | out_of_fuel
  deriving DecidableEq, Repr

/-- The fields of `struct page` that `buddy.c` uses.  The intrusive list node is
represented by membership in the free lists of the pool. -/
structure page where
  allocated : Bool
  order : Nat
  pool : Option Nat

/-- A `struct free_list`: the members from the list head onwards, and the
counter `nr_free`. -/
structure free_list where
  free_list : List Nat
  nr_free : Nat

/-- Modelled from the spec: the mutual-exclusion lock `buddy_lock` (its type and
`lock_init`, `lock`, `unlock` are not in the sources at hand).  `held` is the
lock word, `nr_acquired` counts the successful `lock` calls. -/
structure lock_t where
  held : Bool
  nr_acquired : Nat

/-- The `struct phys_mem_pool`. -/
structure phys_mem_pool where
  pool_start_addr : Nat
  page_metadata : Nat
  pool_mem_size : Nat
  pool_phys_page_num : Nat
  free_lists : Nat → free_list
  buddy_lock : lock_t

/-- The memory the allocator works on: the pool array `global_mem`, the number
`physmem_map_num` of pools in use, and the page descriptors by address. -/
structure State where
  global_mem : Nat → phys_mem_pool
  physmem_map_num : Nat
  pages : Nat → page

/-- Two to the 64, the modulus of `vaddr_t` arithmetic. -/
def W64 : Nat := 2 ^ 64

/-- Store to the descriptor at `p`. -/
def State.setPage (s : State) (p : Nat) (v : page) : State :=
  { s with pages := Function.update s.pages p v }

/-- Store to the pool `pool`. -/
def State.setPool (s : State) (pool : Nat) (P : phys_mem_pool) : State :=
  { s with global_mem := Function.update s.global_mem pool P }

/-- Store to `free_lists[order]` of a pool. -/
def phys_mem_pool.setList (P : phys_mem_pool) (order : Nat) (l : free_list) :
    phys_mem_pool :=
  { P with free_lists := Function.update P.free_lists order l }

/-- Modelled from the spec: `list_add(&page->node, &pool->free_lists[order].free_list)`
of `common/list.h`, which links the node right behind the list head. -/
def list_add (s : State) (pool order p : Nat) : State :=
  let P := s.global_mem pool
  s.setPool pool (P.setList order
    { P.free_lists order with free_list := p :: (P.free_lists order).free_list })

/-- Modelled from the spec: `list_del(&page->node)` of `common/list.h`.  The node
is unlinked from whichever free list of the pool holds it. -/
def list_del (s : State) (pool p : Nat) : State :=
  let P := s.global_mem pool
  s.setPool pool
    { P with free_lists := fun o =>
        { P.free_lists o with free_list := (P.free_lists o).free_list.erase p } }

/-- The statement `pool->free_lists[order].nr_free++`. -/
def nr_free_inc (s : State) (pool order : Nat) : State :=
  let P := s.global_mem pool
  s.setPool pool (P.setList order
    { P.free_lists order with nr_free := (P.free_lists order).nr_free + 1 })

/-- The statement `pool->free_lists[order].nr_free--`. -/
def nr_free_dec (s : State) (pool order : Nat) : State :=
  let P := s.global_mem pool
  s.setPool pool (P.setList order
    { P.free_lists order with nr_free := (P.free_lists order).nr_free - 1 })

/-- Modelled from the spec: `lock(&pool->buddy_lock)`; a caller that finds the
lock held never returns. -/
def lock (s : State) (pool : Nat) : Except Err State :=
  let P := s.global_mem pool
  if P.buddy_lock.held then .error .deadlock
  else .ok (s.setPool pool
    { P with buddy_lock := { held := true, nr_acquired := P.buddy_lock.nr_acquired + 1 } })

/-- Modelled from the spec: `unlock(&pool->buddy_lock)`. -/
def unlock (s : State) (pool : Nat) : State :=
  let P := s.global_mem pool
  s.setPool pool { P with buddy_lock := { P.buddy_lock with held := false } }

/-- The state that a successful `lock` leaves. -/
def locked (s : State) (i : Nat) : State :=
  s.setPool i { s.global_mem i with buddy_lock :=
    { held := true, nr_acquired := (s.global_mem i).buddy_lock.nr_acquired + 1 } }

/-- The test of the loop in `virt_to_page`: `addr` lies in the pool. -/
def addr_in_pool (P : phys_mem_pool) (addr : Nat) : Bool :=
  decide (P.pool_start_addr ≤ addr) &&
    decide (addr < (P.pool_start_addr + P.pool_mem_size) % W64)

/-- The function `page_to_virt`. -/
def page_to_virt (cfg : Config) (s : State) (page : Nat) : Except Err Nat :=
  match (s.pages page).pool with
  | none => .error .bug_on
  | some pool =>
    .ok (((page - (s.global_mem pool).page_metadata) * cfg.BUDDY_PAGE_SIZE
      + (s.global_mem pool).pool_start_addr) % W64)

/-- The function `virt_to_page`. -/
def virt_to_page (cfg : Config) (s : State) (addr : Nat) : Option Nat :=
  match (List.range s.physmem_map_num).find? (fun i => addr_in_pool (s.global_mem i) addr) with
  | none => none
  | some i =>
    some ((s.global_mem i).page_metadata
      + (addr - (s.global_mem i).pool_start_addr) / cfg.BUDDY_PAGE_SIZE)

/-- The address that `get_buddy_chunk` computes for the buddy. -/
def buddy_addr (cfg : Config) (chunk_addr order : Nat) : Nat :=
  chunk_addr ^^^ (2 ^ (order + cfg.BUDDY_PAGE_SIZE_ORDER) % W64)

/-- The function `get_buddy_chunk`. -/
def get_buddy_chunk (cfg : Config) (s : State) (pool chunk : Nat) :
    Except Err (Option Nat) :=
  match page_to_virt cfg s chunk with
  | .error e => .error e
  | .ok chunk_addr =>
    let order := (s.pages chunk).order
    let buddy_chunk_addr := buddy_addr cfg chunk_addr order
    let P := s.global_mem pool
    if buddy_chunk_addr < P.pool_start_addr
        ∨ (buddy_chunk_addr + 2 ^ order * cfg.BUDDY_PAGE_SIZE) % W64
            > (P.pool_start_addr + P.pool_mem_size) % W64 then
      .ok none
    else
      .ok (virt_to_page cfg s buddy_chunk_addr)

/-- One level of `split_chunk`, lines 63 to 77: the chunk of order `cur_order`
becomes two chunks of the next lower order. -/
def split_step (cfg : Config) (s : State) (pool chunk : Nat) : Except Err State :=
  let cur_order := (s.pages chunk).order
  if ((s.global_mem pool).free_lists cur_order).nr_free = 0 then .error .bug_on
  else
    let s1 := nr_free_dec (list_del s pool chunk) pool cur_order
    if (s1.pages chunk).allocated then .error .bug_on
    else
      let s2 := s1.setPage chunk { s1.pages chunk with order := (s1.pages chunk).order - 1 }
      let s3 := nr_free_inc (list_add s2 pool (cur_order - 1) chunk) pool (cur_order - 1)
      match get_buddy_chunk cfg s3 pool chunk with
      | .error e => .error e
      | .ok none => .error .bad_pointer
      | .ok (some buddy_chunk) =>
        let s4 := s3.setPage buddy_chunk
          { s3.pages buddy_chunk with order := (s3.pages chunk).order, allocated := false }
        .ok (nr_free_inc (list_add s4 pool (cur_order - 1) buddy_chunk) pool (cur_order - 1))

/-- The recursion of `split_chunk`, with the recursion depth as fuel. -/
def split_chunk_fuel (cfg : Config) (pool order : Nat) :
    Nat → State → Option Nat → Except Err (State × Option Nat)
  | _, s, none => .ok (s, none)
  | 0, s, some chunk =>
    if (s.pages chunk).order < order then .error .bug_on
    else if (s.pages chunk).order = order then .ok (s, some chunk)
    else .error .out_of_fuel
  | fuel + 1, s, some chunk =>
    if (s.pages chunk).order < order then .error .bug_on
    else if (s.pages chunk).order = order then .ok (s, some chunk)
    else
      match split_step cfg s pool chunk with
      | .error e => .error e
      | .ok s1 => split_chunk_fuel cfg pool order fuel s1 (some chunk)

/-- The function `split_chunk`.  Every level lowers the order of the chunk by
one, so the order of the chunk bounds the depth. -/
def split_chunk (cfg : Config) (s : State) (pool order : Nat) (chunk : Option Nat) :
    Except Err (State × Option Nat) :=
  split_chunk_fuel cfg pool order
    (match chunk with
      | none => 0
      | some c => (s.pages c).order) s chunk

/-- The body of `merge_chunk` up to its recursive call: the state it leaves and
the chunk the recursive call is made on, `none` when it returns instead. -/
def merge_body (cfg : Config) (s : State) (pool chunk : Nat) :
    Except Err (State × Option Nat) :=
  let order := (s.pages chunk).order
  if order ≥ cfg.BUDDY_MAX_ORDER - 1 then .ok (s, none)
  else
    match get_buddy_chunk cfg s pool chunk with
    | .error e => .error e
    | .ok b =>
      let s1 := s.setPage chunk { s.pages chunk with allocated := false }
      match b with
      | none => .ok (s1, none)
      | some buddy_chunk =>
        if (s1.pages buddy_chunk).order ≠ order then .ok (s1, none)
        else if (s1.pages buddy_chunk).allocated then .ok (s1, none)
        else
          let lo := if buddy_chunk < chunk then buddy_chunk else chunk
          let hi := if buddy_chunk < chunk then chunk else buddy_chunk
          if ((s1.global_mem pool).free_lists order).nr_free = 0 then .error .bug_on
          else
            let s2 := nr_free_dec (list_del s1 pool lo) pool order
            if ((s2.global_mem pool).free_lists order).nr_free = 0 then .error .bug_on
            else
              let s3 := nr_free_dec (list_del s2 pool hi) pool order
              let s4 := s3.setPage lo { s3.pages lo with order := (s3.pages lo).order + 1 }
              .ok (nr_free_inc (list_add s4 pool (order + 1) lo) pool (order + 1), some lo)

/-- The recursion of `merge_chunk`, with the recursion depth as fuel. -/
def merge_chunk_fuel (cfg : Config) (pool : Nat) : Nat → State → Nat → Except Err State
  | 0, s, chunk =>
    match merge_body cfg s pool chunk with
    | .error e => .error e
    | .ok (s1, none) => .ok s1
    | .ok (_, some _) => .error .out_of_fuel
  | fuel + 1, s, chunk =>
    match merge_body cfg s pool chunk with
    | .error e => .error e
    | .ok (s1, none) => .ok s1
    | .ok (s1, some c) => merge_chunk_fuel cfg pool fuel s1 c

/-- The function `merge_chunk`; its result is always `NULL` and is dropped.  The
order grows by one per level and the recursion stops at `BUDDY_MAX_ORDER - 1`. -/
def merge_chunk (cfg : Config) (s : State) (pool chunk : Nat) : Except Err State :=
  merge_chunk_fuel cfg pool cfg.BUDDY_MAX_ORDER s chunk

/-- The function `buddy_free_pages`. -/
def buddy_free_pages (cfg : Config) (s : State) (pool : Nat) (page : Option Nat) :
    Except Err State :=
  match lock s pool with
  | .error e => .error e
  | .ok s1 =>
    match page with
    | none => .error .bug_on
    | some page =>
      let s2 := s1.setPage page { s1.pages page with allocated := false }
      let order := (s2.pages page).order
      let s3 := nr_free_inc (list_add s2 pool order page) pool order
      match merge_chunk cfg s3 pool page with
      | .error e => .error e
      | .ok s4 => .ok (unlock s4 pool)

/-- The search loop of `buddy_get_pages`, lines 199 to 209, from `cur_order` on
with `n` orders left to look at. -/
def find_chunk (s : State) (pool : Nat) : Nat → Nat → Except Err (Option Nat)
  | 0, _ => .ok none
  | n + 1, cur_order =>
    let head := (s.global_mem pool).free_lists cur_order
    if head.nr_free > 0 then
      match head.free_list with
      | [] => .error .bad_pointer
      | page :: _ =>
        if (s.pages page).order ≠ cur_order then .error .bug_on
        else if (s.pages page).allocated then .error .bug_on
        else .ok (some page)
    else find_chunk s pool n (cur_order + 1)

/-- The function `buddy_get_pages`. -/
def buddy_get_pages (cfg : Config) (s : State) (pool order : Nat) :
    Except Err (State × Option Nat) :=
  if order ≥ cfg.BUDDY_MAX_ORDER then .ok (s, none)
  else
    match lock s pool with
    | .error e => .error e
    | .ok s1 =>
      match find_chunk s1 pool (cfg.BUDDY_MAX_ORDER - order) order with
      | .error e => .error e
      | .ok found =>
        match split_chunk cfg s1 pool order found with
        | .error e => .error e
        | .ok (s2, none) => .ok (unlock s2 pool, none)
        | .ok (s2, some page) =>
          if (s2.pages page).allocated then .error .bug_on
          else if ((s2.global_mem pool).free_lists order).nr_free = 0 then .error .bug_on
          else
            let s3 := nr_free_dec (list_del s2 pool page) pool order
            let s4 := s3.setPage page { s3.pages page with allocated := true, pool := some pool }
            .ok (unlock s4 pool, some page)

/-- The last loop of `init_buddy`: `n` more pages are freed, from `page_idx` on. -/
def init_free_loop (cfg : Config) (pool start_page : Nat) :
    Nat → Nat → State → Except Err State
  | 0, _, s => .ok s
  | n + 1, page_idx, s =>
    match buddy_free_pages cfg s pool (some (start_page + page_idx)) with
    | .error e => .error e
    | .ok s1 => init_free_loop cfg pool start_page n (page_idx + 1) s1

/-- The state of `init_buddy` before its last loop: the pool fields are set, the
free lists of the orders below `BUDDY_MAX_ORDER` are empty, the lock is
initialised, and every descriptor of the table is cleared and then marked as
an allocated page of order 0 of this pool. -/
def init_pool (cfg : Config) (s : State) (pool start_page start_addr page_num : Nat) :
    State :=
  let P := s.global_mem pool
  { global_mem := Function.update s.global_mem pool
      { pool_start_addr := start_addr
        page_metadata := start_page
        pool_mem_size := (page_num * cfg.BUDDY_PAGE_SIZE) % W64
        pool_phys_page_num := page_num
        free_lists := fun order =>
          if order < cfg.BUDDY_MAX_ORDER then { free_list := [], nr_free := 0 }
          else P.free_lists order
        buddy_lock := { held := false, nr_acquired := P.buddy_lock.nr_acquired } }
    physmem_map_num := s.physmem_map_num
    pages := fun p =>
      if start_page ≤ p ∧ p < start_page + page_num then
        { allocated := true, order := 0, pool := some pool }
      else s.pages p }

/-- The function `init_buddy`. -/
def init_buddy (cfg : Config) (s : State) (pool start_page start_addr page_num : Nat) :
    Except Err State :=
  init_free_loop cfg pool start_page page_num 0
    (init_pool cfg s pool start_page start_addr page_num)

/-- The loop of `get_free_mem_size_from_buddy` over the orders below `n`. -/
def free_mem_size_loop (cfg : Config) (P : phys_mem_pool) : Nat → Nat
  | 0 => 0
  | n + 1 =>
    (free_mem_size_loop cfg P n
      + ((P.free_lists n).nr_free * ((cfg.BUDDY_PAGE_SIZE * 2 ^ n) % W64)) % W64) % W64

/-- The function `get_free_mem_size_from_buddy`. -/
def get_free_mem_size_from_buddy (cfg : Config) (s : State) (pool : Nat) : Nat :=
  free_mem_size_loop cfg (s.global_mem pool) cfg.BUDDY_MAX_ORDER

/-! ## Well-formedness of a pool -/

/-- What `buddy.c` needs of the macros: the page size is the power of two given
by its order, there is at least one order, and the shifts by
`order + BUDDY_PAGE_SIZE_ORDER` stay inside a C `int`. -/
structure CfgOK (cfg : Config) : Prop where
  page_size : cfg.BUDDY_PAGE_SIZE = 2 ^ cfg.BUDDY_PAGE_SIZE_ORDER
  max_pos : 0 < cfg.BUDDY_MAX_ORDER
  shift : cfg.BUDDY_MAX_ORDER + cfg.BUDDY_PAGE_SIZE_ORDER ≤ 31

/-- The members of `free_lists[o]` of pool `i`. -/
def fl (s : State) (i o : Nat) : List Nat := ((s.global_mem i).free_lists o).free_list

/-- The counter `free_lists[o].nr_free` of pool `i`. -/
def nf (s : State) (i o : Nat) : Nat := ((s.global_mem i).free_lists o).nr_free

/-- The number of the first page of a pool, in units of pages. -/
def start_nr (cfg : Config) (P : phys_mem_pool) : Nat :=
  P.pool_start_addr / cfg.BUDDY_PAGE_SIZE

/-- The page number (address over page size) of the page with descriptor `p`. -/
def page_nr (cfg : Config) (P : phys_mem_pool) (p : Nat) : Nat :=
  start_nr cfg P + (p - P.page_metadata)

/-- The descriptor `p` lies in the descriptor table of the pool. -/
def in_table (P : phys_mem_pool) (p : Nat) : Prop :=
  P.page_metadata ≤ p ∧ p < P.page_metadata + P.pool_phys_page_num

/-- The geometry of pool `i`: it is one of the pools in use, no pool before it in
`global_mem` claims one of its addresses, it starts on a page boundary, its
size is its page count times the page size, and no address computed for a
buddy of one of its chunks wraps around `2^64`. -/
structure Geom (cfg : Config) (s : State) (i : Nat) : Prop where
  cfg_ok : CfgOK cfg
  registered : i < s.physmem_map_num
  first : ∀ j, j < i → ∀ a, (s.global_mem i).pool_start_addr ≤ a →
    a < (s.global_mem i).pool_start_addr + (s.global_mem i).pool_mem_size →
    addr_in_pool (s.global_mem j) a = false
  aligned : cfg.BUDDY_PAGE_SIZE ∣ (s.global_mem i).pool_start_addr
  size : (s.global_mem i).pool_mem_size
    = (s.global_mem i).pool_phys_page_num * cfg.BUDDY_PAGE_SIZE
  no_wrap : (s.global_mem i).pool_start_addr + (s.global_mem i).pool_mem_size
    + 2 ^ (cfg.BUDDY_MAX_ORDER + cfg.BUDDY_PAGE_SIZE_ORDER) ≤ W64

/-- The two states agree on everything but the free lists and the lock of pool
`i` and the page descriptors. -/
structure Frame (s t : State) (i : Nat) : Prop where
  num : t.physmem_map_num = s.physmem_map_num
  other : ∀ j, j ≠ i → t.global_mem j = s.global_mem j
  start : (t.global_mem i).pool_start_addr = (s.global_mem i).pool_start_addr
  meta : (t.global_mem i).page_metadata = (s.global_mem i).page_metadata
  size : (t.global_mem i).pool_mem_size = (s.global_mem i).pool_mem_size
  pages : (t.global_mem i).pool_phys_page_num = (s.global_mem i).pool_phys_page_num

/-- The chunks headed by the descriptors in `H`, of the orders `ord`, tile a
pool of `N` pages whose first page has number `sp` and whose descriptor table
starts at `tbl`: every head lies in the table, is aligned to its size and ends
inside the pool, every page of the pool lies in a chunk, and no two chunks
overlap.  The chunk of the head `p` has the descriptors from `p` up to
`p + 2 ^ ord p`. -/
structure Tiling (sp tbl N : Nat) (H : Nat → Prop) (ord : Nat → Nat) : Prop where
  table : ∀ p, H p → tbl ≤ p ∧ p < tbl + N
  align : ∀ p, H p → 2 ^ ord p ∣ sp + (p - tbl)
  within : ∀ p, H p → p + 2 ^ ord p ≤ tbl + N
  cover : ∀ x, tbl ≤ x → x < tbl + N → ∃ p, H p ∧ p ≤ x ∧ x < p + 2 ^ ord p
  disj : ∀ p q, H p → H q → p ≤ q → q < p + 2 ^ ord p → p = q

/-- The chunk heads of pool `i`: the heads `A` of the chunks handed out, and the
members of the free lists. -/
def Head (s : State) (i : Nat) (A : List Nat) (p : Nat) : Prop :=
  p ∈ A ∨ ∃ o, p ∈ fl s i o

/-- The part of the pool invariant that holds at every point of an operation.
`A` lists the heads of the chunks currently handed out. -/
structure Base (cfg : Config) (s : State) (i : Nat) (A : List Nat) : Prop where
  geom : Geom cfg s i
  count : ∀ o, nf s i o = (fl s i o).length
  nodup : ∀ o, (fl s i o).Nodup
  free_ok : ∀ o p, p ∈ fl s i o →
    (s.pages p).order = o ∧ (s.pages p).allocated = false ∧ o < cfg.BUDDY_MAX_ORDER
  alloc_nodup : A.Nodup
  alloc_ok : ∀ p, p ∈ A →
    (s.pages p).allocated = true ∧ (s.pages p).order < cfg.BUDDY_MAX_ORDER
  pool_ok : ∀ p, in_table (s.global_mem i) p → (s.pages p).pool = some i
  tiling : Tiling (start_nr cfg (s.global_mem i)) (s.global_mem i).page_metadata
    (s.global_mem i).pool_phys_page_num (Head s i A) (fun p => (s.pages p).order)

/-- No two free chunks of one order below `BUDDY_MAX_ORDER - 1` are buddies of
each other, the chunk `c` being exempt.  Two buddies of order `o` are a chunk
`p` whose page number is a multiple of `2 ^ (o + 1)` and the chunk `p + 2 ^ o`. -/
def Coal (cfg : Config) (s : State) (i : Nat) (c : Option Nat) : Prop :=
  ∀ o p, p ∈ fl s i o → p + 2 ^ o ∈ fl s i o → o + 1 < cfg.BUDDY_MAX_ORDER →
    2 ^ (o + 1) ∣ page_nr cfg (s.global_mem i) p →
    c = some p ∨ c = some (p + 2 ^ o)

/-- The invariant of pool `i` between two operations. -/
structure Inv (cfg : Config) (s : State) (i : Nat) (A : List Nat) : Prop where
  base : Base cfg s i A
  coal : Coal cfg s i none
  unlocked : (s.global_mem i).buddy_lock.held = false

/-- What `init_buddy` asks of its caller: the macros are sound, the pool is one
of the pools in use and no pool before it in `global_mem` claims one of its
addresses, the start address is page aligned, the pool ends far enough below
`2^64`, and the page count fits the `int` loop counter.  The array `free_lists`
has `BUDDY_MAX_ORDER` entries; `pad` says that the entries which the model has
beyond them are empty. -/
structure InitPre (cfg : Config) (s : State) (i start_page start_addr page_num : Nat) :
    Prop where
  cfg_ok : CfgOK cfg
  registered : i < s.physmem_map_num
  first : ∀ j, j < i → ∀ a, start_addr ≤ a →
    a < start_addr + page_num * cfg.BUDDY_PAGE_SIZE →
    addr_in_pool (s.global_mem j) a = false
  aligned : cfg.BUDDY_PAGE_SIZE ∣ start_addr
  no_wrap : start_addr + page_num * cfg.BUDDY_PAGE_SIZE
    + 2 ^ (cfg.BUDDY_MAX_ORDER + cfg.BUDDY_PAGE_SIZE_ORDER) ≤ W64
  pad : ∀ o, cfg.BUDDY_MAX_ORDER ≤ o →
    (s.global_mem i).free_lists o = { free_list := [], nr_free := 0 }
  idx_fits : page_num < 2 ^ 31

/-- The states of pool `i` that `init_buddy` with `N` pages and then valid calls
of `buddy_get_pages` and `buddy_free_pages` lead to, with the heads of the
chunks handed out and not yet given back. -/
inductive Reachable (cfg : Config) (i N : Nat) : State → List Nat → Prop where
  | init (s0 s : State) (start_page start_addr : Nat) :
      InitPre cfg s0 i start_page start_addr N →
      init_buddy cfg s0 i start_page start_addr N = .ok s →
      Reachable cfg i N s []
  | get (s t : State) (A : List Nat) (order : Nat) (r : Option Nat) :
      Reachable cfg i N s A → order < cfg.BUDDY_MAX_ORDER →
      buddy_get_pages cfg s i order = .ok (t, r) →
      Reachable cfg i N t (match r with
        | none => A
        | some p => p :: A)
  | free (s t : State) (A : List Nat) (p : Nat) :
      Reachable cfg i N s A → p ∈ A →
      buddy_free_pages cfg s i (some p) = .ok t →
      Reachable cfg i N t (A.erase p)

/-- The effect of one level of `split_chunk` on the chunk `c`, which goes from
order `j + 1` to order `j`. -/
structure SplitRel (s t : State) (i c j : Nat) : Prop where
  frame : Frame s t i
  pages_eq : ∀ q, t.pages q =
    if q = c + 2 ^ j then { s.pages q with order := j, allocated := false }
    else if q = c then { s.pages q with order := j }
    else s.pages q
  fl_eq : ∀ o, fl t i o =
    if o = j then (c + 2 ^ j) :: c :: (fl s i o).erase c else (fl s i o).erase c
  nf_eq : ∀ o, nf t i o =
    if o = j then nf s i o + 2 else if o = j + 1 then nf s i o - 1 else nf s i o

/-- The effect of one merge of `merge_chunk`: the buddies `lo` and `lo + 2 ^ o` of
order `o` become the chunk `lo` of order `o + 1`. -/
structure MergeRel (s t : State) (i lo o : Nat) : Prop where
  frame : Frame s t i
  pages_eq : ∀ q, t.pages q =
    if q = lo then { s.pages q with order := o + 1 } else s.pages q
  fl_eq : ∀ o', fl t i o' =
    if o' = o + 1 then lo :: ((fl s i o').erase lo).erase (lo + 2 ^ o)
    else ((fl s i o').erase lo).erase (lo + 2 ^ o)
  nf_eq : ∀ o', nf t i o' =
    if o' = o + 1 then nf s i o' + 1 else if o' = o then nf s i o' - 1 - 1 else nf s i o'

/-- The effect of `buddy_free_pages` up to its call of `merge_chunk`, on the
chunk `c` of order `o`. -/
structure FreeRel (s t : State) (i c o : Nat) : Prop where
  frame : Frame s t i
  pages_eq : ∀ q, t.pages q =
    if q = c then { s.pages q with allocated := false } else s.pages q
  fl_eq : ∀ o', fl t i o' = if o' = o then c :: fl s i o' else fl s i o'
  nf_eq : ∀ o', nf t i o' = if o' = o then nf s i o' + 1 else nf s i o'

/-- The effect of `buddy_get_pages` after its call of `split_chunk`, on the chunk
`c` of order `o`. -/
structure GetRel (s t : State) (i c o : Nat) : Prop where
  frame : Frame s t i
  pages_eq : ∀ q, t.pages q =
    if q = c then { s.pages q with allocated := true, pool := some i } else s.pages q
  fl_eq : ∀ o', fl t i o' = (fl s i o').erase c
  nf_eq : ∀ o', nf t i o' = if o' = o then nf s i o' - 1 else nf s i o'

/-- The free lists of `t` are those of `s` with the chunk `p`, which has order `k`
in `s`, split down to order `j`: `p` is on list `j`, and apart from `p` the
lists of the orders from `j` up to `k - 1` hold the upper halves
`p + 2 ^ o` and the other lists are those of `s`. -/
structure Mid (s t : State) (i p k j : Nat) : Prop where
  frame : Frame s t i
  lists : ∀ o, (fl t i o).erase p =
    if j ≤ o ∧ o < k then [p + 2 ^ o] else (fl s i o).erase p
  mem : p ∈ fl t i j

/-- The state of `buddy_free_pages` at its call of `merge_chunk`, from the state
`s` it has after taking the lock. -/
def free_state (s : State) (i p : Nat) : State :=
  nr_free_inc (list_add (s.setPage p { s.pages p with allocated := false })
    i (s.pages p).order p) i (s.pages p).order

/-! ## Example configuration and states -/

/-- A small configuration: three orders, pages of two bytes. -/
def cfg0 : Config :=
  { BUDDY_MAX_ORDER := 3, BUDDY_PAGE_SIZE := 2, BUDDY_PAGE_SIZE_ORDER := 1 }

/-- A blank machine with one pool slot in use. -/
def blank : State :=
  { global_mem := fun _ =>
      { pool_start_addr := 0, page_metadata := 0, pool_mem_size := 0, pool_phys_page_num := 0
        free_lists := fun _ => { free_list := [], nr_free := 0 }
        buddy_lock := { held := false, nr_acquired := 0 } }
    physmem_map_num := 1
    pages := fun _ => { allocated := false, order := 0, pool := none } }

/-- The result of a call that returns, `d` for a call that does not. -/
def okOr {α : Type} (r : Except Err α) (d : α) : α :=
  match r with
  | .ok a => a
  | .error _ => d

/-- The pool of four pages right after `init_buddy`. -/
def ex_init : State := okOr (init_buddy cfg0 blank 0 0 0 4) blank

/-- The pool of four pages after one page has been handed out, and that page. -/
def ex_get : State × Option Nat := okOr (buddy_get_pages cfg0 ex_init 0 0) (blank, none)

/-- The pool of four pages after the page has been given back. -/
def ex_free : State := okOr (buddy_free_pages cfg0 ex_get.1 0 (some 0)) blank

/-- A pool of one page right after `init_buddy`. -/
def ex_one : State := okOr (init_buddy cfg0 blank 0 0 0 1) blank

/-- A configuration with pages of 4K, the size named in
`get_free_mem_size_from_buddy`, and 14 orders. -/
def cfg4k : Config :=
  { BUDDY_MAX_ORDER := 14, BUDDY_PAGE_SIZE := 4096, BUDDY_PAGE_SIZE_ORDER := 12 }

/-- A pool of two pages of 4K that starts at address `0x1000`, right after
`init_buddy`. -/
def ex_unaligned : State := okOr (init_buddy cfg4k blank 0 0 4096 2) blank

/-- A machine with two pool slots in use: the pool 0 of four pages at address
0 with the descriptors from 0 on, and the pool 1 of two pages at address 8
with the descriptors from 4 on, both as `init_buddy` sets them up before it
frees the pages. -/
def ex_pools : State :=
  init_pool cfg0 (init_pool cfg0 { blank with physmem_map_num := 2 } 0 0 0 4) 1 4 8 2

/-- A pool of three pages right after `init_buddy`. -/
def ex_three : State := okOr (init_buddy cfg0 blank 0 0 0 3) blank

/-- The pool of four pages after its one chunk of order 2 has been handed out. -/
def ex_top : State × Option Nat := okOr (buddy_get_pages cfg0 ex_init 0 2) (blank, none)

/-- The pool of four pages after two pages have been handed out. -/
def ex_two : State × Option Nat := okOr (buddy_get_pages cfg0 ex_get.1 0 0) (blank, none)

/-- What `virt_to_page` needs of pool `i`: it is one of the pools in use, every
pool before it in `global_mem` ends at or below its start or starts at or
behind its end, pages have a size, the pool has as many bytes as its
descriptor table has pages, and it ends below `2^64`. -/
structure Registered (cfg : Config) (s : State) (i : Nat) : Prop where
  in_use : i < s.physmem_map_num
  first : ∀ j, j < i →
    (s.global_mem j).pool_start_addr + (s.global_mem j).pool_mem_size
        ≤ (s.global_mem i).pool_start_addr
      ∨ (s.global_mem i).pool_start_addr + (s.global_mem i).pool_mem_size
        ≤ (s.global_mem j).pool_start_addr
  page_size_pos : 0 < cfg.BUDDY_PAGE_SIZE
  size : (s.global_mem i).pool_mem_size
    = (s.global_mem i).pool_phys_page_num * cfg.BUDDY_PAGE_SIZE
  no_wrap : (s.global_mem i).pool_start_addr + (s.global_mem i).pool_mem_size < W64

/-! ## Arithmetic of buddies -/

theorem xor_two_mul (x y : Nat) : (2 * x) ^^^ (2 * y) = 2 * (x ^^^ y) := by
  have h := Nat.xor_bit false x false y
  simpa [Nat.bit_val] using h

theorem xor_one_even (r : Nat) : (2 * r) ^^^ 1 = 2 * r + 1 := by
  have h := Nat.xor_bit false r true 0
  simpa [Nat.bit_val] using h

theorem xor_mul_two_pow (k x y : Nat) : (x * 2 ^ k) ^^^ (y * 2 ^ k) = (x ^^^ y) * 2 ^ k := by
  induction k with
  | zero => simp
  | succ k ih =>
    have e : ∀ z : Nat, z * 2 ^ (k + 1) = 2 * (z * 2 ^ k) := fun z => by ring
    rw [e x, e y, e (x ^^^ y), xor_two_mul, ih]

theorem xor_pow_of_dvd (o a : Nat) (h : 2 ^ (o + 1) ∣ a) : a ^^^ 2 ^ o = a + 2 ^ o := by
  obtain ⟨q, rfl⟩ := h
  have e1 : 2 ^ (o + 1) * q = (2 * q) * 2 ^ o := by ring
  have e2 : (2 : Nat) ^ o = 1 * 2 ^ o := by ring
  rw [e1]
  nth_rewrite 2 [e2]
  rw [xor_mul_two_pow, xor_one_even]
  ring

theorem xor_pow_cases (o a : Nat) (h : 2 ^ o ∣ a) :
    (2 ^ (o + 1) ∣ a ∧ a ^^^ 2 ^ o = a + 2 ^ o) ∨
    (2 ^ (o + 1) ∣ (a ^^^ 2 ^ o) ∧ (a ^^^ 2 ^ o) + 2 ^ o = a) := by
  obtain ⟨q, rfl⟩ := h
  rcases Nat.even_or_odd' q with ⟨r, hr | hr⟩
  · left
    have hd : 2 ^ (o + 1) ∣ 2 ^ o * q := ⟨r, by rw [hr]; ring⟩
    exact ⟨hd, xor_pow_of_dvd o _ hd⟩
  · right
    have hd : 2 ^ (o + 1) ∣ 2 ^ o * (2 * r) := ⟨r, by ring⟩
    have e : 2 ^ o * q = 2 ^ o * (2 * r) + 2 ^ o := by rw [hr]; ring
    have hx := xor_pow_of_dvd o _ hd
    have : (2 ^ o * q) ^^^ 2 ^ o = 2 ^ o * (2 * r) := by
      rw [e, ← hx, Nat.xor_assoc, Nat.xor_self, Nat.xor_zero]
    rw [this]
    exact ⟨hd, e.symm⟩

theorem xor_xor_cancel (a b : Nat) : (a ^^^ b) ^^^ b = a := by
  rw [Nat.xor_assoc, Nat.xor_self, Nat.xor_zero]

/-- Multiples of `m` that are less than `m` apart are ordered. -/
theorem le_of_dvd_of_lt_add {m x y : Nat} (hx : m ∣ x) (hy : m ∣ y) (h : x < y + m) : x ≤ y := by
  obtain ⟨a, rfl⟩ := hx
  obtain ⟨b, rfl⟩ := hy
  by_contra hlt
  push_neg at hlt
  have hab : b < a := lt_of_mul_lt_mul_left hlt (Nat.zero_le m)
  have : m * (b + 1) ≤ m * a := Nat.mul_le_mul_left m hab
  rw [Nat.mul_add, Nat.mul_one] at this
  omega

theorem two_pow_pos (o : Nat) : 0 < 2 ^ o := Nat.pow_pos (by decide)

/-! ## Address translation -/

theorem Geom.page_size_pos {cfg : Config} {s : State} {i : Nat} (hg : Geom cfg s i) :
    0 < cfg.BUDDY_PAGE_SIZE := by
  rw [hg.cfg_ok.page_size]; exact two_pow_pos _

theorem Geom.start_eq {cfg : Config} {s : State} {i : Nat} (hg : Geom cfg s i) :
    (s.global_mem i).pool_start_addr = start_nr cfg (s.global_mem i) * cfg.BUDDY_PAGE_SIZE := by
  unfold start_nr
  exact (Nat.div_mul_cancel hg.aligned).symm

theorem Geom.of_frame {cfg : Config} {s t : State} {i : Nat} (hg : Geom cfg s i)
    (hf : Frame s t i) : Geom cfg t i := by
  refine ⟨hg.cfg_ok, ?_, ?_, ?_, ?_, ?_⟩
  · rw [hf.num]; exact hg.registered
  · intro j hj a h1 h2
    rw [hf.other j (Nat.ne_of_lt hj)]
    rw [hf.start] at h1 h2
    rw [hf.size] at h2
    exact hg.first j hj a h1 h2
  · rw [hf.start]; exact hg.aligned
  · rw [hf.size, hf.pages]; exact hg.size
  · rw [hf.start, hf.size]; exact hg.no_wrap

theorem Frame.refl (s : State) (i : Nat) : Frame s s i :=
  ⟨rfl, fun _ _ => rfl, rfl, rfl, rfl, rfl⟩

theorem Frame.trans {s t u : State} {i : Nat} (h1 : Frame s t i) (h2 : Frame t u i) :
    Frame s u i :=
  ⟨h2.num.trans h1.num, fun j hj => (h2.other j hj).trans (h1.other j hj),
    h2.start.trans h1.start, h2.meta.trans h1.meta, h2.size.trans h1.size,
    h2.pages.trans h1.pages⟩

theorem Frame.start_nr {cfg : Config} {s t : State} {i : Nat} (hf : Frame s t i) :
    start_nr cfg (t.global_mem i) = start_nr cfg (s.global_mem i) := by
  unfold Buddy.start_nr; rw [hf.start]

theorem Frame.page_nr {cfg : Config} {s t : State} {i : Nat} (hf : Frame s t i) (p : Nat) :
    page_nr cfg (t.global_mem i) p = page_nr cfg (s.global_mem i) p := by
  unfold Buddy.page_nr; rw [hf.start_nr, hf.meta]

theorem Frame.in_table {s t : State} {i : Nat} (hf : Frame s t i) (p : Nat) :
    in_table (t.global_mem i) p ↔ in_table (s.global_mem i) p := by
  unfold Buddy.in_table; rw [hf.meta, hf.pages]

/-- The address of a page of the table of a well-formed pool. -/
theorem page_to_virt_eq {cfg : Config} {s : State} {i p : Nat} (hg : Geom cfg s i)
    (hp : in_table (s.global_mem i) p) (hpool : (s.pages p).pool = some i) :
    page_to_virt cfg s p = .ok (page_nr cfg (s.global_mem i) p * cfg.BUDDY_PAGE_SIZE) := by
  unfold page_to_virt
  rw [hpool]
  simp only
  have hs := hg.start_eq
  have hsz := hg.size
  have hw := hg.no_wrap
  obtain ⟨h1, h2⟩ := hp
  have e : (p - (s.global_mem i).page_metadata) * cfg.BUDDY_PAGE_SIZE
      + (s.global_mem i).pool_start_addr
      = page_nr cfg (s.global_mem i) p * cfg.BUDDY_PAGE_SIZE := by
    unfold page_nr
    rw [Nat.add_mul, ← hs]; omega
  have hlt : (p - (s.global_mem i).page_metadata) * cfg.BUDDY_PAGE_SIZE
      < (s.global_mem i).pool_phys_page_num * cfg.BUDDY_PAGE_SIZE :=
    Nat.mul_lt_mul_of_pos_right (by omega) hg.page_size_pos
  rw [Nat.mod_eq_of_lt, e]
  have : 0 < 2 ^ (cfg.BUDDY_MAX_ORDER + cfg.BUDDY_PAGE_SIZE_ORDER) := two_pow_pos _
  omega

/-- The descriptor of an address inside a well-formed pool. -/
theorem virt_to_page_eq {cfg : Config} {s : State} {i n : Nat} (hg : Geom cfg s i)
    (h1 : start_nr cfg (s.global_mem i) ≤ n)
    (h2 : n < start_nr cfg (s.global_mem i) + (s.global_mem i).pool_phys_page_num) :
    virt_to_page cfg s (n * cfg.BUDDY_PAGE_SIZE)
      = some ((s.global_mem i).page_metadata + (n - start_nr cfg (s.global_mem i))) := by
  have hs := hg.start_eq
  have hsz := hg.size
  have hw := hg.no_wrap
  have hps := hg.page_size_pos
  have hlo : (s.global_mem i).pool_start_addr ≤ n * cfg.BUDDY_PAGE_SIZE := by
    rw [hs]; exact Nat.mul_le_mul_right _ h1
  have hhi : n * cfg.BUDDY_PAGE_SIZE
      < (s.global_mem i).pool_start_addr + (s.global_mem i).pool_mem_size := by
    rw [hs, hsz, ← Nat.add_mul]
    exact Nat.mul_lt_mul_of_pos_right h2 hps
  have hfind : (List.range s.physmem_map_num).find?
      (fun j => addr_in_pool (s.global_mem j) (n * cfg.BUDDY_PAGE_SIZE)) = some i := by
    rw [List.find?_range_eq_some]
    refine ⟨?_, List.mem_range.2 hg.registered, ?_⟩
    · unfold addr_in_pool
      have : 0 < 2 ^ (cfg.BUDDY_MAX_ORDER + cfg.BUDDY_PAGE_SIZE_ORDER) := two_pow_pos _
      rw [Nat.mod_eq_of_lt (by omega)]
      simp [hlo, hhi]
    · intro j hj
      simp [hg.first j hj _ hlo hhi]
  unfold virt_to_page
  rw [hfind]
  simp only
  congr 2
  rw [hs, ← Nat.sub_mul, Nat.mul_div_cancel _ hps]

theorem buddy_addr_eq {cfg : Config} (hc : CfgOK cfg) (a o : Nat)
    (ho : o < cfg.BUDDY_MAX_ORDER) :
    buddy_addr cfg (a * cfg.BUDDY_PAGE_SIZE) o = (a ^^^ 2 ^ o) * cfg.BUDDY_PAGE_SIZE := by
  unfold buddy_addr
  have hlt : 2 ^ (o + cfg.BUDDY_PAGE_SIZE_ORDER) < W64 := by
    unfold W64
    exact Nat.pow_lt_pow_right (by decide) (by have := hc.shift; omega)
  rw [Nat.mod_eq_of_lt hlt, hc.page_size, Nat.pow_add, xor_mul_two_pow]

/-- The buddy that `get_buddy_chunk` finds for an aligned chunk of a well-formed
pool, in terms of page numbers. -/
theorem get_buddy_chunk_eq {cfg : Config} {s : State} {i p : Nat} (hg : Geom cfg s i)
    (hp : in_table (s.global_mem i) p) (hpool : (s.pages p).pool = some i)
    (ho : (s.pages p).order < cfg.BUDDY_MAX_ORDER)
    (hal : 2 ^ (s.pages p).order ∣ page_nr cfg (s.global_mem i) p) :
    get_buddy_chunk cfg s i p = .ok
      (if page_nr cfg (s.global_mem i) p ^^^ 2 ^ (s.pages p).order
            < start_nr cfg (s.global_mem i)
          ∨ start_nr cfg (s.global_mem i) + (s.global_mem i).pool_phys_page_num
            < (page_nr cfg (s.global_mem i) p ^^^ 2 ^ (s.pages p).order)
              + 2 ^ (s.pages p).order
        then none
        else some ((s.global_mem i).page_metadata
          + ((page_nr cfg (s.global_mem i) p ^^^ 2 ^ (s.pages p).order)
            - start_nr cfg (s.global_mem i)))) := by
  unfold get_buddy_chunk
  rw [page_to_virt_eq hg hp hpool]
  simp only
  rw [buddy_addr_eq hg.cfg_ok _ _ ho]
  generalize hba : page_nr cfg (s.global_mem i) p ^^^ 2 ^ (s.pages p).order = ba
  generalize ho' : (s.pages p).order = o at *
  have hs := hg.start_eq
  have hsz := hg.size
  have hw := hg.no_wrap
  have hps := hg.page_size_pos
  have hpos : 0 < 2 ^ o := two_pow_pos o
  have hble : ba ≤ page_nr cfg (s.global_mem i) p + 2 ^ o := by
    rcases xor_pow_cases o _ hal with ⟨_, h⟩ | ⟨_, h⟩
    · rw [hba] at h; omega
    · rw [hba] at h; omega
  have ha : page_nr cfg (s.global_mem i) p
      < start_nr cfg (s.global_mem i) + (s.global_mem i).pool_phys_page_num := by
    unfold page_nr; obtain ⟨h1, h2⟩ := hp; omega
  have hpw : 2 * 2 ^ o * cfg.BUDDY_PAGE_SIZE
      ≤ 2 ^ (cfg.BUDDY_MAX_ORDER + cfg.BUDDY_PAGE_SIZE_ORDER) := by
    rw [hg.cfg_ok.page_size, ← Nat.pow_succ', ← Nat.pow_add]
    exact Nat.pow_le_pow_right (by decide) (by omega)
  have hend : (s.global_mem i).pool_start_addr + (s.global_mem i).pool_mem_size
      = (start_nr cfg (s.global_mem i) + (s.global_mem i).pool_phys_page_num)
        * cfg.BUDDY_PAGE_SIZE := by
    rw [Nat.add_mul, ← hs, hsz]
  have hsum : ba * cfg.BUDDY_PAGE_SIZE + 2 ^ o * cfg.BUDDY_PAGE_SIZE
      = (ba + 2 ^ o) * cfg.BUDDY_PAGE_SIZE := by rw [Nat.add_mul]
  have hsumlt : (ba + 2 ^ o) * cfg.BUDDY_PAGE_SIZE < W64 := by
    have h1 : (ba + 2 ^ o) * cfg.BUDDY_PAGE_SIZE
        ≤ page_nr cfg (s.global_mem i) p * cfg.BUDDY_PAGE_SIZE
          + 2 * 2 ^ o * cfg.BUDDY_PAGE_SIZE := by
      rw [← Nat.add_mul]
      exact Nat.mul_le_mul_right _ (by omega)
    have h2 : page_nr cfg (s.global_mem i) p * cfg.BUDDY_PAGE_SIZE
        < (start_nr cfg (s.global_mem i) + (s.global_mem i).pool_phys_page_num)
          * cfg.BUDDY_PAGE_SIZE :=
      Nat.mul_lt_mul_of_pos_right ha hps
    rw [← hend] at h2
    omega
  have hendlt : (s.global_mem i).pool_start_addr + (s.global_mem i).pool_mem_size < W64 := by
    have : 0 < 2 ^ (cfg.BUDDY_MAX_ORDER + cfg.BUDDY_PAGE_SIZE_ORDER) := two_pow_pos _
    omega
  rw [hsum, Nat.mod_eq_of_lt hsumlt, Nat.mod_eq_of_lt hendlt, hend]
  have c1 : ba * cfg.BUDDY_PAGE_SIZE < (s.global_mem i).pool_start_addr
      ↔ ba < start_nr cfg (s.global_mem i) := by
    rw [hs]; exact Nat.mul_lt_mul_right hps
  have c2 : (ba + 2 ^ o) * cfg.BUDDY_PAGE_SIZE
        > (start_nr cfg (s.global_mem i) + (s.global_mem i).pool_phys_page_num)
          * cfg.BUDDY_PAGE_SIZE
      ↔ start_nr cfg (s.global_mem i) + (s.global_mem i).pool_phys_page_num < ba + 2 ^ o := by
    rw [gt_iff_lt]; exact Nat.mul_lt_mul_right hps
  by_cases hc : ba < start_nr cfg (s.global_mem i)
      ∨ start_nr cfg (s.global_mem i) + (s.global_mem i).pool_phys_page_num < ba + 2 ^ o
  · rw [if_pos hc, if_pos (by rw [c1, c2]; exact hc)]
  · rw [if_neg hc, if_neg (by rw [c1, c2]; exact hc)]
    push_neg at hc
    rw [virt_to_page_eq hg hc.1 (by omega)]

/-! ## Tilings -/

theorem Tiling.congr {sp tbl N : Nat} {H H' : Nat → Prop} {ord ord' : Nat → Nat}
    (ht : Tiling sp tbl N H ord) (hH : ∀ p, H' p ↔ H p) (hord : ∀ p, H p → ord' p = ord p) :
    Tiling sp tbl N H' ord' := by
  refine ⟨?_, ?_, ?_, ?_, ?_⟩
  · intro p hp; exact ht.table p ((hH p).1 hp)
  · intro p hp; rw [hord p ((hH p).1 hp)]; exact ht.align p ((hH p).1 hp)
  · intro p hp; rw [hord p ((hH p).1 hp)]; exact ht.within p ((hH p).1 hp)
  · intro x h1 h2
    obtain ⟨p, hp, h3, h4⟩ := ht.cover x h1 h2
    exact ⟨p, (hH p).2 hp, h3, by rw [hord p hp]; exact h4⟩
  · intro p q hp hq h1 h2
    rw [hord p ((hH p).1 hp)] at h2
    exact ht.disj p q ((hH p).1 hp) ((hH q).1 hq) h1 h2

/-- In a tiling, the other half of the aligned block of order `o + 1` around a
chunk `c` of order `o` starts a chunk of order at most `o`. -/
theorem Tiling.sibling {sp tbl N : Nat} {H : Nat → Prop} {ord : Nat → Nat}
    (ht : Tiling sp tbl N H ord) {c l y o : Nat} (hc : H c) (hco : ord c = o)
    (hlo : 2 ^ (o + 1) ∣ sp + (l - tbl)) (hlot : tbl ≤ l)
    (hc1 : l ≤ c) (hc2 : c < l + 2 ^ (o + 1))
    (hy1 : l ≤ y) (hy2 : y < l + 2 ^ (o + 1)) (hyN : y < tbl + N)
    (hya : 2 ^ o ∣ sp + (y - tbl)) : H y ∧ ord y ≤ o := by
  obtain ⟨h, hh, h1, h2⟩ := ht.cover y (by omega) hyN
  have hht := ht.table h hh
  have hha := ht.align h hh
  by_cases hle : ord h ≤ o
  · have hd : 2 ^ ord h ∣ sp + (y - tbl) := Dvd.dvd.trans (pow_dvd_pow 2 hle) hya
    have := le_of_dvd_of_lt_add hd hha (by omega)
    have hyh : y = h := by omega
    rw [hyh]; exact ⟨hh, hle⟩
  · exfalso
    push_neg at hle
    have hd1 : 2 ^ (o + 1) ∣ sp + (h - tbl) := Dvd.dvd.trans (pow_dvd_pow 2 hle) hha
    have hd2 : 2 ^ (o + 1) ∣ sp + (h - tbl) + 2 ^ ord h :=
      (Nat.dvd_add_right hd1).2 (pow_dvd_pow 2 hle)
    have hd3 : 2 ^ (o + 1) ∣ sp + (l - tbl) + 2 ^ (o + 1) :=
      (Nat.dvd_add_right hlo).2 (dvd_refl _)
    have e1 := le_of_dvd_of_lt_add hd1 hlo (by omega)
    have e2 := le_of_dvd_of_lt_add hd3 hd2 (by omega)
    have := ht.disj h c hh hc (by omega) (by omega)
    rw [this] at hle
    omega

/-- Splitting the chunk `c` of order `j + 1` of a tiling into `c` and
`c + 2 ^ j`, both of order `j`, gives a tiling; `c + 2 ^ j` was not a head. -/
theorem Tiling.split {sp tbl N : Nat} {H G : Nat → Prop} {ord g : Nat → Nat}
    (ht : Tiling sp tbl N H ord) {c j : Nat} (hc : H c) (hco : ord c = j + 1)
    (hH : ∀ p, G p ↔ H p ∨ p = c + 2 ^ j) (hc' : g c = j) (hb' : g (c + 2 ^ j) = j)
    (hord : ∀ p, p ≠ c → p ≠ c + 2 ^ j → g p = ord p) :
    Tiling sp tbl N G g ∧ ¬ H (c + 2 ^ j) := by
  have hpos : 0 < 2 ^ j := two_pow_pos j
  have hpow : 2 ^ (j + 1) = 2 * 2 ^ j := Nat.pow_succ'
  have hct := ht.table c hc
  have hca := ht.align c hc
  have hcw := ht.within c hc
  rw [hco] at hca hcw
  have hnb : ¬ H (c + 2 ^ j) := by
    intro hb
    have := ht.disj c (c + 2 ^ j) hc hb (by omega) (by rw [hco]; omega)
    omega
  have hcaj : 2 ^ j ∣ sp + (c - tbl) := Dvd.dvd.trans (pow_dvd_pow 2 (Nat.le_succ j)) hca
  refine ⟨⟨?_, ?_, ?_, ?_, ?_⟩, hnb⟩
  · intro p hp
    rcases (hH p).1 hp with h | h
    · exact ht.table p h
    · subst h; omega
  · intro p hp
    by_cases hpc : p = c
    · subst hpc; rw [hc']; exact hcaj
    by_cases hpb : p = c + 2 ^ j
    · subst hpb; rw [hb']
      have e : sp + (c + 2 ^ j - tbl) = sp + (c - tbl) + 2 ^ j := by omega
      rw [e]; exact (Nat.dvd_add_right hcaj).2 (dvd_refl _)
    · rw [hord p hpc hpb]
      rcases (hH p).1 hp with h | h
      · exact ht.align p h
      · exact absurd h hpb
  · intro p hp
    by_cases hpc : p = c
    · subst hpc; rw [hc']; omega
    by_cases hpb : p = c + 2 ^ j
    · subst hpb; rw [hb']; omega
    · rw [hord p hpc hpb]
      rcases (hH p).1 hp with h | h
      · exact ht.within p h
      · exact absurd h hpb
  · intro x h1 h2
    obtain ⟨p, hp, h3, h4⟩ := ht.cover x h1 h2
    by_cases hpc : p = c
    · subst hpc
      rw [hco] at h4
      by_cases hx : x < p + 2 ^ j
      · exact ⟨p, (hH p).2 (Or.inl hp), h3, by rw [hc']; exact hx⟩
      · exact ⟨p + 2 ^ j, (hH _).2 (Or.inr rfl), by omega, by rw [hb']; omega⟩
    · have hpb : p ≠ c + 2 ^ j := fun h => hnb (h ▸ hp)
      exact ⟨p, (hH p).2 (Or.inl hp), h3, by rw [hord p hpc hpb]; exact h4⟩
  · intro p q hp hq h1 h2
    have key : ∀ r, H r → r ≠ c → ¬ (r ≤ c + 2 ^ j ∧ c + 2 ^ j < r + 2 ^ ord r) := by
      intro r hr hrc ⟨h3, h4⟩
      by_cases hle : c ≤ r
      · exact hrc (ht.disj c r hc hr hle (by rw [hco]; omega)).symm
      · exact hrc (ht.disj r c hr hc (by omega) (by omega))
    by_cases hpc : p = c
    · subst hpc
      rw [hc'] at h2
      rcases (hH q).1 hq with h | h
      · exact ht.disj p q hc h h1 (by rw [hco]; omega)
      · omega
    by_cases hpb : p = c + 2 ^ j
    · subst hpb
      rw [hb'] at h2
      rcases (hH q).1 hq with h | h
      · have := ht.disj c q hc h (by omega) (by rw [hco]; omega)
        omega
      · exact h.symm
    · rw [hord p hpc hpb] at h2
      have hp0 : H p := by
        rcases (hH p).1 hp with h | h
        · exact h
        · exact absurd h hpb
      rcases (hH q).1 hq with h | h
      · exact ht.disj p q hp0 h h1 h2
      · subst h
        exact absurd ⟨h1, h2⟩ (key p hp0 hpc)

/-- Merging the buddies `lo` and `lo + 2 ^ o` of a tiling gives a tiling. -/
theorem Tiling.merge {sp tbl N : Nat} {H G : Nat → Prop} {ord g : Nat → Nat}
    (ht : Tiling sp tbl N H ord) {lo o : Nat} (hlo : H lo) (hhi : H (lo + 2 ^ o))
    (hloo : ord lo = o) (hhio : ord (lo + 2 ^ o) = o)
    (hal : 2 ^ (o + 1) ∣ sp + (lo - tbl))
    (hH : ∀ p, G p ↔ H p ∧ p ≠ lo + 2 ^ o) (hlo' : g lo = o + 1)
    (hord : ∀ p, p ≠ lo → g p = ord p) :
    Tiling sp tbl N G g := by
  have hpos : 0 < 2 ^ o := two_pow_pos o
  have hpow : 2 ^ (o + 1) = 2 * 2 ^ o := Nat.pow_succ'
  have hhw := ht.within _ hhi
  rw [hhio] at hhw
  refine ⟨?_, ?_, ?_, ?_, ?_⟩
  · intro p hp; exact ht.table p ((hH p).1 hp).1
  · intro p hp
    by_cases hpl : p = lo
    · subst hpl; rw [hlo']; exact hal
    · rw [hord p hpl]; exact ht.align p ((hH p).1 hp).1
  · intro p hp
    by_cases hpl : p = lo
    · subst hpl; rw [hlo']; omega
    · rw [hord p hpl]; exact ht.within p ((hH p).1 hp).1
  · intro x h1 h2
    obtain ⟨p, hp, h3, h4⟩ := ht.cover x h1 h2
    by_cases hpl : p = lo
    · subst hpl
      exact ⟨p, (hH p).2 ⟨hp, by omega⟩, h3, by rw [hlo']; rw [hloo] at h4; omega⟩
    by_cases hph : p = lo + 2 ^ o
    · subst hph
      rw [hhio] at h4
      exact ⟨lo, (hH lo).2 ⟨hlo, by omega⟩, by omega, by rw [hlo']; omega⟩
    · exact ⟨p, (hH p).2 ⟨hp, hph⟩, h3, by rw [hord p hpl]; exact h4⟩
  · intro p q hp hq h1 h2
    obtain ⟨hp0, hpn⟩ := (hH p).1 hp
    obtain ⟨hq0, hqn⟩ := (hH q).1 hq
    by_cases hpl : p = lo
    · subst hpl
      rw [hlo'] at h2
      by_cases hq2 : q < p + 2 ^ o
      · exact ht.disj p q hp0 hq0 h1 (by rw [hloo]; exact hq2)
      · exact absurd (ht.disj _ q hhi hq0 (by omega) (by rw [hhio]; omega)).symm hqn
    · rw [hord p hpl] at h2
      exact ht.disj p q hp0 hq0 h1 h2

/-! ## The primitive state updates -/

@[simp] theorem fl_setPage (s : State) (p : Nat) (v : page) (i o : Nat) :
    fl (s.setPage p v) i o = fl s i o := rfl

@[simp] theorem nf_setPage (s : State) (p : Nat) (v : page) (i o : Nat) :
    nf (s.setPage p v) i o = nf s i o := rfl

@[simp] theorem pages_setPage (s : State) (p : Nat) (v : page) (q : Nat) :
    (s.setPage p v).pages q = if q = p then v else s.pages q := by
  simp [State.setPage, Function.update_apply]

theorem Frame.setPage (s : State) (p : Nat) (v : page) (i : Nat) :
    Frame s (s.setPage p v) i :=
  ⟨rfl, fun _ _ => rfl, rfl, rfl, rfl, rfl⟩

theorem Frame.setPool (s : State) (i : Nat) (P : phys_mem_pool)
    (h1 : P.pool_start_addr = (s.global_mem i).pool_start_addr)
    (h2 : P.page_metadata = (s.global_mem i).page_metadata)
    (h3 : P.pool_mem_size = (s.global_mem i).pool_mem_size)
    (h4 : P.pool_phys_page_num = (s.global_mem i).pool_phys_page_num) :
    Frame s (s.setPool i P) i := by
  refine ⟨rfl, fun j hj => ?_, ?_, ?_, ?_, ?_⟩
  · simp [State.setPool, Function.update_apply, hj]
  all_goals simp [State.setPool, h1, h2, h3, h4]

@[simp] theorem fl_list_add (s : State) (i o p o' : Nat) :
    fl (list_add s i o p) i o' = if o' = o then p :: fl s i o else fl s i o' := by
  by_cases h : o' = o <;>
    simp [fl, list_add, State.setPool, phys_mem_pool.setList, Function.update_apply, h]

@[simp] theorem nf_list_add (s : State) (i o p o' : Nat) :
    nf (list_add s i o p) i o' = nf s i o' := by
  by_cases h : o' = o <;>
    simp [nf, list_add, State.setPool, phys_mem_pool.setList, Function.update_apply, h]

@[simp] theorem pages_list_add (s : State) (i o p : Nat) :
    (list_add s i o p).pages = s.pages := rfl

theorem Frame.list_add (s : State) (i o p : Nat) : Frame s (list_add s i o p) i :=
  Frame.setPool s i _ rfl rfl rfl rfl

@[simp] theorem fl_list_del (s : State) (i p o : Nat) :
    fl (list_del s i p) i o = (fl s i o).erase p := by
  simp [fl, list_del, State.setPool]

@[simp] theorem nf_list_del (s : State) (i p o : Nat) :
    nf (list_del s i p) i o = nf s i o := by
  simp [nf, list_del, State.setPool]

@[simp] theorem pages_list_del (s : State) (i p : Nat) :
    (list_del s i p).pages = s.pages := rfl

theorem Frame.list_del (s : State) (i p : Nat) : Frame s (list_del s i p) i :=
  Frame.setPool s i _ rfl rfl rfl rfl

@[simp] theorem fl_nr_free_inc (s : State) (i o o' : Nat) :
    fl (nr_free_inc s i o) i o' = fl s i o' := by
  by_cases h : o' = o <;>
    simp [fl, nr_free_inc, State.setPool, phys_mem_pool.setList, Function.update_apply, h]

@[simp] theorem nf_nr_free_inc (s : State) (i o o' : Nat) :
    nf (nr_free_inc s i o) i o' = if o' = o then nf s i o + 1 else nf s i o' := by
  by_cases h : o' = o <;>
    simp [nf, nr_free_inc, State.setPool, phys_mem_pool.setList, Function.update_apply, h]

@[simp] theorem pages_nr_free_inc (s : State) (i o : Nat) :
    (nr_free_inc s i o).pages = s.pages := rfl

theorem Frame.nr_free_inc (s : State) (i o : Nat) : Frame s (nr_free_inc s i o) i :=
  Frame.setPool s i _ rfl rfl rfl rfl

@[simp] theorem fl_nr_free_dec (s : State) (i o o' : Nat) :
    fl (nr_free_dec s i o) i o' = fl s i o' := by
  by_cases h : o' = o <;>
    simp [fl, nr_free_dec, State.setPool, phys_mem_pool.setList, Function.update_apply, h]

@[simp] theorem nf_nr_free_dec (s : State) (i o o' : Nat) :
    nf (nr_free_dec s i o) i o' = if o' = o then nf s i o - 1 else nf s i o' := by
  by_cases h : o' = o <;>
    simp [nf, nr_free_dec, State.setPool, phys_mem_pool.setList, Function.update_apply, h]

@[simp] theorem pages_nr_free_dec (s : State) (i o : Nat) :
    (nr_free_dec s i o).pages = s.pages := rfl

theorem Frame.nr_free_dec (s : State) (i o : Nat) : Frame s (nr_free_dec s i o) i :=
  Frame.setPool s i _ rfl rfl rfl rfl

@[simp] theorem fl_unlock (s : State) (i o : Nat) : fl (unlock s i) i o = fl s i o := by
  simp [fl, unlock, State.setPool]

@[simp] theorem nf_unlock (s : State) (i o : Nat) : nf (unlock s i) i o = nf s i o := by
  simp [nf, unlock, State.setPool]

@[simp] theorem pages_unlock (s : State) (i : Nat) : (unlock s i).pages = s.pages := rfl

theorem Frame.unlock (s : State) (i : Nat) : Frame s (unlock s i) i :=
  Frame.setPool s i _ rfl rfl rfl rfl

@[simp] theorem held_unlock (s : State) (i : Nat) :
    ((unlock s i).global_mem i).buddy_lock.held = false := by
  simp [unlock, State.setPool]

theorem lock_eq {s : State} {i : Nat} (h : (s.global_mem i).buddy_lock.held = false) :
    lock s i = .ok (locked s i) := by
  simp [lock, locked, h]

@[simp] theorem fl_locked (s : State) (i o : Nat) : fl (locked s i) i o = fl s i o := by
  simp [fl, locked, State.setPool]

@[simp] theorem nf_locked (s : State) (i o : Nat) : nf (locked s i) i o = nf s i o := by
  simp [nf, locked, State.setPool]

@[simp] theorem pages_locked (s : State) (i : Nat) : (locked s i).pages = s.pages := rfl

theorem Frame.locked (s : State) (i : Nat) : Frame s (locked s i) i :=
  Frame.setPool s i _ rfl rfl rfl rfl

/-! ## The buddy of an aligned chunk -/

/-- The buddy of a chunk whose page number is a multiple of twice its size is the
chunk right behind it. -/
theorem get_buddy_up {cfg : Config} {s : State} {i c j : Nat} (hg : Geom cfg s i)
    (hp : in_table (s.global_mem i) c) (hpool : (s.pages c).pool = some i)
    (ho : (s.pages c).order = j) (hj : j < cfg.BUDDY_MAX_ORDER)
    (hal : 2 ^ (j + 1) ∣ page_nr cfg (s.global_mem i) c) :
    get_buddy_chunk cfg s i c = .ok
      (if c + 2 ^ (j + 1) ≤ (s.global_mem i).page_metadata + (s.global_mem i).pool_phys_page_num
        then some (c + 2 ^ j) else none) := by
  have hal' : 2 ^ (s.pages c).order ∣ page_nr cfg (s.global_mem i) c := by
    rw [ho]; exact Dvd.dvd.trans (pow_dvd_pow 2 (Nat.le_succ j)) hal
  rw [get_buddy_chunk_eq hg hp hpool (by omega) hal', ho, xor_pow_of_dvd j _ hal]
  have hpow : 2 ^ (j + 1) = 2 * 2 ^ j := Nat.pow_succ'
  have hpos : 0 < 2 ^ j := two_pow_pos j
  obtain ⟨h1, h2⟩ := hp
  unfold page_nr
  by_cases hc : c + 2 ^ (j + 1) ≤ (s.global_mem i).page_metadata + (s.global_mem i).pool_phys_page_num
  · rw [if_pos hc, if_neg (by omega)]
    congr 2; omega
  · rw [if_neg hc, if_pos (by omega)]

/-- The buddy of a chunk whose page number is not a multiple of twice its size is
the chunk right before it. -/
theorem get_buddy_down {cfg : Config} {s : State} {i c o : Nat} (hg : Geom cfg s i)
    (hp : in_table (s.global_mem i) c) (hpool : (s.pages c).pool = some i)
    (ho : (s.pages c).order = o) (hj : o < cfg.BUDDY_MAX_ORDER)
    (hal : 2 ^ o ∣ page_nr cfg (s.global_mem i) c)
    (hnal : ¬ 2 ^ (o + 1) ∣ page_nr cfg (s.global_mem i) c) :
    2 ^ o ≤ page_nr cfg (s.global_mem i) c ∧
    2 ^ (o + 1) ∣ page_nr cfg (s.global_mem i) c - 2 ^ o ∧
    get_buddy_chunk cfg s i c = .ok
      (if (s.global_mem i).page_metadata + 2 ^ o ≤ c then some (c - 2 ^ o) else none) := by
  have hal' : 2 ^ (s.pages c).order ∣ page_nr cfg (s.global_mem i) c := by rw [ho]; exact hal
  rw [get_buddy_chunk_eq hg hp hpool (by omega) hal', ho]
  have hpos : 0 < 2 ^ o := two_pow_pos o
  rcases xor_pow_cases o _ hal with ⟨h, _⟩ | ⟨hd, he⟩
  · exact absurd h hnal
  · generalize page_nr cfg (s.global_mem i) c ^^^ 2 ^ o = ba at hd he
    have hba : ba = page_nr cfg (s.global_mem i) c - 2 ^ o := by omega
    refine ⟨by omega, by rw [← hba]; exact hd, ?_⟩
    obtain ⟨h1, h2⟩ := hp
    unfold page_nr at he
    by_cases hc : (s.global_mem i).page_metadata + 2 ^ o ≤ c
    · rw [if_pos hc, if_neg (by omega)]
      congr 2; omega
    · rw [if_neg hc, if_pos (by omega)]

/-! ## Consequences of the invariant -/

theorem Base.order_of_mem {cfg : Config} {s : State} {i : Nat} {A : List Nat}
    (hb : Base cfg s i A) {o p : Nat} (h : p ∈ fl s i o) : (s.pages p).order = o :=
  (hb.free_ok o p h).1

theorem Base.free_of_mem {cfg : Config} {s : State} {i : Nat} {A : List Nat}
    (hb : Base cfg s i A) {o p : Nat} (h : p ∈ fl s i o) : (s.pages p).allocated = false :=
  (hb.free_ok o p h).2.1

theorem Base.not_mem_of_order {cfg : Config} {s : State} {i : Nat} {A : List Nat}
    (hb : Base cfg s i A) {o p : Nat} (h : (s.pages p).order ≠ o) : p ∉ fl s i o :=
  fun hm => h (hb.order_of_mem hm)

theorem Base.not_mem_of_alloc {cfg : Config} {s : State} {i : Nat} {A : List Nat}
    (hb : Base cfg s i A) {o p : Nat} (h : (s.pages p).allocated = true) : p ∉ fl s i o := by
  intro hm
  rw [hb.free_of_mem hm] at h
  exact Bool.noConfusion h

theorem Base.not_alloc_of_free {cfg : Config} {s : State} {i : Nat} {A : List Nat}
    (hb : Base cfg s i A) {p : Nat} (h : (s.pages p).allocated = false) : p ∉ A := by
  intro hm
  rw [(hb.alloc_ok p hm).1] at h
  exact Bool.noConfusion h

theorem Base.head_of_mem {cfg : Config} {s : State} {i : Nat} {A : List Nat}
    (hb : Base cfg s i A) {o p : Nat} (h : p ∈ fl s i o) : Head s i A p :=
  Or.inr ⟨o, h⟩

theorem Base.table_of_head {cfg : Config} {s : State} {i : Nat} {A : List Nat}
    (hb : Base cfg s i A) {p : Nat} (h : Head s i A p) : in_table (s.global_mem i) p :=
  hb.tiling.table p h

theorem Base.order_lt {cfg : Config} {s : State} {i : Nat} {A : List Nat}
    (hb : Base cfg s i A) {p : Nat} (h : Head s i A p) :
    (s.pages p).order < cfg.BUDDY_MAX_ORDER := by
  rcases h with h | ⟨o, h⟩
  · exact (hb.alloc_ok p h).2
  · rw [hb.order_of_mem h]; exact (hb.free_ok o p h).2.2

/-- A head that is not allocated sits on the free list of its order. -/
theorem Base.mem_of_head {cfg : Config} {s : State} {i : Nat} {A : List Nat}
    (hb : Base cfg s i A) {p : Nat} (h : Head s i A p)
    (hf : (s.pages p).allocated = false) : p ∈ fl s i (s.pages p).order := by
  rcases h with h | ⟨o, h⟩
  · exact absurd h (hb.not_alloc_of_free hf)
  · rw [hb.order_of_mem h]; exact h

theorem Base.nf_pos {cfg : Config} {s : State} {i : Nat} {A : List Nat}
    (hb : Base cfg s i A) {o p : Nat} (h : p ∈ fl s i o) : 0 < nf s i o := by
  rw [hb.count o]; exact List.length_pos_of_mem h

theorem Base.page_nr_align {cfg : Config} {s : State} {i : Nat} {A : List Nat}
    (hb : Base cfg s i A) {p : Nat} (h : Head s i A p) :
    2 ^ (s.pages p).order ∣ page_nr cfg (s.global_mem i) p :=
  hb.tiling.align p h

theorem setPage_self (s : State) (p : Nat) (v : page) (h : s.pages p = v) :
    s.setPage p v = s := by
  unfold State.setPage
  rw [← h, Function.update_eq_self]

/-! ## One level of `split_chunk` -/

theorem split_step_spec {cfg : Config} {s : State} {i : Nat} {A : List Nat} {c j : Nat}
    (hb : Base cfg s i A) (hc : c ∈ fl s i (j + 1)) :
    ∃ t, split_step cfg s i c = .ok t ∧ SplitRel s t i c j := by
  have ho : (s.pages c).order = j + 1 := hb.order_of_mem hc
  have hfr : (s.pages c).allocated = false := hb.free_of_mem hc
  have hnf : ((s.global_mem i).free_lists (j + 1)).nr_free ≠ 0 :=
    Nat.pos_iff_ne_zero.1 (hb.nf_pos hc)
  have hhead := hb.head_of_mem hc
  have htab := hb.table_of_head hhead
  have hal := hb.tiling.align c hhead
  have hwi := hb.tiling.within c hhead
  simp only [ho] at hal hwi
  have hjm : j + 1 < cfg.BUDDY_MAX_ORDER := (hb.free_ok _ _ hc).2.2
  unfold split_step
  simp only [ho, hnf, if_false, pages_nr_free_dec, pages_list_del, hfr, Bool.false_eq_true,
    Nat.add_sub_cancel]
  generalize hs3 : nr_free_inc (list_add
      ((nr_free_dec (list_del s i c) i (j + 1)).setPage c
        { allocated := false, order := j, pool := (s.pages c).pool })
      i j c) i j = s3
  have hf3 : Frame s s3 i := by
    rw [← hs3]
    exact ((((Frame.list_del s i c).trans (Frame.nr_free_dec _ i _)).trans
      (Frame.setPage _ _ _ i)).trans (Frame.list_add _ i _ _)).trans (Frame.nr_free_inc _ i _)
  have hp3 : ∀ q, s3.pages q = if q = c then { s.pages q with order := j } else s.pages q := by
    intro q; rw [← hs3]; simp
    by_cases h : q = c
    · simp [h, hfr]
    · simp [h]
  have hg3 : Geom cfg s3 i := hb.geom.of_frame hf3
  have hbud : get_buddy_chunk cfg s3 i c = .ok (some (c + 2 ^ j)) := by
    have := get_buddy_up (j := j) hg3 ((hf3.in_table c).2 htab)
      (by rw [hp3]; simp; exact hb.pool_ok c htab) (by rw [hp3]; simp) (by omega)
      (by rw [hf3.page_nr]; exact hal)
    rw [this, if_pos]
    rw [hf3.meta, hf3.pages]; exact hwi
  rw [hbud]
  refine ⟨_, rfl, ?_, ?_, ?_, ?_⟩
  · exact (hf3.trans (Frame.setPage _ _ _ i)).trans
      ((Frame.list_add _ i _ _).trans (Frame.nr_free_inc _ i _))
  · intro q
    have hpos : 0 < 2 ^ j := two_pow_pos j
    simp only [pages_nr_free_inc, pages_list_add, pages_setPage, hp3]
    by_cases h1 : q = c + 2 ^ j
    · have h2 : ¬ c + 2 ^ j = c := by omega
      simp [h1, h2]
    · simp [h1]
  · intro o
    rw [← hs3]
    by_cases h : o = j
    · simp [h]
    · simp [h]
  · intro o
    rw [← hs3]
    by_cases h : o = j
    · simp [h]
    · by_cases h' : o = j + 1
      · simp [h, h']
      · simp [h, h']

theorem Tiling.not_head_inside {sp tbl N : Nat} {H : Nat → Prop} {ord : Nat → Nat}
    (ht : Tiling sp tbl N H ord) {c y : Nat} (hc : H c) (h1 : c < y) (h2 : y < c + 2 ^ ord c) :
    ¬ H y := by
  intro hy
  have := ht.disj c y hc hy (by omega) h2
  omega

theorem SplitRel.split_mem_iff {cfg : Config} {s t : State} {i : Nat} {A : List Nat} {c j : Nat}
    (hb : Base cfg s i A) (hr : SplitRel s t i c j) (o p : Nat) :
    p ∈ fl t i o ↔ (o = j ∧ (p = c + 2 ^ j ∨ p = c)) ∨ (p ≠ c ∧ p ∈ fl s i o) := by
  rw [hr.fl_eq o]
  by_cases h : o = j
  · subst h
    simp only [if_true, List.mem_cons, (hb.nodup o).mem_erase_iff, true_and]
    tauto
  · simp only [h, if_false, (hb.nodup o).mem_erase_iff, false_and, false_or]

theorem SplitRel.split_base {cfg : Config} {s t : State} {i : Nat} {A : List Nat} {c j : Nat}
    (hb : Base cfg s i A) (hc : c ∈ fl s i (j + 1)) (hr : SplitRel s t i c j) :
    Base cfg t i A := by
  have ho : (s.pages c).order = j + 1 := hb.order_of_mem hc
  have hfr : (s.pages c).allocated = false := hb.free_of_mem hc
  have hhead := hb.head_of_mem hc
  have hpos : 0 < 2 ^ j := two_pow_pos j
  have hpow : 2 ^ (j + 1) = 2 * 2 ^ j := Nat.pow_succ'
  have hnb : ¬ Head s i A (c + 2 ^ j) :=
    hb.tiling.not_head_inside hhead (by omega) (by simp only [ho]; omega)
  have hbc : c + 2 ^ j ≠ c := by omega
  have hcj : c ∉ fl s i j := hb.not_mem_of_order (by omega)
  have hmem := hr.split_mem_iff hb
  have hpc : (t.pages c).order = j := by rw [hr.pages_eq]; simp [hbc.symm]
  have hpb : (t.pages (c + 2 ^ j)).order = j := by rw [hr.pages_eq]; simp
  have hpo : ∀ p, p ≠ c → p ≠ c + 2 ^ j → t.pages p = s.pages p := by
    intro p h1 h2; rw [hr.pages_eq]; simp [h1, h2]
  have hH : ∀ p, Head t i A p ↔ Head s i A p ∨ p = c + 2 ^ j := by
    intro p
    constructor
    · rintro (h | ⟨o, h⟩)
      · exact Or.inl (Or.inl h)
      · rcases (hmem o p).1 h with ⟨_, h | h⟩ | ⟨_, h⟩
        · exact Or.inr h
        · exact Or.inl (h ▸ hhead)
        · exact Or.inl (Or.inr ⟨o, h⟩)
    · rintro ((h | ⟨o, h⟩) | h)
      · exact Or.inl h
      · by_cases hp : p = c
        · exact Or.inr ⟨j, (hmem j p).2 (Or.inl ⟨rfl, Or.inr hp⟩)⟩
        · exact Or.inr ⟨o, (hmem o p).2 (Or.inr ⟨hp, h⟩)⟩
      · exact Or.inr ⟨j, (hmem j p).2 (Or.inl ⟨rfl, Or.inl h⟩)⟩
  have htil := (hb.tiling.split (G := Head t i A) (g := fun p => (t.pages p).order)
    hhead ho hH hpc hpb (fun p h1 h2 => by simp only [hpo p h1 h2])).1
  refine ⟨hb.geom.of_frame hr.frame, ?_, ?_, ?_, hb.alloc_nodup, ?_, ?_, ?_⟩
  · intro o
    rw [hr.nf_eq o, hr.fl_eq o]
    by_cases h : o = j
    · subst h
      simp [List.erase_of_not_mem hcj, hb.count o]
    · by_cases h' : o = j + 1
      · subst h'
        simp [h, List.length_erase_of_mem hc, hb.count (j + 1)]
      · have : c ∉ fl s i o := hb.not_mem_of_order (by omega)
        simp [h, h', List.erase_of_not_mem this, hb.count o]
  · intro o
    rw [hr.fl_eq o]
    by_cases h : o = j
    · subst h
      rw [if_pos rfl, List.erase_of_not_mem hcj]
      refine List.nodup_cons.2 ⟨?_, List.nodup_cons.2 ⟨hcj, hb.nodup o⟩⟩
      intro hm
      rcases List.mem_cons.1 hm with hm | hm
      · exact hbc hm
      · exact hnb (Or.inr ⟨o, hm⟩)
    · rw [if_neg h]; exact (hb.nodup o).erase c
  · intro o p hp
    rcases (hmem o p).1 hp with ⟨h1, h | h⟩ | ⟨h1, h⟩
    · subst h; subst h1
      have hm := (hb.free_ok _ _ hc).2.2
      exact ⟨hpb, by rw [hr.pages_eq]; simp, by omega⟩
    · subst h; subst h1
      refine ⟨hpc, by rw [hr.pages_eq]; simp [hbc.symm, hfr], ?_⟩
      have := (hb.free_ok _ _ hc).2.2; omega
    · have hpb' : p ≠ c + 2 ^ j := fun e => hnb (e ▸ Or.inr ⟨o, h⟩)
      rw [hpo p h1 hpb']
      exact hb.free_ok o p h
  · intro p hp
    have h1 : p ≠ c := fun e => hb.not_alloc_of_free hfr (e ▸ hp)
    have h2 : p ≠ c + 2 ^ j := fun e => hnb (e ▸ Or.inl hp)
    rw [hpo p h1 h2]
    exact hb.alloc_ok p hp
  · intro p hp
    rw [hr.frame.in_table] at hp
    rw [hr.pages_eq]
    by_cases h1 : p = c + 2 ^ j
    · simp [h1]; rw [← h1]; exact hb.pool_ok p hp
    · by_cases h2 : p = c
      · simp [h1, h2]; rw [← h2]; exact hb.pool_ok p hp
      · simp [h1, h2]; exact hb.pool_ok p hp
  · rw [hr.frame.start_nr, hr.frame.meta, hr.frame.pages]
    exact htil

theorem SplitRel.split_coal {cfg : Config} {s t : State} {i : Nat} {A : List Nat} {c j : Nat}
    {e : Option Nat}
    (hb : Base cfg s i A) (hc : c ∈ fl s i (j + 1)) (hr : SplitRel s t i c j)
    (hco : Coal cfg s i e) (he : e = none ∨ e = some c) : Coal cfg t i (some c) := by
  intro o p hp hq ho hal
  have hmem := hr.split_mem_iff hb
  have hpos : 0 < 2 ^ j := two_pow_pos j
  have hpow : 2 ^ (j + 1) = 2 * 2 ^ j := Nat.pow_succ'
  have hhead := hb.head_of_mem hc
  have hca := hb.tiling.align c hhead
  have hct := hb.tiling.table c hhead
  simp only [hb.order_of_mem hc] at hca
  rw [hr.frame.page_nr] at hal
  rcases (hmem o p).1 hp with ⟨h1, h | h⟩ | ⟨h1, h⟩
  · exfalso
    subst h; subst h1
    unfold page_nr at hal
    have e1 : start_nr cfg (s.global_mem i) + (c + 2 ^ o - (s.global_mem i).page_metadata)
        = start_nr cfg (s.global_mem i) + (c - (s.global_mem i).page_metadata) + 2 ^ o := by
      omega
    rw [e1] at hal
    have := (Nat.dvd_add_right hca).1 hal
    have := Nat.le_of_dvd (two_pow_pos o) this
    omega
  · exact Or.inl (by rw [h])
  · rcases (hmem o (p + 2 ^ o)).1 hq with ⟨h1', h' | h'⟩ | ⟨h1', h'⟩
    · subst h1'
      have : p = c := by omega
      exact Or.inl (by rw [this])
    · exact Or.inr (by rw [h'])
    · rcases hco o p h h' ho hal with h2 | h2
      · rcases he with he | he
        · rw [he] at h2; exact Option.noConfusion h2
        · rw [he] at h2; exact Or.inl h2
      · rcases he with he | he
        · rw [he] at h2; exact Option.noConfusion h2
        · rw [he] at h2; exact Or.inr h2

/-! ## One level of `merge_chunk` -/

/-- The buddy that `get_buddy_chunk` finds for a free chunk of a well-formed
pool. -/
theorem Base.buddy_lookup {cfg : Config} {s : State} {i : Nat} {A : List Nat} {c o : Nat}
    (hb : Base cfg s i A) (hc : c ∈ fl s i o) :
    ∃ r, get_buddy_chunk cfg s i c = .ok r ∧
      (∀ b, r = some b →
        ((b = c + 2 ^ o ∧ 2 ^ (o + 1) ∣ page_nr cfg (s.global_mem i) c) ∨
         (c = b + 2 ^ o ∧ 2 ^ (o + 1) ∣ page_nr cfg (s.global_mem i) b)) ∧
        ((s.pages b).order = o → (s.pages b).allocated = false → b ∈ fl s i o)) ∧
      (∀ lo, 2 ^ (o + 1) ∣ page_nr cfg (s.global_mem i) lo → lo ∈ fl s i o →
        lo + 2 ^ o ∈ fl s i o →
        (c = lo → r = some (lo + 2 ^ o)) ∧ (c = lo + 2 ^ o → r = some lo)) := by
  have ho : (s.pages c).order = o := hb.order_of_mem hc
  have hhead := hb.head_of_mem hc
  have htab := hb.table_of_head hhead
  have hpool := hb.pool_ok c htab
  have hom : o < cfg.BUDDY_MAX_ORDER := (hb.free_ok _ _ hc).2.2
  have hal := hb.tiling.align c hhead
  have hwi := hb.tiling.within c hhead
  simp only [ho] at hal hwi
  have hpos : 0 < 2 ^ o := two_pow_pos o
  have hpow : 2 ^ (o + 1) = 2 * 2 ^ o := Nat.pow_succ'
  obtain ⟨ht1, ht2⟩ := htab
  have hmemfl : ∀ b, Head s i A b → (s.pages b).order ≤ o → (s.pages b).order = o →
      (s.pages b).allocated = false → b ∈ fl s i o := by
    intro b hh _ h2 h3
    have := hb.mem_of_head hh h3
    rw [h2] at this; exact this
  by_cases hd : 2 ^ (o + 1) ∣ page_nr cfg (s.global_mem i) c
  · refine ⟨_, get_buddy_up hb.geom ⟨ht1, ht2⟩ hpool ho hom hd, ?_, ?_⟩
    · intro b hbr
      by_cases hin : c + 2 ^ (o + 1)
          ≤ (s.global_mem i).page_metadata + (s.global_mem i).pool_phys_page_num
      · rw [if_pos hin] at hbr
        have hbe : b = c + 2 ^ o := (Option.some.inj hbr).symm
        refine ⟨Or.inl ⟨hbe, hd⟩, ?_⟩
        have hya : 2 ^ o ∣ start_nr cfg (s.global_mem i)
            + (b - (s.global_mem i).page_metadata) := by
          have e : start_nr cfg (s.global_mem i) + (b - (s.global_mem i).page_metadata)
              = start_nr cfg (s.global_mem i) + (c - (s.global_mem i).page_metadata)
                + 2 ^ o := by omega
          rw [e]; exact (Nat.dvd_add_right hal).2 (dvd_refl _)
        have hs := hb.tiling.sibling (c := c) (l := c) (y := b) (o := o) hhead ho hd ht1
          (le_refl _) (by omega) (by omega) (by omega) (by omega) hya
        exact hmemfl b hs.1 hs.2
      · rw [if_neg hin] at hbr; exact Option.noConfusion hbr
    · intro lo hlo h1 h2
      constructor
      · intro e
        subst e
        have := hb.tiling.within _ (hb.head_of_mem h2)
        simp only [hb.order_of_mem h2] at this
        rw [if_pos (by omega)]
      · intro e
        exfalso
        have hlt := hb.tiling.table lo (hb.head_of_mem h1)
        unfold page_nr at hd hlo
        have e1 : start_nr cfg (s.global_mem i) + (c - (s.global_mem i).page_metadata)
            = start_nr cfg (s.global_mem i) + (lo - (s.global_mem i).page_metadata)
              + 2 ^ o := by omega
        rw [e1] at hd
        have := Nat.le_of_dvd hpos ((Nat.dvd_add_right hlo).1 hd)
        omega
  · obtain ⟨h1, h2, h3⟩ := get_buddy_down hb.geom ⟨ht1, ht2⟩ hpool ho hom hal hd
    refine ⟨_, h3, ?_, ?_⟩
    · intro b hbr
      by_cases hin : (s.global_mem i).page_metadata + 2 ^ o ≤ c
      · rw [if_pos hin] at hbr
        have hbe : b = c - 2 ^ o := (Option.some.inj hbr).symm
        have hcb : c = b + 2 ^ o := by omega
        have hpb : page_nr cfg (s.global_mem i) b
            = page_nr cfg (s.global_mem i) c - 2 ^ o := by
          unfold page_nr; omega
        have hdb : 2 ^ (o + 1) ∣ page_nr cfg (s.global_mem i) b := by rw [hpb]; exact h2
        refine ⟨Or.inr ⟨hcb, hdb⟩, ?_⟩
        have hya : 2 ^ o ∣ start_nr cfg (s.global_mem i)
            + (b - (s.global_mem i).page_metadata) :=
          Dvd.dvd.trans (pow_dvd_pow 2 (Nat.le_succ o)) hdb
        have hs := hb.tiling.sibling (c := c) (l := b) (y := b) (o := o) hhead ho hdb
          (by omega) (by omega) (by omega) (le_refl _) (by omega) (by omega) hya
        exact hmemfl b hs.1 hs.2
      · rw [if_neg hin] at hbr; exact Option.noConfusion hbr
    · intro lo hlo h1' h2'
      constructor
      · intro e; subst e; exact absurd hlo hd
      · intro e
        have hlt := hb.tiling.table lo (hb.head_of_mem h1')
        rw [if_pos (by omega)]
        congr 1; omega

theorem length_ge_two_of_mem {l : List Nat} {a b : Nat} (ha : a ∈ l) (hb : b ∈ l)
    (hab : a ≠ b) : 2 ≤ l.length := by
  have h1 : b ∈ l.erase a := (List.mem_erase_of_ne (Ne.symm hab)).2 hb
  have h2 := List.length_pos_of_mem h1
  rw [List.length_erase_of_mem ha] at h2
  omega

/-- What the body of `merge_chunk` does on a free chunk `c` of order `o` of a
well-formed pool: it returns without a change, and then `c` has no free buddy
unless its order is the last one, or it merges `c` with its buddy. -/
theorem merge_body_spec {cfg : Config} {s : State} {i : Nat} {A : List Nat} {c o : Nat}
    (hb : Base cfg s i A) (hc : c ∈ fl s i o) :
    (merge_body cfg s i c = .ok (s, none) ∧
      (o + 1 < cfg.BUDDY_MAX_ORDER →
        ∀ lo, 2 ^ (o + 1) ∣ page_nr cfg (s.global_mem i) lo → lo ∈ fl s i o →
          lo + 2 ^ o ∈ fl s i o → c ≠ lo ∧ c ≠ lo + 2 ^ o)) ∨
    (∃ lo t, merge_body cfg s i c = .ok (t, some lo) ∧ o + 1 < cfg.BUDDY_MAX_ORDER ∧
      (c = lo ∨ c = lo + 2 ^ o) ∧ lo ∈ fl s i o ∧ lo + 2 ^ o ∈ fl s i o ∧
      2 ^ (o + 1) ∣ page_nr cfg (s.global_mem i) lo ∧ MergeRel s t i lo o) := by
  have ho : (s.pages c).order = o := hb.order_of_mem hc
  have hfr : (s.pages c).allocated = false := hb.free_of_mem hc
  have hpos : 0 < 2 ^ o := two_pow_pos o
  by_cases hcap : o ≥ cfg.BUDDY_MAX_ORDER - 1
  · left
    refine ⟨?_, fun h => by omega⟩
    unfold merge_body
    simp only [ho, hcap, if_true]
  · obtain ⟨r, hr, hr1, hr2⟩ := hb.buddy_lookup hc
    have hs1 : s.setPage c
        { allocated := false, order := (s.pages c).order, pool := (s.pages c).pool } = s :=
      setPage_self s c _ (by rw [← hfr])
    have hom : o + 1 < cfg.BUDDY_MAX_ORDER := by omega
    have hstop : (∀ b, r = some b → ¬ ((s.pages b).order = o ∧ (s.pages b).allocated = false)) →
        ∀ lo, 2 ^ (o + 1) ∣ page_nr cfg (s.global_mem i) lo → lo ∈ fl s i o →
          lo + 2 ^ o ∈ fl s i o → c ≠ lo ∧ c ≠ lo + 2 ^ o := by
      intro hno lo hlo h1 h2
      obtain ⟨e1, e2⟩ := hr2 lo hlo h1 h2
      constructor
      · intro e
        exact hno _ (e1 e) ⟨hb.order_of_mem h2, hb.free_of_mem h2⟩
      · intro e
        exact hno _ (e2 e) ⟨hb.order_of_mem h1, hb.free_of_mem h1⟩
    unfold merge_body
    simp only [hs1]
    simp only [ho, hcap, if_false, hr]
    cases r with
    | none =>
      left
      exact ⟨rfl, fun _ => hstop (fun b hb' => Option.noConfusion hb')⟩
    | some b =>
      simp only
      by_cases hbo : (s.pages b).order = o
      · by_cases hba : (s.pages b).allocated = true
        · left
          simp only [hbo, ne_eq, not_true_eq_false, if_false, hba, if_true]
          refine ⟨trivial, fun _ => hstop ?_⟩
          intro b' hb' h
          rw [← Option.some.inj hb', hba] at h
          exact Bool.noConfusion h.2
        · right
          have hba' : (s.pages b).allocated = false := by simpa using hba
          obtain ⟨hgeo, hmem⟩ := hr1 b rfl
          have hbm : b ∈ fl s i o := hmem hbo hba'
          have hbc : b ≠ c := by rcases hgeo with ⟨h, _⟩ | ⟨h, _⟩ <;> omega
          have hlen := length_ge_two_of_mem hc hbm (Ne.symm hbc)
          rw [← hb.count o] at hlen
          have hnf1 : ((s.global_mem i).free_lists o).nr_free ≠ 0 := by
            have : nf s i o = ((s.global_mem i).free_lists o).nr_free := rfl
            omega
          have hnf2 : ∀ x, nf (nr_free_dec (list_del s i x) i o) i o ≠ 0 := by
            intro x; simp; omega
          simp only [hbo, ne_eq, not_true_eq_false, if_false, hba', Bool.false_eq_true, hnf1]
          generalize hlo : (if b < c then b else c) = lo
          generalize hhi : (if b < c then c else b) = hi
          have hlh : (c = lo ∨ c = lo + 2 ^ o) ∧ hi = lo + 2 ^ o ∧ lo ∈ fl s i o
              ∧ hi ∈ fl s i o ∧ 2 ^ (o + 1) ∣ page_nr cfg (s.global_mem i) lo := by
            rcases hgeo with ⟨h, hd⟩ | ⟨h, hd⟩
            · have : ¬ b < c := by omega
              rw [if_neg this] at hlo hhi
              subst hlo; subst hhi
              exact ⟨Or.inl rfl, h, hc, hbm, hd⟩
            · have : b < c := by omega
              rw [if_pos this] at hlo hhi
              subst hlo; subst hhi
              exact ⟨Or.inr h, h, hbm, hc, hd⟩
          obtain ⟨h1, h2, h3, h4, h5⟩ := hlh
          have hnf2' := hnf2 lo
          unfold nf at hnf2'
          rw [if_neg hnf2']
          refine ⟨lo, _, rfl, hom, h1, h3, h2 ▸ h4, h5, ?_, ?_, ?_, ?_⟩
          · exact (((Frame.list_del s i lo).trans (Frame.nr_free_dec _ i _)).trans
              ((Frame.list_del _ i hi).trans (Frame.nr_free_dec _ i _))).trans
              ((Frame.setPage _ _ _ i).trans
                ((Frame.list_add _ i _ _).trans (Frame.nr_free_inc _ i _)))
          · intro q
            have hlo_o : (s.pages lo).order = o := hb.order_of_mem h3
            by_cases hq : q = lo
            · subst hq; simp [hlo_o]
            · simp [hq]
          · intro o'
            subst h2
            by_cases h : o' = o + 1
            · simp [h]
            · simp [h]
          · intro o'
            by_cases h : o' = o + 1
            · subst h; simp
            · by_cases h' : o' = o
              · subst h'; simp [h]
              · simp [h, h']
      · left
        simp only [ne_eq, hbo, not_false_eq_true, if_true]
        refine ⟨trivial, fun _ => hstop ?_⟩
        intro b' hb' h
        rw [← Option.some.inj hb'] at h
        exact hbo h.1

theorem MergeRel.merge_mem_iff {cfg : Config} {s t : State} {i : Nat} {A : List Nat} {lo o : Nat}
    (hb : Base cfg s i A) (hr : MergeRel s t i lo o) (o' p : Nat) :
    p ∈ fl t i o' ↔
      (o' = o + 1 ∧ p = lo) ∨ (p ≠ lo ∧ p ≠ lo + 2 ^ o ∧ p ∈ fl s i o') := by
  rw [hr.fl_eq o']
  have hE : p ∈ ((fl s i o').erase lo).erase (lo + 2 ^ o)
      ↔ p ≠ lo ∧ p ≠ lo + 2 ^ o ∧ p ∈ fl s i o' := by
    rw [((hb.nodup o').erase lo).mem_erase_iff, (hb.nodup o').mem_erase_iff]
    tauto
  by_cases h : o' = o + 1
  · simp only [h, if_true, List.mem_cons, true_and]
    rw [← h, hE]
  · simp only [h, if_false, false_and, false_or]
    exact hE

theorem MergeRel.merge_base {cfg : Config} {s t : State} {i : Nat} {A : List Nat} {lo o : Nat}
    (hb : Base cfg s i A) (hlo : lo ∈ fl s i o) (hhi : lo + 2 ^ o ∈ fl s i o)
    (hom : o + 1 < cfg.BUDDY_MAX_ORDER)
    (hal : 2 ^ (o + 1) ∣ page_nr cfg (s.global_mem i) lo) (hr : MergeRel s t i lo o) :
    Base cfg t i A := by
  have hpos : 0 < 2 ^ o := two_pow_pos o
  have hmem := hr.merge_mem_iff hb
  have hloo := hb.order_of_mem hlo
  have hhio := hb.order_of_mem hhi
  have hlof := hb.free_of_mem hlo
  have hhif := hb.free_of_mem hhi
  have hne : lo + 2 ^ o ≠ lo := by omega
  have hpl : (t.pages lo).order = o + 1 := by rw [hr.pages_eq]; simp
  have hpo : ∀ p, p ≠ lo → t.pages p = s.pages p := by
    intro p h; rw [hr.pages_eq]; simp [h]
  have hE : ∀ o', o' ≠ o → ((fl s i o').erase lo).erase (lo + 2 ^ o) = fl s i o' := by
    intro o' h
    have h1 : lo ∉ fl s i o' := hb.not_mem_of_order (by omega)
    have h2 : lo + 2 ^ o ∉ fl s i o' := hb.not_mem_of_order (by omega)
    rw [List.erase_of_not_mem h1, List.erase_of_not_mem h2]
  have hH : ∀ p, Head t i A p ↔ Head s i A p ∧ p ≠ lo + 2 ^ o := by
    intro p
    constructor
    · rintro (h | ⟨o', h⟩)
      · exact ⟨Or.inl h, fun e => hb.not_alloc_of_free hhif (e ▸ h)⟩
      · rcases (hmem o' p).1 h with ⟨_, h⟩ | ⟨_, h1, h2⟩
        · rw [h]; exact ⟨hb.head_of_mem hlo, hne.symm⟩
        · exact ⟨Or.inr ⟨o', h2⟩, h1⟩
    · rintro ⟨h | ⟨o', h⟩, hp⟩
      · exact Or.inl h
      · by_cases hpl' : p = lo
        · exact Or.inr ⟨o + 1, (hmem _ p).2 (Or.inl ⟨rfl, hpl'⟩)⟩
        · exact Or.inr ⟨o', (hmem _ p).2 (Or.inr ⟨hpl', hp, h⟩)⟩
  have htil := hb.tiling.merge (G := Head t i A) (g := fun p => (t.pages p).order)
    (hb.head_of_mem hlo) (hb.head_of_mem hhi) hloo hhio hal hH hpl
    (fun p h => by simp only [hpo p h])
  refine ⟨hb.geom.of_frame hr.frame, ?_, ?_, ?_, hb.alloc_nodup, ?_, ?_, ?_⟩
  · intro o'
    rw [hr.nf_eq o', hr.fl_eq o']
    by_cases h : o' = o + 1
    · subst h
      simp [hE (o + 1) (by omega), hb.count (o + 1)]
    · by_cases h' : o' = o
      · subst h'
        have h1 : lo + 2 ^ o' ∈ (fl s i o').erase lo := (List.mem_erase_of_ne hne).2 hhi
        simp [h, List.length_erase_of_mem h1, List.length_erase_of_mem hlo, hb.count o']
      · simp [h, h', hE o' h', hb.count o']
  · intro o'
    rw [hr.fl_eq o']
    have hn : (((fl s i o').erase lo).erase (lo + 2 ^ o)).Nodup :=
      ((hb.nodup o').erase lo).erase _
    by_cases h : o' = o + 1
    · rw [if_pos h]
      refine List.nodup_cons.2 ⟨?_, hn⟩
      rw [hE o' (by omega)]
      exact hb.not_mem_of_order (by omega)
    · rw [if_neg h]; exact hn
  · intro o' p hp
    rcases (hmem o' p).1 hp with ⟨h1, h⟩ | ⟨h1, _, h⟩
    · subst h; subst h1
      exact ⟨hpl, by rw [hr.pages_eq]; simp [hlof], hom⟩
    · rw [hpo p h1]; exact hb.free_ok o' p h
  · intro p hp
    have h1 : p ≠ lo := fun e => hb.not_alloc_of_free hlof (e ▸ hp)
    rw [hpo p h1]
    exact hb.alloc_ok p hp
  · intro p hp
    rw [hr.frame.in_table] at hp
    rw [hr.pages_eq]
    by_cases h1 : p = lo
    · simp [h1]; rw [← h1]; exact hb.pool_ok p hp
    · simp [h1]; exact hb.pool_ok p hp
  · rw [hr.frame.start_nr, hr.frame.meta, hr.frame.pages]
    exact htil

theorem MergeRel.merge_coal {cfg : Config} {s t : State} {i : Nat} {A : List Nat} {lo o c : Nat}
    (hb : Base cfg s i A) (hr : MergeRel s t i lo o)
    (hco : Coal cfg s i (some c)) (hc : c = lo ∨ c = lo + 2 ^ o) :
    Coal cfg t i (some lo) := by
  intro o' p hp hq ho hal
  have hmem := hr.merge_mem_iff hb
  rw [hr.frame.page_nr] at hal
  rcases (hmem o' p).1 hp with ⟨_, h⟩ | ⟨h1, h2, h3⟩
  · exact Or.inl (by rw [h])
  · rcases (hmem o' (p + 2 ^ o')).1 hq with ⟨_, h⟩ | ⟨h1', h2', h3'⟩
    · exact Or.inr (by rw [h])
    · exfalso
      rcases hco o' p h3 h3' ho hal with e | e
      · have := Option.some.inj e
        rcases hc with hc | hc <;> omega
      · have := Option.some.inj e
        rcases hc with hc | hc <;> omega

/-- Once `merge_chunk` stops, no free chunk has a free buddy any more. -/
theorem coal_of_stop {cfg : Config} {s : State} {i : Nat} {A : List Nat} {c o : Nat}
    (hb : Base cfg s i A) (hc : c ∈ fl s i o) (hco : Coal cfg s i (some c))
    (hstop : o + 1 < cfg.BUDDY_MAX_ORDER →
      ∀ lo, 2 ^ (o + 1) ∣ page_nr cfg (s.global_mem i) lo → lo ∈ fl s i o →
        lo + 2 ^ o ∈ fl s i o → c ≠ lo ∧ c ≠ lo + 2 ^ o) :
    Coal cfg s i none := by
  intro o' p hp hq ho hal
  exfalso
  have hoc := hb.order_of_mem hc
  rcases hco o' p hp hq ho hal with e | e
  · have e' := Option.some.inj e
    have : o' = o := by rw [← hb.order_of_mem hp, ← e', hoc]
    subst this
    exact (hstop ho p hal hp hq).1 e'
  · have e' := Option.some.inj e
    have : o' = o := by rw [← hb.order_of_mem hq, ← e', hoc]
    subst this
    exact (hstop ho p hal hp hq).2 e'

/-- On a free chunk of a well-formed pool `merge_chunk` returns, the fuel being
enough, and leaves a well-formed pool without free buddies. -/
theorem merge_chunk_fuel_spec {cfg : Config} {i : Nat} {A : List Nat} :
    ∀ (fuel : Nat) (s : State) (c o : Nat), Base cfg s i A → c ∈ fl s i o →
      Coal cfg s i (some c) → cfg.BUDDY_MAX_ORDER ≤ fuel + o + 1 →
      ∃ t, merge_chunk_fuel cfg i fuel s c = .ok t ∧ Base cfg t i A ∧ Coal cfg t i none
        ∧ Frame s t i := by
  intro fuel
  induction fuel with
  | zero =>
    intro s c o hb hc hco hf
    rcases merge_body_spec hb hc with ⟨h1, h2⟩ | ⟨lo, t, _, h2, _⟩
    · refine ⟨s, ?_, hb, coal_of_stop hb hc hco h2, Frame.refl s i⟩
      simp [merge_chunk_fuel, h1]
    · omega
  | succ fuel ih =>
    intro s c o hb hc hco hf
    rcases merge_body_spec hb hc with ⟨h1, h2⟩ | ⟨lo, t, h1, h2, h3, h4, h5, h6, h7⟩
    · refine ⟨s, ?_, hb, coal_of_stop hb hc hco h2, Frame.refl s i⟩
      simp [merge_chunk_fuel, h1]
    · have hbt := h7.merge_base hb h4 h5 h2 h6
      have hct := h7.merge_coal hb hco h3
      have hlt : lo ∈ fl t i (o + 1) := (h7.merge_mem_iff hb _ _).2 (Or.inl ⟨rfl, rfl⟩)
      obtain ⟨u, hu1, hu2, hu3, hu4⟩ := ih t lo (o + 1) hbt hlt hct (by omega)
      refine ⟨u, ?_, hu2, hu3, h7.frame.trans hu4⟩
      simp [merge_chunk_fuel, h1, hu1]

/-! ## The invariant under `buddy_free_pages` and `buddy_get_pages` -/

theorem Base.transport {cfg : Config} {s t : State} {i : Nat} {A : List Nat}
    (hb : Base cfg s i A) (hf : Frame s t i) (hp : t.pages = s.pages)
    (hfl : ∀ o, fl t i o = fl s i o) (hnf : ∀ o, nf t i o = nf s i o) : Base cfg t i A := by
  have hH : ∀ p, Head t i A p ↔ Head s i A p := by
    intro p; unfold Head; simp only [hfl]
  refine ⟨hb.geom.of_frame hf, ?_, ?_, ?_, hb.alloc_nodup, ?_, ?_, ?_⟩
  · intro o; rw [hnf, hfl]; exact hb.count o
  · intro o; rw [hfl]; exact hb.nodup o
  · intro o p h; rw [hfl] at h; rw [hp]; exact hb.free_ok o p h
  · intro p h; rw [hp]; exact hb.alloc_ok p h
  · intro p h; rw [hf.in_table] at h; rw [hp]; exact hb.pool_ok p h
  · rw [hf.start_nr, hf.meta, hf.pages, hp]
    exact hb.tiling.congr hH (fun _ _ => rfl)

theorem Coal.coal_transport {cfg : Config} {s t : State} {i : Nat} {e : Option Nat}
    (hc : Coal cfg s i e) (hf : Frame s t i) (hfl : ∀ o, fl t i o = fl s i o) :
    Coal cfg t i e := by
  intro o p h1 h2 h3 h4
  rw [hfl] at h1 h2
  rw [hf.page_nr] at h4
  exact hc o p h1 h2 h3 h4

theorem Coal.weaken {cfg : Config} {s : State} {i : Nat} (hc : Coal cfg s i none)
    (e : Option Nat) : Coal cfg s i e := by
  intro o p h1 h2 h3 h4
  rcases hc o p h1 h2 h3 h4 with h | h <;> exact Option.noConfusion h

theorem FreeRel.free_base {cfg : Config} {s t : State} {i : Nat} {A : List Nat} {c o : Nat}
    (hb : Base cfg s i A) (hc : c ∈ A) (ho : (s.pages c).order = o)
    (hr : FreeRel s t i c o) : Base cfg t i (A.erase c) := by
  have hal := (hb.alloc_ok c hc).1
  have hom := (hb.alloc_ok c hc).2
  have hcn : ∀ o', c ∉ fl s i o' := fun o' => hb.not_mem_of_alloc hal
  have hpo : ∀ p, p ≠ c → t.pages p = s.pages p := by
    intro p h; rw [hr.pages_eq]; simp [h]
  have hord : ∀ p, (t.pages p).order = (s.pages p).order := by
    intro p; rw [hr.pages_eq]
    by_cases h : p = c
    · simp [h]
    · simp [h]
  have hmem : ∀ o' p, p ∈ fl t i o' ↔ (o' = o ∧ p = c) ∨ p ∈ fl s i o' := by
    intro o' p
    rw [hr.fl_eq]
    by_cases h : o' = o
    · simp [h]
    · simp [h]
  have hH : ∀ p, Head t i (A.erase c) p ↔ Head s i A p := by
    intro p
    constructor
    · rintro (h | ⟨o', h⟩)
      · exact Or.inl (List.mem_of_mem_erase h)
      · rcases (hmem o' p).1 h with ⟨_, h⟩ | h
        · rw [h]; exact Or.inl hc
        · exact Or.inr ⟨o', h⟩
    · rintro (h | ⟨o', h⟩)
      · by_cases hp : p = c
        · exact Or.inr ⟨o, (hmem o p).2 (Or.inl ⟨rfl, hp⟩)⟩
        · exact Or.inl ((List.mem_erase_of_ne hp).2 h)
      · exact Or.inr ⟨o', (hmem o' p).2 (Or.inr h)⟩
  refine ⟨hb.geom.of_frame hr.frame, ?_, ?_, ?_, hb.alloc_nodup.erase c, ?_, ?_, ?_⟩
  · intro o'
    rw [hr.nf_eq, hr.fl_eq]
    by_cases h : o' = o
    · simp [h, hb.count o]
    · simp [h, hb.count o']
  · intro o'
    rw [hr.fl_eq]
    by_cases h : o' = o
    · rw [if_pos h]
      exact List.nodup_cons.2 ⟨hcn o', hb.nodup o'⟩
    · rw [if_neg h]; exact hb.nodup o'
  · intro o' p hp
    rcases (hmem o' p).1 hp with ⟨h1, h⟩ | h
    · subst h; subst h1
      refine ⟨by rw [hord]; exact ho, by rw [hr.pages_eq]; simp, ?_⟩
      rw [← ho]; exact hom
    · have : p ≠ c := fun e => hcn o' (e ▸ h)
      rw [hpo p this]; exact hb.free_ok o' p h
  · intro p hp
    have h1 : p ≠ c := fun e => by
      rw [e] at hp
      exact (List.Nodup.mem_erase_iff hb.alloc_nodup).1 hp |>.1 rfl
    rw [hpo p h1]
    exact hb.alloc_ok p (List.mem_of_mem_erase hp)
  · intro p hp
    rw [hr.frame.in_table] at hp
    rw [hr.pages_eq]
    by_cases h1 : p = c
    · simp [h1]; rw [← h1]; exact hb.pool_ok p hp
    · simp [h1]; exact hb.pool_ok p hp
  · rw [hr.frame.start_nr, hr.frame.meta, hr.frame.pages]
    exact hb.tiling.congr hH (fun p _ => hord p)

theorem FreeRel.free_coal (cfg : Config) {s t : State} {i : Nat} {c o : Nat}
    (hr : FreeRel s t i c o) (hco : Coal cfg s i none) : Coal cfg t i (some c) := by
  intro o' p hp hq ho hal
  rw [hr.frame.page_nr] at hal
  rw [hr.fl_eq] at hp hq
  by_cases h : o' = o
  · rw [if_pos h] at hp hq
    rcases List.mem_cons.1 hp with hp | hp
    · exact Or.inl (by rw [hp])
    · rcases List.mem_cons.1 hq with hq | hq
      · exact Or.inr (by rw [hq])
      · rcases hco o' p hp hq ho hal with e | e <;> exact Option.noConfusion e
  · rw [if_neg h] at hp hq
    rcases hco o' p hp hq ho hal with e | e <;> exact Option.noConfusion e

theorem GetRel.get_base {cfg : Config} {s t : State} {i : Nat} {A : List Nat} {c o : Nat}
    (hb : Base cfg s i A) (hc : c ∈ fl s i o) (hr : GetRel s t i c o) :
    Base cfg t i (c :: A) := by
  have hfr := hb.free_of_mem hc
  have hco := hb.order_of_mem hc
  have hom := (hb.free_ok o c hc).2.2
  have hcA : c ∉ A := hb.not_alloc_of_free hfr
  have hpo : ∀ p, p ≠ c → t.pages p = s.pages p := by
    intro p h; rw [hr.pages_eq]; simp [h]
  have hord : ∀ p, (t.pages p).order = (s.pages p).order := by
    intro p; rw [hr.pages_eq]
    by_cases h : p = c
    · simp [h]
    · simp [h]
  have hmem : ∀ o' p, p ∈ fl t i o' ↔ p ≠ c ∧ p ∈ fl s i o' := by
    intro o' p
    rw [hr.fl_eq, (hb.nodup o').mem_erase_iff]
  have hH : ∀ p, Head t i (c :: A) p ↔ Head s i A p := by
    intro p
    constructor
    · rintro (h | ⟨o', h⟩)
      · rcases List.mem_cons.1 h with h | h
        · rw [h]; exact hb.head_of_mem hc
        · exact Or.inl h
      · exact Or.inr ⟨o', ((hmem o' p).1 h).2⟩
    · rintro (h | ⟨o', h⟩)
      · exact Or.inl (List.mem_cons_of_mem c h)
      · by_cases hp : p = c
        · exact Or.inl (by rw [hp]; exact List.mem_cons_self c A)
        · exact Or.inr ⟨o', (hmem o' p).2 ⟨hp, h⟩⟩
  refine ⟨hb.geom.of_frame hr.frame, ?_, ?_, ?_, List.nodup_cons.2 ⟨hcA, hb.alloc_nodup⟩,
    ?_, ?_, ?_⟩
  · intro o'
    rw [hr.nf_eq, hr.fl_eq]
    by_cases h : o' = o
    · subst h
      simp [List.length_erase_of_mem hc, hb.count o']
    · have : c ∉ fl s i o' := hb.not_mem_of_order (by omega)
      simp [h, List.erase_of_not_mem this, hb.count o']
  · intro o'
    rw [hr.fl_eq]; exact (hb.nodup o').erase c
  · intro o' p hp
    obtain ⟨h1, h2⟩ := (hmem o' p).1 hp
    rw [hpo p h1]; exact hb.free_ok o' p h2
  · intro p hp
    rcases List.mem_cons.1 hp with h | h
    · subst h
      exact ⟨by rw [hr.pages_eq]; simp, by rw [hord, hco]; exact hom⟩
    · have h1 : p ≠ c := fun e => hcA (e ▸ h)
      rw [hpo p h1]; exact hb.alloc_ok p h
  · intro p hp
    rw [hr.frame.in_table] at hp
    rw [hr.pages_eq]
    by_cases h1 : p = c
    · simp [h1]
    · simp [h1]; exact hb.pool_ok p hp
  · rw [hr.frame.start_nr, hr.frame.meta, hr.frame.pages]
    exact hb.tiling.congr hH (fun p _ => hord p)

theorem GetRel.get_coal {cfg : Config} {s t : State} {i : Nat} {A : List Nat} {c o : Nat}
    (hb : Base cfg s i A) (hr : GetRel s t i c o) (hco : Coal cfg s i (some c)) :
    Coal cfg t i none := by
  intro o' p hp hq ho hal
  rw [hr.frame.page_nr] at hal
  rw [hr.fl_eq, (hb.nodup o').mem_erase_iff] at hp hq
  exfalso
  rcases hco o' p hp.2 hq.2 ho hal with e | e
  · exact hp.1 (Option.some.inj e).symm
  · exact hq.1 (Option.some.inj e).symm

theorem Inv.base_locked {cfg : Config} {s : State} {i : Nat} {A : List Nat} (h : Inv cfg s i A) :
    Base cfg (locked s i) i A ∧ Coal cfg (locked s i) i none :=
  ⟨h.base.transport (Frame.locked s i) rfl (fun o => fl_locked s i o) (fun o => nf_locked s i o),
    h.coal.coal_transport (Frame.locked s i) (fun o => fl_locked s i o)⟩

theorem Inv.of_unlock {cfg : Config} {s : State} {i : Nat} {A : List Nat}
    (hb : Base cfg s i A) (hc : Coal cfg s i none) : Inv cfg (unlock s i) i A :=
  ⟨hb.transport (Frame.unlock s i) rfl (fun o => fl_unlock s i o) (fun o => nf_unlock s i o),
    hc.coal_transport (Frame.unlock s i) (fun o => fl_unlock s i o), held_unlock s i⟩

/-- The state of `buddy_free_pages` at its call of `merge_chunk`. -/
theorem free_rel (s : State) (i c : Nat) :
    FreeRel s (nr_free_inc (list_add (s.setPage c { s.pages c with allocated := false })
      i (s.pages c).order c) i (s.pages c).order) i c (s.pages c).order := by
  refine ⟨?_, ?_, ?_, ?_⟩
  · exact (Frame.setPage _ _ _ i).trans ((Frame.list_add _ i _ _).trans (Frame.nr_free_inc _ i _))
  · intro q
    by_cases h : q = c
    · simp [h]
    · simp [h]
  · intro o'
    by_cases h : o' = (s.pages c).order
    · simp [h]
    · simp [h]
  · intro o'
    by_cases h : o' = (s.pages c).order
    · simp [h]
    · simp [h]

/-- A valid `buddy_free_pages` returns and keeps the invariant. -/
theorem buddy_free_pages_spec {cfg : Config} {s : State} {i : Nat} {A : List Nat} {p : Nat}
    (h : Inv cfg s i A) (hp : p ∈ A) :
    ∃ t, buddy_free_pages cfg s i (some p) = .ok t ∧ Inv cfg t i (A.erase p) ∧ Frame s t i := by
  obtain ⟨hb1, hc1⟩ := h.base_locked
  have hr := free_rel (locked s i) i p
  have hb3 := hr.free_base hb1 hp rfl
  have hc3 := hr.free_coal cfg hc1
  have hm : p ∈ fl (nr_free_inc (list_add ((locked s i).setPage p
      { (locked s i).pages p with allocated := false }) i ((locked s i).pages p).order p) i
      ((locked s i).pages p).order) i ((locked s i).pages p).order := by
    rw [hr.fl_eq]; simp
  obtain ⟨t, ht1, ht2, ht3, ht4⟩ :=
    merge_chunk_fuel_spec cfg.BUDDY_MAX_ORDER _ p _ hb3 hm hc3 (by omega)
  refine ⟨unlock t i, ?_, Inv.of_unlock ht2 ht3,
    (((Frame.locked s i).trans hr.frame).trans ht4).trans (Frame.unlock t i)⟩
  unfold buddy_free_pages
  rw [lock_eq h.unlocked]
  simp only [pages_setPage, if_true]
  unfold merge_chunk
  simp only [pages_setPage, if_true] at ht1
  rw [ht1]

/-- The search loop of `buddy_get_pages` on a well-formed pool: it finds the head
of the first non-empty free list, or none when all lists looked at are empty. -/
theorem find_chunk_spec {cfg : Config} {s : State} {i : Nat} {A : List Nat}
    (hb : Base cfg s i A) :
    ∀ n cur, (find_chunk s i n cur = .ok none ∧ ∀ o, cur ≤ o → o < cur + n → fl s i o = []) ∨
      (∃ p k l, find_chunk s i n cur = .ok (some p) ∧ cur ≤ k ∧ k < cur + n ∧
        fl s i k = p :: l ∧ ∀ o, cur ≤ o → o < k → fl s i o = []) := by
  intro n
  induction n with
  | zero =>
    intro cur
    left
    exact ⟨rfl, fun o h1 h2 => by omega⟩
  | succ n ih =>
    intro cur
    unfold find_chunk
    have hcnt := hb.count cur
    unfold nf at hcnt
    by_cases hz : ((s.global_mem i).free_lists cur).nr_free > 0
    · right
      simp only [hz, if_true]
      cases hl : fl s i cur with
      | nil => rw [hl] at hcnt; simp at hcnt; omega
      | cons p l =>
        have hl' : ((s.global_mem i).free_lists cur).free_list = p :: l := hl
        have hm : p ∈ fl s i cur := by rw [hl]; exact List.mem_cons_self p l
        have h1 := hb.order_of_mem hm
        have h2 := hb.free_of_mem hm
        refine ⟨p, cur, l, ?_, le_refl _, by omega, hl, fun o h3 h4 => by omega⟩
        simp [hl', h1, h2]
    · have hz' : ((s.global_mem i).free_lists cur).nr_free = 0 := by omega
      have hnil : fl s i cur = [] := by
        rw [hz'] at hcnt
        exact List.length_eq_zero.1 hcnt.symm
      simp only [hz, if_false]
      rcases ih (cur + 1) with ⟨h1, h2⟩ | ⟨p, k, l, h1, h2, h3, h4, h5⟩
      · left
        refine ⟨h1, fun o h3 h4 => ?_⟩
        by_cases ho : o = cur
        · rw [ho]; exact hnil
        · exact h2 o (by omega) (by omega)
      · right
        refine ⟨p, k, l, h1, by omega, by omega, h4, fun o h6 h7 => ?_⟩
        by_cases ho : o = cur
        · rw [ho]; exact hnil
        · exact h5 o (by omega) h7

/-- On a free chunk of order at least `order` of a well-formed pool `split_chunk`
returns the chunk, now of order `order` and on the free list of that order. -/
theorem split_chunk_fuel_spec {cfg : Config} {i m : Nat} {A : List Nat} {c : Nat} :
    ∀ (fuel : Nat) (s : State) (k : Nat), Base cfg s i A → c ∈ fl s i k →
      Coal cfg s i (some c) → m ≤ k → k ≤ fuel + m →
      ∃ t, split_chunk_fuel cfg i m fuel s (some c) = .ok (t, some c) ∧ Base cfg t i A
        ∧ c ∈ fl t i m ∧ Coal cfg t i (some c) ∧ Frame s t i := by
  intro fuel
  induction fuel with
  | zero =>
    intro s k hb hc hco h1 h2
    have hk : k = m := by omega
    subst hk
    refine ⟨s, ?_, hb, hc, hco, Frame.refl s i⟩
    simp [split_chunk_fuel, hb.order_of_mem hc]
  | succ fuel ih =>
    intro s k hb hc hco h1 h2
    have hok := hb.order_of_mem hc
    by_cases hk : k = m
    · subst hk
      refine ⟨s, ?_, hb, hc, hco, Frame.refl s i⟩
      simp [split_chunk_fuel, hok]
    · obtain ⟨j, rfl⟩ : ∃ j, k = j + 1 := ⟨k - 1, by omega⟩
      obtain ⟨t, ht1, ht2⟩ := split_step_spec hb hc
      have hbt := ht2.split_base hb hc
      have hct := ht2.split_coal hb hc hco (Or.inr rfl)
      have hm : c ∈ fl t i j := (ht2.split_mem_iff hb j c).2 (Or.inl ⟨rfl, Or.inr rfl⟩)
      obtain ⟨u, hu1, hu2, hu3, hu4, hu5⟩ := ih t j hbt hm hct (by omega) (by omega)
      refine ⟨u, ?_, hu2, hu3, hu4, ht2.frame.trans hu5⟩
      have hlt : ¬ j + 1 < m := by omega
      simp [split_chunk_fuel, hok, hlt, hk, ht1, hu1]

theorem split_chunk_none (cfg : Config) (i order fuel : Nat) (s : State) :
    split_chunk_fuel cfg i order fuel s none = .ok (s, none) := by
  cases fuel <;> rfl

/-- The state of `buddy_get_pages` at its return. -/
theorem get_rel (s : State) (i c o : Nat) :
    GetRel s ((nr_free_dec (list_del s i c) i o).setPage c
      { (nr_free_dec (list_del s i c) i o).pages c with allocated := true, pool := some i })
      i c o := by
  refine ⟨?_, ?_, ?_, ?_⟩
  · exact ((Frame.list_del s i c).trans (Frame.nr_free_dec _ i _)).trans (Frame.setPage _ _ _ i)
  · intro q
    by_cases h : q = c
    · simp [h]
    · simp [h]
  · intro o'; simp
  · intro o'
    by_cases h : o' = o
    · simp [h]
    · simp [h]

/-- A `buddy_get_pages` of an order below `BUDDY_MAX_ORDER` returns and keeps the
invariant.  Without a chunk it changes the lock only; with a chunk, the chunk
is the head of the first non-empty free list from `order` upwards. -/
theorem buddy_get_pages_spec {cfg : Config} {s : State} {i : Nat} {A : List Nat} {order : Nat}
    (h : Inv cfg s i A) (ho : order < cfg.BUDDY_MAX_ORDER) :
    (buddy_get_pages cfg s i order = .ok (unlock (locked s i) i, none) ∧
      ∀ o, order ≤ o → o < cfg.BUDDY_MAX_ORDER → fl s i o = []) ∨
    (∃ t p k l, buddy_get_pages cfg s i order = .ok (t, some p) ∧ Inv cfg t i (p :: A) ∧
      Frame s t i ∧ order ≤ k ∧ k < cfg.BUDDY_MAX_ORDER ∧ fl s i k = p :: l ∧
      (∀ o, order ≤ o → o < k → fl s i o = []) ∧
      (t.pages p).order = order ∧ (t.pages p).pool = some i) := by
  obtain ⟨hb1, hc1⟩ := h.base_locked
  have hge : ¬ order ≥ cfg.BUDDY_MAX_ORDER := by omega
  unfold buddy_get_pages
  rw [if_neg hge, lock_eq h.unlocked]
  simp only
  rcases find_chunk_spec hb1 (cfg.BUDDY_MAX_ORDER - order) order with
    ⟨h1, h2⟩ | ⟨p, k, l, h1, h2, h3, h4, h5⟩
  · left
    rw [h1]
    simp only [split_chunk, split_chunk_none]
    refine ⟨trivial, fun o h3 h4 => ?_⟩
    have := h2 o h3 (by omega)
    rwa [fl_locked] at this
  · right
    rw [h1]
    have hm : p ∈ fl (locked s i) i k := by rw [h4]; exact List.mem_cons_self p l
    have hpk := hb1.order_of_mem hm
    obtain ⟨t, ht1, ht2, ht3, ht4, ht5⟩ :=
      split_chunk_fuel_spec (m := order) k (locked s i) k hb1 hm (hc1.weaken _) h2 (by omega)
    have hfr := ht2.free_of_mem ht3
    have hnf : ((t.global_mem i).free_lists order).nr_free ≠ 0 :=
      Nat.pos_iff_ne_zero.1 (ht2.nf_pos ht3)
    have hr := get_rel t i p order
    have hb4 := hr.get_base ht2 ht3
    have hc4 := hr.get_coal ht2 ht4
    simp only [split_chunk, hpk, ht1, hfr, hnf, if_false, Bool.false_eq_true]
    refine ⟨_, p, k, l, rfl, Inv.of_unlock hb4 hc4, ?_, h2, by omega, ?_, ?_, ?_, ?_⟩
    · exact (((Frame.locked s i).trans ht5).trans hr.frame).trans (Frame.unlock _ i)
    · rw [← fl_locked s i k]; exact h4
    · intro o h6 h7
      rw [← fl_locked s i o]; exact h5 o h6 h7
    · simp [ht2.order_of_mem ht3]
    · simp

/-! ## The invariant after `init_buddy` -/

theorem fl_init_pool {cfg : Config} {s : State} {i sp sa n : Nat}
    (h : InitPre cfg s i sp sa n) (o : Nat) : fl (init_pool cfg s i sp sa n) i o = [] := by
  unfold fl init_pool
  simp only [Function.update_same]
  by_cases ho : o < cfg.BUDDY_MAX_ORDER
  · rw [if_pos ho]
  · rw [if_neg ho, h.pad o (by omega)]

theorem nf_init_pool {cfg : Config} {s : State} {i sp sa n : Nat}
    (h : InitPre cfg s i sp sa n) (o : Nat) : nf (init_pool cfg s i sp sa n) i o = 0 := by
  unfold nf init_pool
  simp only [Function.update_same]
  by_cases ho : o < cfg.BUDDY_MAX_ORDER
  · rw [if_pos ho]
  · rw [if_neg ho, h.pad o (by omega)]

theorem pages_init_pool (cfg : Config) (s : State) (i sp sa n p : Nat) :
    (init_pool cfg s i sp sa n).pages p =
      if sp ≤ p ∧ p < sp + n then { allocated := true, order := 0, pool := some i }
      else s.pages p := rfl

theorem pool_init_pool (cfg : Config) (s : State) (i sp sa n : Nat) :
    ((init_pool cfg s i sp sa n).global_mem i).pool_start_addr = sa ∧
    ((init_pool cfg s i sp sa n).global_mem i).page_metadata = sp ∧
    ((init_pool cfg s i sp sa n).global_mem i).pool_mem_size
      = (n * cfg.BUDDY_PAGE_SIZE) % W64 ∧
    ((init_pool cfg s i sp sa n).global_mem i).pool_phys_page_num = n ∧
    ((init_pool cfg s i sp sa n).global_mem i).buddy_lock.held = false := by
  simp [init_pool]

/-- The state of `init_buddy` before its last loop is well formed, with every
page handed out as a chunk of order 0. -/
theorem init_pool_inv {cfg : Config} {s : State} {i sp sa n : Nat}
    (h : InitPre cfg s i sp sa n) :
    Inv cfg (init_pool cfg s i sp sa n) i (List.range' sp n) := by
  obtain ⟨e1, e2, e3, e4, e5⟩ := pool_init_pool cfg s i sp sa n
  have hw := h.no_wrap
  have hsz : (n * cfg.BUDDY_PAGE_SIZE) % W64 = n * cfg.BUDDY_PAGE_SIZE := by
    have : 0 < 2 ^ (cfg.BUDDY_MAX_ORDER + cfg.BUDDY_PAGE_SIZE_ORDER) := two_pow_pos _
    exact Nat.mod_eq_of_lt (by omega)
  rw [hsz] at e3
  have hH : ∀ p, Head (init_pool cfg s i sp sa n) i (List.range' sp n) p ↔ sp ≤ p ∧ p < sp + n := by
    intro p
    unfold Head
    simp only [fl_init_pool h, List.not_mem_nil, exists_false, or_false, List.mem_range'_1]
  have hord : ∀ p, sp ≤ p ∧ p < sp + n → ((init_pool cfg s i sp sa n).pages p).order = 0 := by
    intro p hp; rw [pages_init_pool, if_pos hp]
  refine ⟨⟨⟨h.cfg_ok, h.registered, ?_, ?_, ?_, ?_⟩, ?_, ?_, ?_, List.nodup_range' sp n, ?_, ?_,
    ⟨?_, ?_, ?_, ?_, ?_⟩⟩, ?_, e5⟩
  · intro j hj a h1 h2
    rw [e1] at h1 h2
    rw [e3] at h2
    have : (init_pool cfg s i sp sa n).global_mem j = s.global_mem j := by
      simp [init_pool, Function.update_apply, Nat.ne_of_lt hj]
    rw [this]
    exact h.first j hj a h1 h2
  · rw [e1]; exact h.aligned
  · rw [e3, e4]
  · rw [e1, e3]; exact hw
  · intro o; rw [fl_init_pool h, nf_init_pool h]; rfl
  · intro o; rw [fl_init_pool h]; exact List.nodup_nil
  · intro o p hp; rw [fl_init_pool h] at hp; exact absurd hp (List.not_mem_nil p)
  · intro p hp
    rw [List.mem_range'_1] at hp
    rw [pages_init_pool, if_pos hp]
    exact ⟨rfl, h.cfg_ok.max_pos⟩
  · intro p hp
    unfold in_table at hp
    rw [e2, e4] at hp
    rw [pages_init_pool, if_pos hp]
  · intro p hp; rw [e2, e4]; exact (hH p).1 hp
  · intro p hp; rw [hord p ((hH p).1 hp)]; simp
  · intro p hp; rw [hord p ((hH p).1 hp), e2, e4]; have := (hH p).1 hp; omega
  · intro x h1 h2
    rw [e2] at h1; rw [e2, e4] at h2
    exact ⟨x, (hH x).2 ⟨h1, h2⟩, le_refl _, by rw [hord x ⟨h1, h2⟩]; omega⟩
  · intro p q hp hq h1 h2
    rw [hord p ((hH p).1 hp)] at h2
    omega
  · intro o p hp
    rw [fl_init_pool h] at hp; exact absurd hp (List.not_mem_nil p)

theorem init_free_loop_spec {cfg : Config} {i sp : Nat} :
    ∀ (n idx : Nat) (s : State), Inv cfg s i (List.range' (sp + idx) n) →
      ∃ t, init_free_loop cfg i sp n idx s = .ok t ∧ Inv cfg t i [] ∧ Frame s t i := by
  intro n
  induction n with
  | zero =>
    intro idx s h
    exact ⟨s, rfl, h, Frame.refl s i⟩
  | succ n ih =>
    intro idx s h
    rw [List.range'_succ] at h
    obtain ⟨t, ht1, ht2, ht3⟩ := buddy_free_pages_spec h (List.mem_cons_self _ _)
    rw [List.erase_cons_head] at ht2
    obtain ⟨u, hu1, hu2, hu3⟩ := ih (idx + 1) t (by rw [← Nat.add_assoc]; exact ht2)
    refine ⟨u, ?_, hu2, ht3.trans hu3⟩
    simp [init_free_loop, ht1, hu1]

/-- A valid `init_buddy` returns, and leaves a well-formed pool with no chunk
handed out. -/
theorem init_buddy_spec {cfg : Config} {s : State} {i sp sa n : Nat}
    (h : InitPre cfg s i sp sa n) :
    ∃ t, init_buddy cfg s i sp sa n = .ok t ∧ Inv cfg t i []
      ∧ Frame (init_pool cfg s i sp sa n) t i :=
  init_free_loop_spec n 0 _ (init_pool_inv h)

/-- Every reachable state of a pool satisfies the invariant. -/
theorem Reachable.inv {cfg : Config} {i N : Nat} {s : State} {A : List Nat}
    (h : Reachable cfg i N s A) :
    Inv cfg s i A ∧ (s.global_mem i).pool_phys_page_num = N := by
  induction h with
  | init s0 s sp sa hpre hinit =>
    obtain ⟨t, ht1, ht2, ht3⟩ := init_buddy_spec hpre
    rw [hinit] at ht1
    rw [Except.ok.inj ht1]
    exact ⟨ht2, by rw [ht3.pages]; exact (pool_init_pool cfg s0 i sp sa N).2.2.2.1⟩
  | get s t A order r _ ho hget ih =>
    rcases buddy_get_pages_spec ih.1 ho with ⟨h1, _⟩ | ⟨t', p, k, l, h1, h2, h3, _⟩
    · rw [hget] at h1
      have e := Except.ok.inj h1
      rw [(Prod.mk.inj e).1, (Prod.mk.inj e).2]
      exact ⟨Inv.of_unlock ih.1.base_locked.1 ih.1.base_locked.2,
        by rw [((Frame.locked s i).trans (Frame.unlock _ i)).pages]; exact ih.2⟩
    · rw [hget] at h1
      have e := Except.ok.inj h1
      rw [(Prod.mk.inj e).1, (Prod.mk.inj e).2]
      exact ⟨h2, by rw [h3.pages]; exact ih.2⟩
  | free s t A p _ hp hfree ih =>
    obtain ⟨t', ht1, ht2, ht3⟩ := buddy_free_pages_spec ih.1 hp
    rw [hfree] at ht1
    rw [Except.ok.inj ht1]
    exact ⟨ht2, by rw [ht3.pages]; exact ih.2⟩

/-! ## Example states -/

theorem eq_ok_of_toBool {α : Type} (r : Except Err α) (d : α) (h : r.toBool = true) :
    r = .ok (okOr r d) := by
  cases r with
  | ok a => rfl
  | error e => exact Bool.noConfusion h

theorem cfg0_ok : CfgOK cfg0 := ⟨rfl, by decide, by decide⟩

theorem blank_init_pre (n : Nat) (h : n < 2 ^ 31) : InitPre cfg0 blank 0 0 0 n :=
  ⟨cfg0_ok, by decide, fun j hj => absurd hj (Nat.not_lt_zero j), ⟨0, rfl⟩,
    by simp only [cfg0, W64]; omega, fun _ _ => rfl, h⟩

theorem ex_init_eq : init_buddy cfg0 blank 0 0 0 4 = .ok ex_init :=
  eq_ok_of_toBool (init_buddy cfg0 blank 0 0 0 4) blank (by decide!)

theorem ex_init_reach : Reachable cfg0 0 4 ex_init [] :=
  Reachable.init blank ex_init 0 0 (blank_init_pre 4 (by decide)) ex_init_eq

theorem ex_get_eq : buddy_get_pages cfg0 ex_init 0 0 = .ok (ex_get.1, some 0) := by
  have h1 : buddy_get_pages cfg0 ex_init 0 0 = .ok ex_get :=
    eq_ok_of_toBool (buddy_get_pages cfg0 ex_init 0 0) (blank, none) (by decide!)
  have h2 : ex_get.2 = some 0 := by decide!
  rw [h1, ← h2]

theorem ex_get_reach : Reachable cfg0 0 4 ex_get.1 [0] :=
  Reachable.get ex_init ex_get.1 [] 0 (some 0) ex_init_reach (by decide) ex_get_eq

theorem ex_free_eq : buddy_free_pages cfg0 ex_get.1 0 (some 0) = .ok ex_free :=
  eq_ok_of_toBool (buddy_free_pages cfg0 ex_get.1 0 (some 0)) blank (by decide!)

theorem ex_one_eq : init_buddy cfg0 blank 0 0 0 1 = .ok ex_one :=
  eq_ok_of_toBool (init_buddy cfg0 blank 0 0 0 1) blank (by decide!)

theorem ex_one_reach : Reachable cfg0 0 1 ex_one [] :=
  Reachable.init blank ex_one 0 0 (blank_init_pre 1 (by decide)) ex_one_eq

/-! ## The claims -/

/-- C1: in a state reachable from `init_buddy` by valid calls, a descriptor that
`buddy_get_pages(pool, o)` with `o < BUDDY_MAX_ORDER` returns was the head of a
free chunk, of an order `k ≥ o`, before the call; after the call it has order
`o`, is marked allocated, points to this pool, and is on no free list. -/
theorem buddy_get_pages_returns_chunk {cfg : Config} {i N : Nat} {s t : State}
    {A : List Nat} {o p : Nat} (hr : Reachable cfg i N s A) (ho : o < cfg.BUDDY_MAX_ORDER)
    (hget : buddy_get_pages cfg s i o = .ok (t, some p)) :
    (∃ k, o ≤ k ∧ p ∈ fl s i k ∧ (s.pages p).order = k ∧ (s.pages p).allocated = false) ∧
    (t.pages p).order = o ∧ (t.pages p).allocated = true ∧ (t.pages p).pool = some i ∧
    ∀ o', p ∉ fl t i o' := by
  have hinv := hr.inv.1
  rcases buddy_get_pages_spec hinv ho with ⟨h1, _⟩ | ⟨t', p', k, l, h1, h2, h3, h4, h5, h6, h7, h8, h9⟩
  · rw [hget] at h1
    exact Option.noConfusion (Prod.mk.inj (Except.ok.inj h1)).2
  · rw [hget] at h1
    have e := Prod.mk.inj (Except.ok.inj h1)
    have e1 : t = t' := e.1
    have e2 : p = p' := Option.some.inj e.2
    subst e1; subst e2
    have hm : p ∈ fl s i k := by rw [h6]; exact List.mem_cons_self p l
    have hal := (h2.base.alloc_ok p (List.mem_cons_self p A)).1
    exact ⟨⟨k, h4, hm, hinv.base.order_of_mem hm, hinv.base.free_of_mem hm⟩, h8, hal, h9,
      fun o' => h2.base.not_mem_of_alloc hal⟩

theorem buddy_get_pages_returns_chunk_witness :
    (∃ k, 0 ≤ k ∧ 0 ∈ fl ex_init 0 k ∧ (ex_init.pages 0).order = k
      ∧ (ex_init.pages 0).allocated = false) ∧
    (ex_get.1.pages 0).order = 0 ∧ (ex_get.1.pages 0).allocated = true ∧
    (ex_get.1.pages 0).pool = some 0 ∧ ∀ o', 0 ∉ fl ex_get.1 0 o' :=
  buddy_get_pages_returns_chunk ex_init_reach (by decide) ex_get_eq

/-- C6: in a reachable state in which the free lists of the orders from `o` up to
`BUDDY_MAX_ORDER - 1` are empty, `buddy_get_pages(pool, o)` returns `NULL`, no
assertion fires, and the free lists, the counters and the page descriptors are
what they were. -/
theorem buddy_get_pages_exhausted {cfg : Config} {i N : Nat} {s : State} {A : List Nat}
    {o : Nat} (hr : Reachable cfg i N s A) (ho : o < cfg.BUDDY_MAX_ORDER)
    (hempty : ∀ o', o ≤ o' → o' < cfg.BUDDY_MAX_ORDER → fl s i o' = []) :
    ∃ t, buddy_get_pages cfg s i o = .ok (t, none) ∧ t.pages = s.pages ∧
      ∀ o', fl t i o' = fl s i o' ∧ nf t i o' = nf s i o' := by
  rcases buddy_get_pages_spec hr.inv.1 ho with ⟨h1, _⟩ | ⟨t', p', k, l, h1, h2, h3, h4, h5, h6, _⟩
  · exact ⟨_, h1, rfl, fun o' => ⟨by simp, by simp⟩⟩
  · rw [hempty k h4 h5] at h6
    exact List.noConfusion h6

theorem buddy_get_pages_exhausted_witness :
    ∃ t, buddy_get_pages cfg0 ex_one 0 1 = .ok (t, none) ∧ t.pages = ex_one.pages ∧
      ∀ o', fl t 0 o' = fl ex_one 0 o' ∧ nf t 0 o' = nf ex_one 0 o' :=
  buddy_get_pages_exhausted ex_one_reach (by decide) (fun o' h1 h2 => by
    have h3 : o' < 3 := h2
    interval_cases o'
    · decide!
    · decide!)

/-- C7: for an order of `BUDDY_MAX_ORDER` or more `buddy_get_pages` returns `NULL`
and leaves the whole state as it was, the lock and its count of acquisitions
included. -/
theorem buddy_get_pages_out_of_range (cfg : Config) (s : State) (i order : Nat)
    (ho : cfg.BUDDY_MAX_ORDER ≤ order) : buddy_get_pages cfg s i order = .ok (s, none) := by
  unfold buddy_get_pages
  rw [if_pos ho]

theorem buddy_get_pages_out_of_range_witness :
    buddy_get_pages cfg0 ex_init 0 3 = .ok (ex_init, none) :=
  buddy_get_pages_out_of_range cfg0 ex_init 0 3 (by decide)

/-- C10: in a reachable state every chunk head, on a free list or handed out by
`buddy_get_pages`, has an order below `BUDDY_MAX_ORDER`, its address
`page_to_virt(chunk)` is a multiple of `2^order * BUDDY_PAGE_SIZE`, and its
`2^order` pages lie inside the pool. -/
theorem chunk_naturally_aligned {cfg : Config} {i N : Nat} {s : State} {A : List Nat}
    {p : Nat} (hr : Reachable cfg i N s A) (hp : p ∈ A ∨ ∃ o, p ∈ fl s i o) :
    (s.pages p).order < cfg.BUDDY_MAX_ORDER ∧
    ∃ a, page_to_virt cfg s p = .ok a ∧
      2 ^ (s.pages p).order * cfg.BUDDY_PAGE_SIZE ∣ a ∧
      (s.global_mem i).pool_start_addr ≤ a ∧
      a + 2 ^ (s.pages p).order * cfg.BUDDY_PAGE_SIZE
        ≤ (s.global_mem i).pool_start_addr + (s.global_mem i).pool_mem_size := by
  have hb := hr.inv.1.base
  have hh : Head s i A p := hp
  have htab := hb.table_of_head hh
  have hal := hb.tiling.align p hh
  have hwi := hb.tiling.within p hh
  obtain ⟨h1, h2⟩ := htab
  refine ⟨hb.order_lt hh, _, page_to_virt_eq hb.geom ⟨h1, h2⟩ (hb.pool_ok p ⟨h1, h2⟩), ?_, ?_, ?_⟩
  · exact Nat.mul_dvd_mul_right hal _
  · rw [hb.geom.start_eq]
    exact Nat.mul_le_mul_right _ (by unfold page_nr; omega)
  · rw [hb.geom.size, ← Nat.add_mul]
    conv_rhs => rw [hb.geom.start_eq]
    rw [← Nat.add_mul]
    exact Nat.mul_le_mul_right _ (by unfold page_nr; omega)

theorem chunk_naturally_aligned_witness :
    (ex_get.1.pages 2).order < cfg0.BUDDY_MAX_ORDER ∧
    ∃ a, page_to_virt cfg0 ex_get.1 2 = .ok a ∧
      2 ^ (ex_get.1.pages 2).order * cfg0.BUDDY_PAGE_SIZE ∣ a ∧
      (ex_get.1.global_mem 0).pool_start_addr ≤ a ∧
      a + 2 ^ (ex_get.1.pages 2).order * cfg0.BUDDY_PAGE_SIZE
        ≤ (ex_get.1.global_mem 0).pool_start_addr + (ex_get.1.global_mem 0).pool_mem_size :=
  chunk_naturally_aligned ex_get_reach (Or.inr ⟨1, by decide!⟩)

/-- C3: in a reachable state, for a chunk on the free list of an order
`o < BUDDY_MAX_ORDER - 1`, the address of the chunk XOR `BUDDY_PAGE_SIZE * 2^o`
lies outside the pool, or the descriptor at that address is allocated or has an
order other than `o`; in both cases the descriptor is not on the free list of
order `o`, so no two free buddies of one order coexist. -/
theorem no_free_buddy {cfg : Config} {i N : Nat} {s : State} {A : List Nat} {o p : Nat}
    (hr : Reachable cfg i N s A) (ho : o < cfg.BUDDY_MAX_ORDER - 1) (hp : p ∈ fl s i o) :
    ∃ a, page_to_virt cfg s p = .ok a ∧
      (buddy_addr cfg a o < (s.global_mem i).pool_start_addr
        ∨ (s.global_mem i).pool_start_addr + (s.global_mem i).pool_mem_size
            ≤ buddy_addr cfg a o
        ∨ ∃ b, virt_to_page cfg s (buddy_addr cfg a o) = some b ∧
            ((s.pages b).allocated = true ∨ (s.pages b).order ≠ o) ∧ b ∉ fl s i o) := by
  have hinv := hr.inv.1
  have hb := hinv.base
  have hg := hb.geom
  have hh := hb.head_of_mem hp
  have hpo := hb.order_of_mem hp
  obtain ⟨h1, h2⟩ := hb.table_of_head hh
  have hal := hb.tiling.align p hh
  have hwi := hb.tiling.within p hh
  simp only [hpo] at hal hwi
  replace hal : 2 ^ o ∣ page_nr cfg (s.global_mem i) p := hal
  have hpos : 0 < 2 ^ o := two_pow_pos o
  have hpow : 2 ^ (o + 1) = 2 * 2 ^ o := Nat.pow_succ'
  have hps := hg.page_size_pos
  refine ⟨_, page_to_virt_eq hg ⟨h1, h2⟩ (hb.pool_ok p ⟨h1, h2⟩), ?_⟩
  rw [buddy_addr_eq hg.cfg_ok _ _ (by omega)]
  have hend : (s.global_mem i).pool_start_addr + (s.global_mem i).pool_mem_size
      = (start_nr cfg (s.global_mem i) + (s.global_mem i).pool_phys_page_num)
        * cfg.BUDDY_PAGE_SIZE := by
    rw [Nat.add_mul, ← hg.start_eq, hg.size]
  have key : ∀ b lo, (lo = p ∨ lo = b) → 2 ^ (o + 1) ∣ page_nr cfg (s.global_mem i) lo →
      (s.global_mem i).page_metadata ≤ lo → lo ≤ p → p < lo + 2 ^ (o + 1) →
      lo ≤ b → b < lo + 2 ^ (o + 1) → (lo = p → b = p + 2 ^ o) → (lo = b → p = b + 2 ^ o) →
      b < (s.global_mem i).page_metadata + (s.global_mem i).pool_phys_page_num →
      2 ^ o ∣ page_nr cfg (s.global_mem i) b →
      ((s.pages b).allocated = true ∨ (s.pages b).order ≠ o) ∧ b ∉ fl s i o := by
    intro b lo hlo hd k1 k2 k3 k4 k5 k6 k7 k8 k9
    have hs := hb.tiling.sibling (c := p) (l := lo) (y := b) (o := o) hh hpo hd k1 k2 k3 k4 k5
      k8 k9
    have hnot : b ∉ fl s i o := by
      intro hm
      rcases hlo with e | e
      · have e' := k6 e
        subst e; subst e'
        rcases hinv.coal o lo hp hm (by omega) hd with h | h <;> exact Option.noConfusion h
      · have e' := k7 e
        subst e
        rw [e'] at hp
        rcases hinv.coal o lo hm hp (by omega) hd with h | h <;> exact Option.noConfusion h
    refine ⟨?_, hnot⟩
    by_cases hba : (s.pages b).allocated = true
    · exact Or.inl hba
    · right
      intro hbo
      have := hb.mem_of_head hs.1 (by simpa using hba)
      rw [hbo] at this
      exact hnot this
  rcases xor_pow_cases o _ hal with ⟨hd, hx⟩ | ⟨hd, hx⟩
  · rw [hx]
    by_cases hin : page_nr cfg (s.global_mem i) p + 2 ^ o
        < start_nr cfg (s.global_mem i) + (s.global_mem i).pool_phys_page_num
    · right; right
      have hv := virt_to_page_eq hg (n := page_nr cfg (s.global_mem i) p + 2 ^ o)
        (by unfold page_nr; omega) hin
      have hbe : (s.global_mem i).page_metadata
          + (page_nr cfg (s.global_mem i) p + 2 ^ o - start_nr cfg (s.global_mem i))
          = p + 2 ^ o := by unfold page_nr; omega
      rw [hbe] at hv
      refine ⟨p + 2 ^ o, hv, ?_⟩
      have hin' : p + 2 ^ o
          < (s.global_mem i).page_metadata + (s.global_mem i).pool_phys_page_num := by
        unfold page_nr at hin; omega
      have hba : 2 ^ o ∣ page_nr cfg (s.global_mem i) (p + 2 ^ o) := by
        have e : page_nr cfg (s.global_mem i) (p + 2 ^ o)
            = page_nr cfg (s.global_mem i) p + 2 ^ o := by unfold page_nr; omega
        rw [e]; exact (Nat.dvd_add_right hal).2 (dvd_refl _)
      exact key (p + 2 ^ o) p (Or.inl rfl) hd h1 (le_refl _) (by omega) (by omega) (by omega)
        (fun _ => rfl) (fun e => by omega) hin' hba
    · right; left
      rw [hend]
      exact Nat.mul_le_mul_right _ (by omega)
  · generalize page_nr cfg (s.global_mem i) p ^^^ 2 ^ o = bn at hd hx
    by_cases hin : start_nr cfg (s.global_mem i) ≤ bn
    · right; right
      have hpn : page_nr cfg (s.global_mem i) p
          < start_nr cfg (s.global_mem i) + (s.global_mem i).pool_phys_page_num := by
        unfold page_nr; omega
      have hv := virt_to_page_eq hg (n := bn) hin (by omega)
      have hpe : page_nr cfg (s.global_mem i) p
          = start_nr cfg (s.global_mem i) + (p - (s.global_mem i).page_metadata) := rfl
      have hbe : (s.global_mem i).page_metadata + (bn - start_nr cfg (s.global_mem i))
          = p - 2 ^ o := by omega
      rw [hbe] at hv
      refine ⟨p - 2 ^ o, hv, ?_⟩
      have hbn : page_nr cfg (s.global_mem i) (p - 2 ^ o) = bn := by
        unfold page_nr; omega
      exact key (p - 2 ^ o) (p - 2 ^ o) (Or.inr rfl) (by rw [hbn]; exact hd) (by omega)
        (by omega) (by omega) (le_refl _) (by omega) (fun e => by omega) (fun _ => by omega)
        (by omega) (by rw [hbn]; exact Dvd.dvd.trans (pow_dvd_pow 2 (Nat.le_succ o)) hd)
    · left
      rw [hg.start_eq]
      exact Nat.mul_lt_mul_of_pos_right (by omega) hps

theorem no_free_buddy_witness :
    ∃ a, page_to_virt cfg0 ex_get.1 2 = .ok a ∧
      (buddy_addr cfg0 a 1 < (ex_get.1.global_mem 0).pool_start_addr
        ∨ (ex_get.1.global_mem 0).pool_start_addr + (ex_get.1.global_mem 0).pool_mem_size
            ≤ buddy_addr cfg0 a 1
        ∨ ∃ b, virt_to_page cfg0 ex_get.1 (buddy_addr cfg0 a 1) = some b ∧
            ((ex_get.1.pages b).allocated = true ∨ (ex_get.1.pages b).order ≠ 1)
            ∧ b ∉ fl ex_get.1 0 1) :=
  no_free_buddy ex_get_reach (by decide) (by decide!)

/-- The range test of `virt_to_page` fails in a pool for the addresses at or
behind its end and for those before its start. -/
theorem addr_in_pool_outside {P : phys_mem_pool} {a : Nat}
    (h : P.pool_start_addr + P.pool_mem_size ≤ a ∨ a < P.pool_start_addr) :
    addr_in_pool P a = false := by
  unfold addr_in_pool
  have hm : (P.pool_start_addr + P.pool_mem_size) % W64
      ≤ P.pool_start_addr + P.pool_mem_size := Nat.mod_le _ _
  rcases h with h | h
  · have : ¬ a < (P.pool_start_addr + P.pool_mem_size) % W64 := by omega
    simp [this]
  · have : ¬ P.pool_start_addr ≤ a := by omega
    simp [this]

/-- C8: for a descriptor `d` of the table of a registered pool, disjoint from
the pools before it in `global_mem`, whose `pool` field points to that pool,
an allocated chunk in particular, `virt_to_page(page_to_virt(d)) == d`. -/
theorem virt_to_page_page_to_virt {cfg : Config} {s : State} {i d : Nat}
    (hreg : Registered cfg s i) (hd : in_table (s.global_mem i) d)
    (hpool : (s.pages d).pool = some i) :
    ∃ a, page_to_virt cfg s d = .ok a ∧ virt_to_page cfg s a = some d := by
  obtain ⟨h1, h2⟩ := hd
  have hps := hreg.page_size_pos
  have hsz := hreg.size
  have hw := hreg.no_wrap
  have hlt : (d - (s.global_mem i).page_metadata) * cfg.BUDDY_PAGE_SIZE
      < (s.global_mem i).pool_phys_page_num * cfg.BUDDY_PAGE_SIZE :=
    Nat.mul_lt_mul_of_pos_right (by omega) hps
  have hmod : ((d - (s.global_mem i).page_metadata) * cfg.BUDDY_PAGE_SIZE
      + (s.global_mem i).pool_start_addr) % W64
      = (d - (s.global_mem i).page_metadata) * cfg.BUDDY_PAGE_SIZE
        + (s.global_mem i).pool_start_addr := Nat.mod_eq_of_lt (by omega)
  refine ⟨_, by unfold page_to_virt; rw [hpool], ?_⟩
  simp only [hmod]
  have hfind : (List.range s.physmem_map_num).find?
      (fun j => addr_in_pool (s.global_mem j)
        ((d - (s.global_mem i).page_metadata) * cfg.BUDDY_PAGE_SIZE
          + (s.global_mem i).pool_start_addr)) = some i := by
    rw [List.find?_range_eq_some]
    refine ⟨?_, List.mem_range.2 hreg.in_use, ?_⟩
    · unfold addr_in_pool
      rw [Nat.mod_eq_of_lt hw]
      simp
      omega
    · intro j hj
      have : addr_in_pool (s.global_mem j)
          ((d - (s.global_mem i).page_metadata) * cfg.BUDDY_PAGE_SIZE
            + (s.global_mem i).pool_start_addr) = false :=
        addr_in_pool_outside (by rcases hreg.first j hj with h | h <;> omega)
      simp [this]
  unfold virt_to_page
  rw [hfind]
  simp only
  congr 1
  rw [Nat.add_sub_cancel, Nat.mul_div_cancel _ hps]
  omega

theorem ex_pools_registered : Registered cfg0 ex_pools 1 := by
  refine ⟨by decide, ?_, by decide, by decide, by decide⟩
  intro j hj
  have e : j = 0 := by omega
  subst e
  exact Or.inl (by decide)

theorem virt_to_page_page_to_virt_witness :
    ∃ a, page_to_virt cfg0 ex_pools 5 = .ok a ∧ virt_to_page cfg0 ex_pools a = some 5 :=
  virt_to_page_page_to_virt ex_pools_registered ⟨by decide, by decide⟩ (by decide)

/-! ## Conservation of pages -/

/-- The chunks of a tiling with finitely many heads have as many pages as the
pool. -/
theorem Tiling.card {sp tbl N : Nat} {H : Nat → Prop} {ord : Nat → Nat}
    (ht : Tiling sp tbl N H ord) (S : Finset Nat) (hS : ∀ p, p ∈ S ↔ H p) :
    Finset.sum S (fun p => 2 ^ ord p) = N := by
  have hU : Finset.Ico tbl (tbl + N)
      = S.biUnion (fun h => Finset.Ico h (h + 2 ^ ord h)) := by
    ext x
    rw [Finset.mem_biUnion, Finset.mem_Ico]
    constructor
    · rintro ⟨h1, h2⟩
      obtain ⟨p, hp, h3, h4⟩ := ht.cover x h1 h2
      exact ⟨p, (hS p).2 hp, Finset.mem_Ico.2 ⟨h3, h4⟩⟩
    · rintro ⟨p, hp, hx⟩
      rw [Finset.mem_Ico] at hx
      have h1 := ht.table p ((hS p).1 hp)
      have h2 := ht.within p ((hS p).1 hp)
      omega
  have hD : ∀ x ∈ S, ∀ y ∈ S, x ≠ y →
      Disjoint (Finset.Ico x (x + 2 ^ ord x)) (Finset.Ico y (y + 2 ^ ord y)) := by
    intro x hx y hy hxy
    rw [Finset.disjoint_left]
    intro a ha hb
    rw [Finset.mem_Ico] at ha hb
    by_cases hle : x ≤ y
    · exact hxy (ht.disj x y ((hS x).1 hx) ((hS y).1 hy) hle (by omega))
    · exact hxy (ht.disj y x ((hS y).1 hy) ((hS x).1 hx) (by omega) (by omega)).symm
  have hc := Finset.card_biUnion hD
  rw [← hU, Nat.card_Ico] at hc
  simp only [Nat.card_Ico, Nat.add_sub_cancel_left] at hc
  exact hc.symm

theorem sum_range_map (f : Nat → Nat) (n : Nat) :
    ((List.range n).map f).sum = Finset.sum (Finset.range n) f := by
  induction n with
  | zero => rfl
  | succ n ih =>
    rw [List.range_succ, List.map_append, List.sum_append, Finset.sum_range_succ, ih]
    simp

/-- In a well-formed pool the free chunks and the chunks handed out have as many
pages as the pool. -/
theorem Base.conservation {cfg : Config} {s : State} {i : Nat} {A : List Nat}
    (hb : Base cfg s i A) :
    ((List.range cfg.BUDDY_MAX_ORDER).map (fun o => nf s i o * 2 ^ o)).sum
      + (A.map (fun p => 2 ^ (s.pages p).order)).sum
      = (s.global_mem i).pool_phys_page_num := by
  let F : Finset Nat :=
    (Finset.range cfg.BUDDY_MAX_ORDER).biUnion (fun o => (fl s i o).toFinset)
  have hF : ∀ p, p ∈ F ↔ ∃ o, p ∈ fl s i o := by
    intro p
    simp only [F, Finset.mem_biUnion, Finset.mem_range, List.mem_toFinset]
    constructor
    · rintro ⟨o, _, h⟩; exact ⟨o, h⟩
    · rintro ⟨o, h⟩; exact ⟨o, (hb.free_ok o p h).2.2, h⟩
  have hS : ∀ p, p ∈ A.toFinset ∪ F ↔ Head s i A p := by
    intro p
    rw [Finset.mem_union, List.mem_toFinset, hF]
    rfl
  have hcard := hb.tiling.card (A.toFinset ∪ F) hS
  have hdis : Disjoint A.toFinset F := by
    rw [Finset.disjoint_left]
    intro p hp hq
    rw [List.mem_toFinset] at hp
    obtain ⟨o, ho⟩ := (hF p).1 hq
    exact hb.not_mem_of_alloc (hb.alloc_ok p hp).1 ho
  rw [Finset.sum_union hdis, List.sum_toFinset _ hb.alloc_nodup] at hcard
  have hpd : ((Finset.range cfg.BUDDY_MAX_ORDER : Finset Nat) : Set Nat).PairwiseDisjoint
      (fun o => (fl s i o).toFinset) := by
    intro a _ b _ hab
    show Disjoint (fl s i a).toFinset (fl s i b).toFinset
    rw [Finset.disjoint_left]
    intro p hp hq
    rw [List.mem_toFinset] at hp hq
    exact hab ((hb.order_of_mem hp).symm.trans (hb.order_of_mem hq))
  have hsum : Finset.sum F (fun p => 2 ^ (s.pages p).order)
      = Finset.sum (Finset.range cfg.BUDDY_MAX_ORDER) (fun o => nf s i o * 2 ^ o) := by
    rw [Finset.sum_biUnion hpd]
    apply Finset.sum_congr rfl
    intro o _
    have : ∀ p ∈ (fl s i o).toFinset, 2 ^ (s.pages p).order = 2 ^ o := by
      intro p hp
      rw [List.mem_toFinset] at hp
      rw [hb.order_of_mem hp]
    rw [Finset.sum_congr rfl this, Finset.sum_const, List.toFinset_card_of_nodup (hb.nodup o),
      hb.count o, smul_eq_mul]
  rw [hsum, ← sum_range_map] at hcard
  omega

/-- C2: in every state reachable from `init_buddy(pool, table, start, N)` by
successful `buddy_get_pages` calls and `buddy_free_pages` calls on chunks
handed out and not yet freed, the sum over the orders of
`nr_free[order] * 2^order` plus the sum of `2^order` over the chunks handed out
is `N`. -/
theorem pages_conserved {cfg : Config} {i N : Nat} {s : State} {A : List Nat}
    (hr : Reachable cfg i N s A) :
    ((List.range cfg.BUDDY_MAX_ORDER).map (fun o => nf s i o * 2 ^ o)).sum
      + (A.map (fun p => 2 ^ (s.pages p).order)).sum = N := by
  rw [hr.inv.1.base.conservation, hr.inv.2]

theorem pages_conserved_witness :
    ((List.range cfg0.BUDDY_MAX_ORDER).map (fun o => nf ex_get.1 0 o * 2 ^ o)).sum
      + ([0].map (fun p => 2 ^ (ex_get.1.pages p).order)).sum = 4 :=
  pages_conserved ex_get_reach

/-! ## The free lists along a split and the merges that undo it -/

theorem erase_erase_self {l : List Nat} (h : l.Nodup) (p : Nat) :
    (l.erase p).erase p = l.erase p :=
  List.erase_of_not_mem (fun hm => ((h.mem_erase_iff).1 hm).1 rfl)

theorem Mid.start {s : State} {i p k : Nat} (hm : p ∈ fl s i k) : Mid s s i p k k :=
  ⟨Frame.refl s i, fun o => by rw [if_neg (by omega)], hm⟩

theorem split_chunk_fuel_trace {cfg : Config} {i m : Nat} {A : List Nat} {p k : Nat}
    {s0 : State} (hempty : ∀ o, m ≤ o → o < k → fl s0 i o = []) :
    ∀ (fuel : Nat) (t : State) (j : Nat), Base cfg t i A → Mid s0 t i p k j → m ≤ j → j ≤ k →
      j ≤ fuel + m →
      ∃ u, split_chunk_fuel cfg i m fuel t (some p) = .ok (u, some p) ∧ Base cfg u i A
        ∧ Mid s0 u i p k m := by
  intro fuel
  induction fuel with
  | zero =>
    intro t j hb hmid h1 h2 h3
    have hj : j = m := by omega
    subst hj
    refine ⟨t, ?_, hb, hmid⟩
    simp [split_chunk_fuel, hb.order_of_mem hmid.mem]
  | succ fuel ih =>
    intro t j hb hmid h1 h2 h3
    have hok := hb.order_of_mem hmid.mem
    by_cases hj : j = m
    · subst hj
      refine ⟨t, ?_, hb, hmid⟩
      simp [split_chunk_fuel, hok]
    · obtain ⟨j', rfl⟩ : ∃ j', j = j' + 1 := ⟨j - 1, by omega⟩
      obtain ⟨t1, ht1, hrel⟩ := split_step_spec hb hmid.mem
      have hb1 := hrel.split_base hb hmid.mem
      have hpos : 0 < 2 ^ j' := two_pow_pos j'
      have hmid1 : Mid s0 t1 i p k j' := by
        refine ⟨hmid.frame.trans hrel.frame, ?_, ?_⟩
        · intro o
          rw [hrel.fl_eq o]
          by_cases ho : o = j'
          · subst ho
            rw [if_pos rfl, if_pos ⟨le_refl _, by omega⟩]
            have hne : ¬ (p + 2 ^ o == p) = true := by
              simp only [beq_iff_eq]; omega
            rw [List.erase_cons_tail hne, List.erase_cons_head, hmid.lists o,
              if_neg (by omega), hempty o (by omega) (by omega)]
            rfl
          · rw [if_neg ho, erase_erase_self (hb.nodup o), hmid.lists o]
            by_cases hc : j' + 1 ≤ o ∧ o < k
            · rw [if_pos hc, if_pos ⟨by omega, hc.2⟩]
            · rw [if_neg hc, if_neg (by omega)]
        · exact (hrel.split_mem_iff hb j' p).2 (Or.inl ⟨rfl, Or.inr rfl⟩)
      obtain ⟨u, hu1, hu2, hu3⟩ := ih t1 j' hb1 hmid1 (by omega) (by omega) (by omega)
      refine ⟨u, ?_, hu2, hu3⟩
      have hlt : ¬ j' + 1 < m := by omega
      simp [split_chunk_fuel, hok, hlt, hj, ht1, hu1]

/-- The merges of `merge_chunk` on the chunk `p`, split before from order `k`,
put the free lists back to what they were. -/
theorem merge_chunk_fuel_trace {cfg : Config} {i : Nat} {A : List Nat} {p k : Nat}
    {l : List Nat} {s0 : State} (h0 : Base cfg s0 i A) (hc0 : Coal cfg s0 i none)
    (hk : fl s0 i k = p :: l) :
    ∀ (d fuel : Nat) (t : State) (j : Nat), j + d = k → Base cfg t i A → Mid s0 t i p k j →
      (∃ r, fl t i j = p :: r) → (∀ o, j ≤ o → o < k → fl s0 i o = []) →
      cfg.BUDDY_MAX_ORDER ≤ fuel + j + 1 →
      ∃ u, merge_chunk_fuel cfg i fuel t p = .ok u ∧ Frame t u i
        ∧ ∀ o, fl u i o = fl s0 i o := by
  have hpk : p ∈ fl s0 i k := by rw [hk]; exact List.mem_cons_self p l
  have hp0 := h0.order_of_mem hpk
  have hal0 := h0.tiling.align p (h0.head_of_mem hpk)
  simp only [hp0] at hal0
  have hkm : k < cfg.BUDDY_MAX_ORDER := (h0.free_ok k p hpk).2.2
  intro d
  induction d with
  | zero =>
    intro fuel t j hjk hb hmid hhead hempty hf
    have hj : j = k := by omega
    subst hj
    have hstop : merge_body cfg t i p = .ok (t, none) := by
      rcases merge_body_spec hb hmid.mem with ⟨h1, _⟩ | ⟨lo, t', _, h2, h3, h4, h5, h6, _⟩
      · exact h1
      · exfalso
        have key : ∀ q, q ∈ fl t i j → q ∈ fl s0 i j := by
          intro q hq
          by_cases hqp : q = p
          · rw [hqp]; exact hpk
          · have : q ∈ (fl t i j).erase p := (List.mem_erase_of_ne hqp).2 hq
            rw [hmid.lists j, if_neg (by omega)] at this
            exact List.mem_of_mem_erase this
        rw [hmid.frame.page_nr] at h6
        rcases hc0 j lo (key lo h4) (key _ h5) h2 h6 with e | e <;> exact Option.noConfusion e
    have hres : ∀ o, fl t i o = fl s0 i o := by
      intro o
      by_cases ho : o = j
      · subst ho
        obtain ⟨r, hr⟩ := hhead
        have := hmid.lists o
        rw [if_neg (by omega), hr, hk, List.erase_cons_head, List.erase_cons_head] at this
        rw [hr, hk, this]
      · have h1 : p ∉ fl t i o := hb.not_mem_of_order (by rw [hb.order_of_mem hmid.mem]; omega)
        have h2 : p ∉ fl s0 i o := h0.not_mem_of_order (by rw [hp0]; omega)
        have := hmid.lists o
        rw [if_neg (by omega), List.erase_of_not_mem h1, List.erase_of_not_mem h2] at this
        exact this
    refine ⟨t, ?_, Frame.refl t i, hres⟩
    cases fuel <;> simp [merge_chunk_fuel, hstop]
  | succ d ih =>
    intro fuel t j hjk hb hmid hhead hempty hf
    have hjk' : j < k := by omega
    have hpos : 0 < 2 ^ j := two_pow_pos j
    have hpj : (t.pages p).order = j := hb.order_of_mem hmid.mem
    have hbm : p + 2 ^ j ∈ fl t i j := by
      have : p + 2 ^ j ∈ (fl t i j).erase p := by
        rw [hmid.lists j, if_pos ⟨le_refl _, hjk'⟩]; exact List.mem_singleton.2 rfl
      exact List.mem_of_mem_erase this
    have hal : 2 ^ (j + 1) ∣ page_nr cfg (t.global_mem i) p := by
      rw [hmid.frame.page_nr]
      exact Dvd.dvd.trans (pow_dvd_pow 2 (by omega)) hal0
    rcases merge_body_spec hb hmid.mem with ⟨_, h2⟩ | ⟨lo, t', h1, h2, h3, h4, h5, h6, h7⟩
    · exact absurd rfl (h2 (by omega) p hal hmid.mem hbm).1
    · have hlo : lo = p := by
        rcases h3 with e | e
        · exact e.symm
        · exfalso
          have hlt := hb.tiling.table lo (hb.head_of_mem h4)
          have e1 : page_nr cfg (t.global_mem i) p
              = page_nr cfg (t.global_mem i) lo + 2 ^ j := by
            unfold page_nr; omega
          rw [e1] at hal
          have := Nat.le_of_dvd hpos ((Nat.dvd_add_right h6).1 hal)
          have hpow : 2 ^ (j + 1) = 2 * 2 ^ j := Nat.pow_succ'
          omega
      subst hlo
      have hb' := h7.merge_base hb h4 h5 h2 h6
      have hnin : lo + 2 ^ j ∉ fl s0 i k :=
        fun hm => h0.tiling.not_head_inside (h0.head_of_mem hpk) (by omega)
          (by
            simp only [hp0]
            have : 2 ^ j < 2 ^ k := Nat.pow_lt_pow_right (by decide) hjk'
            omega) (h0.head_of_mem hm)
      have hmid' : Mid s0 t' i lo k (j + 1) := by
        refine ⟨hmid.frame.trans h7.frame, ?_, ?_⟩
        · intro o
          rw [h7.fl_eq o]
          by_cases ho : o = j + 1
          · subst ho
            rw [if_pos rfl, List.erase_cons_head, hmid.lists (j + 1)]
            by_cases hc : j + 1 < k
            · rw [if_pos ⟨by omega, hc⟩, if_pos ⟨le_refl _, hc⟩]
              apply List.erase_of_not_mem
              intro hm
              have := List.mem_singleton.1 hm
              have : 2 ^ j < 2 ^ (j + 1) := Nat.pow_lt_pow_right (by decide) (by omega)
              omega
            · have hjk2 : j + 1 = k := by omega
              rw [if_neg (by omega), if_neg (by omega)]
              apply List.erase_of_not_mem
              intro hm
              rw [hjk2] at hm
              exact hnin (List.mem_of_mem_erase hm)
          · rw [if_neg ho]
            by_cases hoj : o = j
            · subst hoj
              rw [hmid.lists o, if_pos ⟨le_refl _, hjk'⟩, if_neg (by omega),
                hempty o (le_refl _) hjk']
              simp
            · have hnm : lo + 2 ^ j ∉ (fl t i o).erase lo := fun hm =>
                hb.not_mem_of_order (by rw [hb.order_of_mem hbm]; omega)
                  (List.mem_of_mem_erase hm)
              rw [List.erase_of_not_mem hnm, erase_erase_self (hb.nodup o), hmid.lists o]
              by_cases hc : j ≤ o ∧ o < k
              · rw [if_pos hc, if_pos ⟨by omega, hc.2⟩]
              · rw [if_neg hc, if_neg (by omega)]
        · exact (h7.merge_mem_iff hb _ _).2 (Or.inl ⟨rfl, rfl⟩)
      have hhead' : ∃ r, fl t' i (j + 1) = lo :: r := by
        rw [h7.fl_eq, if_pos rfl]; exact ⟨_, rfl⟩
      cases fuel with
      | zero => omega
      | succ fuel =>
        obtain ⟨u, hu1, hu2, hu3⟩ := ih fuel t' (j + 1) (by omega) hb' hmid' hhead'
          (fun o h1 h2 => hempty o (by omega) h2) (by omega)
        refine ⟨u, ?_, h7.frame.trans hu2, hu3⟩
        simp [merge_chunk_fuel, h1, hu1]

/-- The free lists after a `buddy_get_pages` that returns a chunk: the chunk `p`
came from the head of list `k`, and the lists from `order` up to `k - 1`, empty
before, hold the upper halves split off. -/
theorem buddy_get_pages_trace {cfg : Config} {s t : State} {i : Nat} {A : List Nat}
    {order p : Nat} (h : Inv cfg s i A) (ho : order < cfg.BUDDY_MAX_ORDER)
    (hget : buddy_get_pages cfg s i order = .ok (t, some p)) :
    ∃ k l, order ≤ k ∧ k < cfg.BUDDY_MAX_ORDER ∧ fl s i k = p :: l ∧
      (∀ o, order ≤ o → o < k → fl s i o = []) ∧ Inv cfg t i (p :: A) ∧ Frame s t i ∧
      ∀ o, fl t i o = if order ≤ o ∧ o < k then [p + 2 ^ o] else (fl s i o).erase p := by
  have hinv : Inv cfg t i (p :: A) ∧ Frame s t i := by
    rcases buddy_get_pages_spec h ho with ⟨h1, _⟩ | ⟨t', p', k, l, h1, h2, h3, _⟩
    · rw [hget] at h1
      exact Option.noConfusion (Prod.mk.inj (Except.ok.inj h1)).2
    · rw [hget] at h1
      have e := Prod.mk.inj (Except.ok.inj h1)
      have e1 : t = t' := e.1
      have e2 : p = p' := Option.some.inj e.2
      subst e1; subst e2
      exact ⟨h2, h3⟩
  obtain ⟨hb1, hc1⟩ := h.base_locked
  have hge : ¬ order ≥ cfg.BUDDY_MAX_ORDER := by omega
  unfold buddy_get_pages at hget
  rw [if_neg hge, lock_eq h.unlocked] at hget
  simp only at hget
  rcases find_chunk_spec hb1 (cfg.BUDDY_MAX_ORDER - order) order with
    ⟨h1, h2⟩ | ⟨p', k, l, h1, h2, h3, h4, h5⟩
  · rw [h1] at hget
    simp only [split_chunk, split_chunk_none] at hget
    exact Option.noConfusion (Prod.mk.inj (Except.ok.inj hget)).2
  · rw [h1] at hget
    have hm : p' ∈ fl (locked s i) i k := by rw [h4]; exact List.mem_cons_self p' l
    have hpk := hb1.order_of_mem hm
    obtain ⟨u, hu1, hu2, hu3⟩ := split_chunk_fuel_trace h5 k (locked s i) k hb1
      (Mid.start hm) h2 (le_refl _) (by omega)
    have hfr := hu2.free_of_mem hu3.mem
    have hnf : ((u.global_mem i).free_lists order).nr_free ≠ 0 :=
      Nat.pos_iff_ne_zero.1 (hu2.nf_pos hu3.mem)
    simp only [split_chunk, hpk, hu1, hfr, hnf, if_false, Bool.false_eq_true] at hget
    have e := Prod.mk.inj (Except.ok.inj hget)
    have e2 : p' = p := Option.some.inj e.2
    subst e2
    refine ⟨k, l, h2, by omega, by rw [← fl_locked s i k]; exact h4, ?_, hinv.1, hinv.2, ?_⟩
    · intro o a b
      rw [← fl_locked s i o]; exact h5 o a b
    · intro o
      rw [← e.1]
      simp only [fl_unlock, fl_setPage, fl_nr_free_dec, fl_list_del]
      rw [hu3.lists o, fl_locked]

theorem free_state_rel (s : State) (i c : Nat) :
    FreeRel s (free_state s i c) i c (s.pages c).order :=
  free_rel s i c

theorem buddy_free_pages_eq {cfg : Config} {s : State} {i p : Nat}
    (h : (s.global_mem i).buddy_lock.held = false) :
    buddy_free_pages cfg s i (some p) =
      match merge_chunk_fuel cfg i cfg.BUDDY_MAX_ORDER (free_state (locked s i) i p) p with
      | .error e => .error e
      | .ok v => .ok (unlock v i) := by
  unfold buddy_free_pages
  rw [lock_eq h]
  simp only [pages_setPage, if_true]
  rfl

/-- A `buddy_free_pages` of the chunk that `buddy_get_pages` has just returned
gives the free lists and counters from before the `buddy_get_pages`. -/
theorem get_free_lists {cfg : Config} {s t : State} {i : Nat} {A : List Nat}
    {order p : Nat} (h : Inv cfg s i A) (ho : order < cfg.BUDDY_MAX_ORDER)
    (hget : buddy_get_pages cfg s i order = .ok (t, some p)) :
    ∃ u, buddy_free_pages cfg t i (some p) = .ok u ∧
      ∀ o, fl u i o = fl s i o ∧ nf u i o = nf s i o := by
  obtain ⟨k, l, h1, h2, h3, h4, h5, h6, h7⟩ := buddy_get_pages_trace h ho hget
  have hpA : p ∈ p :: A := List.mem_cons_self p A
  obtain ⟨u, hu1, hu2, _⟩ := buddy_free_pages_spec h5 hpA
  rw [List.erase_cons_head] at hu2
  refine ⟨u, hu1, ?_⟩
  have hlists : ∀ o, fl u i o = fl s i o := by
    obtain ⟨hb1, hc1⟩ := h5.base_locked
    have hr := free_state_rel (locked t i) i p
    have hb3 := hr.free_base hb1 hpA rfl
    rw [List.erase_cons_head] at hb3
    have hal := (h5.base.alloc_ok p hpA).1
    have hpo : ((locked t i).pages p).order = order := by
      rcases buddy_get_pages_spec h ho with ⟨e1, _⟩ | ⟨t', p', k', l', e1, _, _, _, _, _, _, e8, _⟩
      · rw [hget] at e1
        exact Option.noConfusion (Prod.mk.inj (Except.ok.inj e1)).2
      · rw [hget] at e1
        have e := Prod.mk.inj (Except.ok.inj e1)
        have e1' : t = t' := e.1
        have e2 : p = p' := Option.some.inj e.2
        subst e1'; subst e2
        exact e8
    rw [hpo] at hr
    have hmid : Mid s (free_state (locked t i) i p) i p k order := by
      refine ⟨(h6.trans (Frame.locked t i)).trans hr.frame, ?_, ?_⟩
      · intro o
        rw [hr.fl_eq o, fl_locked]
        by_cases hoo : o = order
        · rw [if_pos hoo, List.erase_cons_head, h7 o]
        · rw [if_neg hoo, List.erase_of_not_mem (h5.base.not_mem_of_alloc hal), h7 o]
      · rw [hr.fl_eq order, if_pos rfl]; exact List.mem_cons_self _ _
    have hhead : ∃ r, fl (free_state (locked t i) i p) i order = p :: r := by
      rw [hr.fl_eq order, if_pos rfl]; exact ⟨_, rfl⟩
    obtain ⟨v, hv1, _, hv3⟩ := merge_chunk_fuel_trace h.base h.coal h3 (k - order)
      cfg.BUDDY_MAX_ORDER _ order (by omega) hb3 hmid hhead h4 (by omega)
    rw [buddy_free_pages_eq h5.unlocked, hv1] at hu1
    have e := Except.ok.inj hu1
    intro o
    rw [← e, fl_unlock]
    exact hv3 o
  intro o
  exact ⟨hlists o, by rw [hu2.base.count o, h.base.count o, hlists o]⟩

theorem Base.nil_of_ge {cfg : Config} {s : State} {i : Nat} {A : List Nat}
    (hb : Base cfg s i A) {o : Nat} (h : cfg.BUDDY_MAX_ORDER ≤ o) : fl s i o = [] := by
  apply List.eq_nil_iff_forall_not_mem.2
  intro p hp
  have := (hb.free_ok o p hp).2.2
  omega

/-- C5: in a reachable state, when `buddy_get_pages(pool, o)` with
`o < BUDDY_MAX_ORDER` returns a chunk `p`, a `buddy_free_pages(pool, p)` right
after it returns and leaves every free list and every `nr_free` as it was
before the `buddy_get_pages`. -/
theorem get_then_free_restores {cfg : Config} {i N : Nat} {s t : State} {A : List Nat}
    {o p : Nat} (hr : Reachable cfg i N s A) (ho : o < cfg.BUDDY_MAX_ORDER)
    (hget : buddy_get_pages cfg s i o = .ok (t, some p)) :
    ∃ u, buddy_free_pages cfg t i (some p) = .ok u ∧
      ∀ o', fl u i o' = fl s i o' ∧ nf u i o' = nf s i o' :=
  get_free_lists hr.inv.1 ho hget

theorem get_then_free_restores_witness :
    ∃ u, buddy_free_pages cfg0 ex_get.1 0 (some 0) = .ok u ∧
      ∀ o', fl u 0 o' = fl ex_init 0 o' ∧ nf u 0 o' = nf ex_init 0 o' :=
  get_then_free_restores ex_init_reach (by decide) ex_get_eq

/-- C9: for `k < BUDDY_MAX_ORDER` and a reachable pool with no chunk handed out
whose only free chunk is one chunk `c` of order `k`, `buddy_get_pages(pool, 0)`
returns `c` and leaves exactly one free chunk at each order below `k`, the upper
half `c + 2^o`, and none at order `k`; a `buddy_free_pages` of the returned page
then leaves exactly one free chunk, `c` of order `k`, and none at another
order. -/
theorem split_merge_single_chunk {cfg : Config} {i N : Nat} {s : State} {k c : Nat}
    (hr : Reachable cfg i N s []) (hk : k < cfg.BUDDY_MAX_ORDER) (hone : fl s i k = [c])
    (hnone : ∀ o, o < cfg.BUDDY_MAX_ORDER → o ≠ k → fl s i o = []) :
    ∃ t, buddy_get_pages cfg s i 0 = .ok (t, some c) ∧
      (∀ o, o < k → fl t i o = [c + 2 ^ o] ∧ nf t i o = 1) ∧
      (∀ o, k ≤ o → fl t i o = [] ∧ nf t i o = 0) ∧
      ∃ u, buddy_free_pages cfg t i (some c) = .ok u ∧
        fl u i k = [c] ∧ nf u i k = 1 ∧ ∀ o, o ≠ k → fl u i o = [] ∧ nf u i o = 0 := by
  have hinv := hr.inv.1
  have hpos := hinv.base.geom.cfg_ok.max_pos
  have hnil : ∀ o, o ≠ k → fl s i o = [] := by
    intro o ho
    by_cases h : o < cfg.BUDDY_MAX_ORDER
    · exact hnone o h ho
    · exact hinv.base.nil_of_ge (by omega)
  rcases buddy_get_pages_spec hinv hpos with ⟨_, h2⟩ | ⟨t, p, k', l, h1, _⟩
  · rw [h2 k (Nat.zero_le k) hk] at hone
    exact List.noConfusion hone
  · obtain ⟨k2, l2, e1, e2, e3, e4, e5, e6, e7⟩ := buddy_get_pages_trace hinv hpos h1
    have hk2 : k2 = k := by
      by_contra hne
      rw [hnil k2 hne] at e3
      exact List.noConfusion e3
    subst hk2
    rw [hone] at e3
    have hpc : c = p := (List.cons.inj e3).1
    subst hpc
    obtain ⟨u, hu1, hu2⟩ := get_free_lists hinv hpos h1
    have hcount := e5.base.count
    refine ⟨t, h1, ?_, ?_, u, hu1, ?_, ?_, ?_⟩
    · intro o ho
      have : fl t i o = [c + 2 ^ o] := by rw [e7 o, if_pos ⟨Nat.zero_le o, ho⟩]
      exact ⟨this, by rw [hcount o, this]; rfl⟩
    · intro o ho
      have : fl t i o = [] := by
        rw [e7 o, if_neg (by omega)]
        by_cases hok : o = k2
        · rw [hok, hone, List.erase_cons_head]
        · rw [hnil o hok]; rfl
      exact ⟨this, by rw [hcount o, this]; rfl⟩
    · rw [(hu2 k2).1, hone]
    · rw [(hu2 k2).2, hinv.base.count k2, hone]; rfl
    · intro o ho
      exact ⟨by rw [(hu2 o).1, hnil o ho], by rw [(hu2 o).2, hinv.base.count o, hnil o ho]; rfl⟩

theorem split_merge_single_chunk_witness :
    ∃ t, buddy_get_pages cfg0 ex_init 0 0 = .ok (t, some 0) ∧
      (∀ o, o < 2 → fl t 0 o = [0 + 2 ^ o] ∧ nf t 0 o = 1) ∧
      (∀ o, 2 ≤ o → fl t 0 o = [] ∧ nf t 0 o = 0) ∧
      ∃ u, buddy_free_pages cfg0 t 0 (some 0) = .ok u ∧
        fl u 0 2 = [0] ∧ nf u 0 2 = 1 ∧ ∀ o, o ≠ 2 → fl u 0 o = [] ∧ nf u 0 o = 0 :=
  split_merge_single_chunk ex_init_reach (by decide) (by decide!) (fun o h1 h2 => by
    have h3 : o < 3 := h1
    interval_cases o
    · decide!
    · decide!
    · exact absurd rfl h2)

/-! ## The free lists after `init_buddy` -/

theorem sum_bits (M : Nat) : ∀ N, N < 2 ^ M →
    Finset.sum (Finset.range M) (fun o => if N.testBit o then 2 ^ o else 0) = N := by
  induction M with
  | zero =>
    intro N h
    simp at h
    simp [h]
  | succ M ih =>
    intro N h
    rw [Finset.sum_range_succ]
    have h1 : Finset.sum (Finset.range M) (fun o => if N.testBit o then 2 ^ o else 0)
        = N % 2 ^ M := by
      rw [← ih (N % 2 ^ M) (Nat.mod_lt _ (two_pow_pos M))]
      apply Finset.sum_congr rfl
      intro o ho
      rw [Nat.testBit_mod_two_pow]
      simp [Finset.mem_range.1 ho]
    rw [h1, Nat.testBit_to_div_mod]
    have hq : N / 2 ^ M < 2 := by
      rw [Nat.div_lt_iff_lt_mul (two_pow_pos M)]
      rw [Nat.pow_succ] at h
      omega
    have hdm := Nat.div_add_mod N (2 ^ M)
    generalize N / 2 ^ M = q at hq hdm
    generalize N % 2 ^ M = r at hdm
    have hc : q = 0 ∨ q = 1 := by omega
    rcases hc with hc | hc
    · subst hc
      simp at hdm ⊢
      omega
    · subst hc
      simp at hdm ⊢
      omega

theorem testBit_of_chunk {N x j : Nat} (h1 : 2 ^ (j + 1) ∣ x) (h2 : x + 2 ^ j ≤ N)
    (h3 : N < x + 2 ^ (j + 1)) : N.testBit j = true := by
  obtain ⟨q, rfl⟩ := h1
  have hpow : 2 ^ (j + 1) = 2 * 2 ^ j := Nat.pow_succ'
  have hdiv : N / 2 ^ j = 2 * q + 1 := by
    apply Nat.div_eq_of_lt_le
    · have : (2 * q + 1) * 2 ^ j = 2 ^ (j + 1) * q + 2 ^ j := by rw [hpow]; ring
      omega
    · have : (2 * q + 1 + 1) * 2 ^ j = 2 ^ (j + 1) * q + 2 ^ (j + 1) := by rw [hpow]; ring
      omega
  rw [Nat.testBit_to_div_mod, hdiv]
  simp
  omega

/-- In a pool without free buddies and with no chunk handed out, an aligned block
of `2^j` pages inside the pool lies in one chunk. -/
theorem Inv.block_in_chunk {cfg : Config} {s : State} {i : Nat} (h : Inv cfg s i []) :
    ∀ j, j < cfg.BUDDY_MAX_ORDER → ∀ D, (s.global_mem i).page_metadata ≤ D →
      D + 2 ^ j ≤ (s.global_mem i).page_metadata + (s.global_mem i).pool_phys_page_num →
      2 ^ j ∣ page_nr cfg (s.global_mem i) D →
      ∃ c, Head s i [] c ∧ c ≤ D ∧ D + 2 ^ j ≤ c + 2 ^ (s.pages c).order := by
  have hb := h.base
  have ht := hb.tiling
  have hfree : ∀ c, Head s i [] c → c ∈ fl s i (s.pages c).order := by
    intro c hc
    rcases hc with hc | ⟨o, hc⟩
    · exact absurd hc (List.not_mem_nil c)
    · rw [hb.order_of_mem hc]; exact hc
  intro j
  induction j with
  | zero =>
    intro _ D h1 h2 _
    obtain ⟨c, hc, h3, h4⟩ := ht.cover D h1 (by simp at h2; omega)
    exact ⟨c, hc, h3, by simp; omega⟩
  | succ j ih =>
    intro hj D h1 h2 h3
    have hpos : 0 < 2 ^ j := two_pow_pos j
    have hpow : 2 ^ (j + 1) = 2 * 2 ^ j := Nat.pow_succ'
    have hD1 : 2 ^ j ∣ page_nr cfg (s.global_mem i) D :=
      Dvd.dvd.trans (pow_dvd_pow 2 (Nat.le_succ j)) h3
    have hD2 : 2 ^ j ∣ page_nr cfg (s.global_mem i) (D + 2 ^ j) := by
      have e : page_nr cfg (s.global_mem i) (D + 2 ^ j)
          = page_nr cfg (s.global_mem i) D + 2 ^ j := by unfold page_nr; omega
      rw [e]; exact (Nat.dvd_add_right hD1).2 (dvd_refl _)
    obtain ⟨c1, hc1, a1, a2⟩ := ih (by omega) D h1 (by omega) hD1
    obtain ⟨c2, hc2, b1, b2⟩ := ih (by omega) (D + 2 ^ j) (by omega) (by omega) hD2
    have ht1 := ht.table c1 hc1
    have ht2 := ht.table c2 hc2
    have hA1 := ht.align c1 hc1
    have hA2 := ht.align c2 hc2
    have h3' : 2 ^ (j + 1) ∣ start_nr cfg (s.global_mem i)
        + (D - (s.global_mem i).page_metadata) := h3
    have h3'' : 2 ^ (j + 1) ∣ start_nr cfg (s.global_mem i)
        + (D - (s.global_mem i).page_metadata) + 2 ^ (j + 1) :=
      (Nat.dvd_add_right h3').2 (dvd_refl _)
    by_cases g1 : j < (s.pages c1).order
    · have d1 : 2 ^ (j + 1) ∣ start_nr cfg (s.global_mem i)
          + (c1 - (s.global_mem i).page_metadata) + 2 ^ (s.pages c1).order :=
        (Nat.dvd_add_right (Dvd.dvd.trans (pow_dvd_pow 2 g1) hA1)).2 (pow_dvd_pow 2 g1)
      have := le_of_dvd_of_lt_add h3'' d1 (by omega)
      exact ⟨c1, hc1, a1, by omega⟩
    by_cases g2 : j < (s.pages c2).order
    · have d1 : 2 ^ (j + 1) ∣ start_nr cfg (s.global_mem i)
          + (c2 - (s.global_mem i).page_metadata) :=
        Dvd.dvd.trans (pow_dvd_pow 2 g2) hA2
      have := le_of_dvd_of_lt_add d1 h3' (by omega)
      exact ⟨c2, hc2, by omega, by omega⟩
    exfalso
    have p1 : 2 ^ (s.pages c1).order ≤ 2 ^ j := Nat.pow_le_pow_right (by decide) (by omega)
    have p2 : 2 ^ (s.pages c2).order ≤ 2 ^ j := Nat.pow_le_pow_right (by decide) (by omega)
    have e1 : c1 = D := by omega
    have e2 : c2 = D + 2 ^ j := by omega
    have o1 : (s.pages c1).order = j := by
      have : 2 ^ j ≤ 2 ^ (s.pages c1).order := by omega
      have := (Nat.pow_le_pow_iff_right (by decide)).1 this
      omega
    have o2 : (s.pages c2).order = j := by
      have : 2 ^ j ≤ 2 ^ (s.pages c2).order := by omega
      have := (Nat.pow_le_pow_iff_right (by decide)).1 this
      omega
    have m1 := hfree c1 hc1
    have m2 := hfree c2 hc2
    rw [o1, e1] at m1
    rw [o2, e2] at m2
    rcases h.coal j D m1 m2 hj h3 with e | e <;> exact Option.noConfusion e

/-- In a pool without free buddies and with no chunk handed out, the other half
of the aligned block of order `j + 1` around a chunk of order `j` does not lie
inside the pool. -/
theorem Inv.no_sibling_block {cfg : Config} {s : State} {i : Nat} (h : Inv cfg s i [])
    {c j l y : Nat} (hc : c ∈ fl s i j) (hj : j + 1 < cfg.BUDDY_MAX_ORDER)
    (hl : 2 ^ (j + 1) ∣ page_nr cfg (s.global_mem i) l)
    (hlt : (s.global_mem i).page_metadata ≤ l)
    (hcy : (c = l ∧ y = l + 2 ^ j) ∨ (y = l ∧ c = l + 2 ^ j))
    (hin : l + 2 ^ (j + 1)
      ≤ (s.global_mem i).page_metadata + (s.global_mem i).pool_phys_page_num) : False := by
  have hb := h.base
  have hpos : 0 < 2 ^ j := two_pow_pos j
  have hpow : 2 ^ (j + 1) = 2 * 2 ^ j := Nat.pow_succ'
  have hco := hb.order_of_mem hc
  have hlj : 2 ^ j ∣ page_nr cfg (s.global_mem i) l :=
    Dvd.dvd.trans (pow_dvd_pow 2 (Nat.le_succ j)) hl
  have hya : 2 ^ j ∣ page_nr cfg (s.global_mem i) y := by
    rcases hcy with ⟨_, e⟩ | ⟨e, _⟩
    · have e' : page_nr cfg (s.global_mem i) y = page_nr cfg (s.global_mem i) l + 2 ^ j := by
        unfold page_nr; omega
      rw [e']; exact (Nat.dvd_add_right hlj).2 (dvd_refl _)
    · rw [e]; exact hlj
  have hs := hb.tiling.sibling (c := c) (l := l) (y := y) (o := j) (hb.head_of_mem hc) hco hl hlt
    (by rcases hcy with ⟨e, _⟩ | ⟨_, e⟩ <;> omega) (by rcases hcy with ⟨e, _⟩ | ⟨_, e⟩ <;> omega)
    (by rcases hcy with ⟨_, e⟩ | ⟨e, _⟩ <;> omega) (by rcases hcy with ⟨_, e⟩ | ⟨e, _⟩ <;> omega)
    (by rcases hcy with ⟨_, e⟩ | ⟨e, _⟩ <;> omega) hya
  obtain ⟨d, hd, d1, d2⟩ := h.block_in_chunk j (by omega) y
    (by rcases hcy with ⟨_, e⟩ | ⟨e, _⟩ <;> omega)
    (by rcases hcy with ⟨_, e⟩ | ⟨e, _⟩ <;> omega) hya
  have hdy : d = y := hb.tiling.disj d y hd hs.1 d1 (by omega)
  rw [hdy] at d2
  have hyo : (s.pages y).order = j := by
    have : 2 ^ j ≤ 2 ^ (s.pages y).order := by omega
    have := (Nat.pow_le_pow_iff_right (by decide)).1 this
    omega
  have hym : y ∈ fl s i j := by
    rcases hs.1 with hy | ⟨o, hy⟩
    · exact absurd hy (List.not_mem_nil y)
    · rw [← hyo, hb.order_of_mem hy]; exact hy
  rcases hcy with ⟨e1, e2⟩ | ⟨e1, e2⟩
  · rw [e1] at hc; rw [e2] at hym
    rcases h.coal j l hc hym hj hl with e | e <;> exact Option.noConfusion e
  · rw [e1] at hym; rw [e2] at hc
    rcases h.coal j l hym hc hj hl with e | e <;> exact Option.noConfusion e

theorem length_le_one_of_all_eq {l : List Nat} (hn : l.Nodup)
    (h : ∀ a ∈ l, ∀ b ∈ l, a = b) : l.length ≤ 1 := by
  match l, hn, h with
  | [], _, _ => simp
  | [_], _, _ => simp
  | a :: b :: r, hn, h =>
    exfalso
    have hab : a = b := h a (List.mem_cons_self _ _) b
      (List.mem_cons_of_mem _ (List.mem_cons_self _ _))
    rw [hab] at hn
    exact (List.nodup_cons.1 hn).1 (List.mem_cons_self _ _)

/-- In a pool of `N` pages without free buddies and with no chunk handed out,
whose start is aligned to the top bit `2^K` of `N`, a free chunk of order `j`
starts at the page index that `N` has above bit `j`, and bit `j` of `N` is
set. -/
theorem Inv.chunk_position {cfg : Config} {s : State} {i : Nat} (h : Inv cfg s i [])
    {K : Nat} (hK1 : 2 ^ K ≤ (s.global_mem i).pool_phys_page_num)
    (hK2 : (s.global_mem i).pool_phys_page_num < 2 ^ (K + 1))
    (hM : (s.global_mem i).pool_phys_page_num < 2 ^ cfg.BUDDY_MAX_ORDER)
    (hsp : 2 ^ K ∣ start_nr cfg (s.global_mem i)) {c j : Nat} (hc : c ∈ fl s i j) :
    2 ^ (j + 1) ∣ c - (s.global_mem i).page_metadata ∧
    c - (s.global_mem i).page_metadata + 2 ^ j ≤ (s.global_mem i).pool_phys_page_num ∧
    (s.global_mem i).pool_phys_page_num
      < c - (s.global_mem i).page_metadata + 2 ^ (j + 1) := by
  have hb := h.base
  have hh := hb.head_of_mem hc
  have hco := hb.order_of_mem hc
  obtain ⟨t1, t2⟩ := hb.tiling.table c hh
  have hal := hb.tiling.align c hh
  have hwi := hb.tiling.within c hh
  simp only [hco] at hal hwi
  have hpos : 0 < 2 ^ j := two_pow_pos j
  have hpow : 2 ^ (j + 1) = 2 * 2 ^ j := Nat.pow_succ'
  have hpowK : 2 ^ (K + 1) = 2 * 2 ^ K := Nat.pow_succ'
  have hjK : j ≤ K := by
    have : 2 ^ j < 2 ^ (K + 1) := by omega
    have := (Nat.pow_lt_pow_iff_right (by decide : 1 < 2)).1 this
    omega
  have hKM : K < cfg.BUDDY_MAX_ORDER :=
    (Nat.pow_lt_pow_iff_right (by decide : 1 < 2)).1 (by omega)
  have hx : 2 ^ j ∣ c - (s.global_mem i).page_metadata :=
    (Nat.dvd_add_right (Dvd.dvd.trans (pow_dvd_pow 2 hjK) hsp)).1 hal
  by_cases hjk : j = K
  · subst hjk
    have hx0 : c - (s.global_mem i).page_metadata = 0 :=
      Nat.eq_zero_of_dvd_of_lt hx (by omega)
    rw [hx0]
    exact ⟨dvd_zero _, by omega, by omega⟩
  · have hsp1 : 2 ^ (j + 1) ∣ start_nr cfg (s.global_mem i) :=
      Dvd.dvd.trans (pow_dvd_pow 2 (by omega)) hsp
    rcases xor_pow_cases j _ hx with ⟨hd, _⟩ | ⟨hd, he⟩
    · refine ⟨hd, by omega, ?_⟩
      by_contra hlt
      exact h.no_sibling_block (l := c) (y := c + 2 ^ j) hc (by omega)
        ((Nat.dvd_add_right hsp1).2 hd) t1 (Or.inl ⟨rfl, rfl⟩) (by omega)
    · exfalso
      generalize (c - (s.global_mem i).page_metadata) ^^^ 2 ^ j = y at hd he
      have hl : 2 ^ (j + 1) ∣ page_nr cfg (s.global_mem i) ((s.global_mem i).page_metadata + y) := by
        unfold page_nr
        rw [Nat.add_sub_cancel_left]
        exact (Nat.dvd_add_right hsp1).2 hd
      exact h.no_sibling_block (l := (s.global_mem i).page_metadata + y)
        (y := (s.global_mem i).page_metadata + y) hc (by omega) hl (by omega)
        (Or.inr ⟨rfl, by omega⟩) (by omega)

/-- In such a pool the free lists hold the binary decomposition of `N`. -/
theorem Inv.binary {cfg : Config} {s : State} {i : Nat} (h : Inv cfg s i [])
    {K : Nat} (hK1 : 2 ^ K ≤ (s.global_mem i).pool_phys_page_num)
    (hK2 : (s.global_mem i).pool_phys_page_num < 2 ^ (K + 1))
    (hM : (s.global_mem i).pool_phys_page_num < 2 ^ cfg.BUDDY_MAX_ORDER)
    (hsp : 2 ^ K ∣ start_nr cfg (s.global_mem i)) (o : Nat) (ho : o < cfg.BUDDY_MAX_ORDER) :
    nf s i o = if (s.global_mem i).pool_phys_page_num.testBit o then 1 else 0 := by
  have hb := h.base
  have hle : ∀ j, nf s i j * 2 ^ j
      ≤ if (s.global_mem i).pool_phys_page_num.testBit j then 2 ^ j else 0 := by
    intro j
    rw [hb.count j]
    cases hl : fl s i j with
    | nil => simp
    | cons c r =>
      have hc : c ∈ fl s i j := by rw [hl]; exact List.mem_cons_self c r
      obtain ⟨p1, p2, p3⟩ := h.chunk_position hK1 hK2 hM hsp hc
      rw [testBit_of_chunk p1 p2 p3, if_pos rfl, ← hl]
      have hlen : (fl s i j).length ≤ 1 := by
        apply length_le_one_of_all_eq (hb.nodup j)
        intro a ha b hb'
        obtain ⟨a1, a2, a3⟩ := h.chunk_position hK1 hK2 hM hsp ha
        obtain ⟨b1, b2, b3⟩ := h.chunk_position hK1 hK2 hM hsp hb'
        have e1 := le_of_dvd_of_lt_add a1 b1 (by omega)
        have e2 := le_of_dvd_of_lt_add b1 a1 (by omega)
        have ta := (hb.tiling.table a (hb.head_of_mem ha)).1
        have tb := (hb.tiling.table b (hb.head_of_mem hb')).1
        omega
      calc (fl s i j).length * 2 ^ j ≤ 1 * 2 ^ j := Nat.mul_le_mul_right _ hlen
        _ = 2 ^ j := Nat.one_mul _
  have hcons := hb.conservation
  simp only [List.map_nil, List.sum_nil, Nat.add_zero] at hcons
  rw [sum_range_map] at hcons
  have hbits := sum_bits cfg.BUDDY_MAX_ORDER _ hM
  have heq := (Finset.sum_eq_sum_iff_of_le (fun j _ => hle j)).1 (hcons.trans hbits.symm) o
    (Finset.mem_range.2 ho)
  have hpos : 0 < 2 ^ o := two_pow_pos o
  by_cases hbit : (s.global_mem i).pool_phys_page_num.testBit o = true
  · rw [if_pos hbit] at heq ⊢
    exact Nat.eq_of_mul_eq_mul_right hpos (by rw [heq, Nat.one_mul])
  · rw [if_neg hbit] at heq ⊢
    rcases Nat.mul_eq_zero.1 heq with e | e
    · exact e
    · omega

/-- C4, amended: for a start address that is a multiple of `2^K` pages, `2^K`
the highest power of two that is at most `N`, and a page count `N` with
`1 ≤ N < 2^BUDDY_MAX_ORDER`, `init_buddy(pool, table, start, N)` returns and the
free lists hold the binary decomposition of `N`: `nr_free[o]` is 1 when bit `o`
of `N` is set and 0 otherwise. -/
theorem init_buddy_binary_decomposition {cfg : Config} {s0 : State}
    {i tbl start N K : Nat} (hpre : InitPre cfg s0 i tbl start N) (hK1 : 2 ^ K ≤ N)
    (hK2 : N < 2 ^ (K + 1)) (hM : N < 2 ^ cfg.BUDDY_MAX_ORDER)
    (hal : cfg.BUDDY_PAGE_SIZE * 2 ^ K ∣ start) :
    ∃ t, init_buddy cfg s0 i tbl start N = .ok t ∧
      ∀ o, o < cfg.BUDDY_MAX_ORDER → nf t i o = if N.testBit o then 1 else 0 := by
  obtain ⟨t, ht1, ht2, ht3⟩ := init_buddy_spec hpre
  obtain ⟨e1, _, _, e4, _⟩ := pool_init_pool cfg s0 i tbl start N
  have hN : (t.global_mem i).pool_phys_page_num = N := by rw [ht3.pages, e4]
  have hsp : 2 ^ K ∣ start_nr cfg (t.global_mem i) := by
    unfold start_nr
    rw [ht3.start, e1]
    exact Nat.dvd_div_of_mul_dvd hal
  refine ⟨t, ht1, fun o ho => ?_⟩
  have := ht2.binary (K := K) (by rw [hN]; exact hK1) (by rw [hN]; exact hK2)
    (by rw [hN]; exact hM) hsp o ho
  rw [hN] at this
  exact this

theorem init_buddy_binary_decomposition_witness :
    ∃ t, init_buddy cfg0 blank 0 0 0 6 = .ok t ∧
      ∀ o, o < cfg0.BUDDY_MAX_ORDER → nf t 0 o = if Nat.testBit 6 o then 1 else 0 :=
  init_buddy_binary_decomposition (K := 2) (blank_init_pre 6 (by decide)) (by decide)
    (by decide) (by decide) ⟨0, rfl⟩

theorem cfg4k_ok : CfgOK cfg4k := ⟨by decide, by decide, by decide⟩

/-- C4 fails for a start address that is page aligned only: a pool of two pages
of 4K at address `0x1000` ends up as two free chunks of order 0, not as the one
chunk of order 1 of the binary decomposition of 2. -/
theorem init_buddy_unaligned_start :
    InitPre cfg4k blank 0 0 4096 2 ∧ cfg4k.BUDDY_PAGE_SIZE ∣ 4096 ∧
    2 < 2 ^ cfg4k.BUDDY_MAX_ORDER ∧
    init_buddy cfg4k blank 0 0 4096 2 = .ok ex_unaligned ∧
    nf ex_unaligned 0 0 = 2 ∧ nf ex_unaligned 0 1 = 0 ∧
    ¬ (∀ o, o < cfg4k.BUDDY_MAX_ORDER →
        nf ex_unaligned 0 o = if Nat.testBit 2 o then 1 else 0) := by
  have h0 : nf ex_unaligned 0 0 = 2 := by decide!
  have h1 : nf ex_unaligned 0 1 = 0 := by decide!
  refine ⟨⟨cfg4k_ok, by decide, fun j hj => absurd hj (Nat.not_lt_zero j), ⟨1, rfl⟩, by decide,
    fun _ _ => rfl, by decide⟩, ⟨1, rfl⟩, by decide,
    eq_ok_of_toBool (init_buddy cfg4k blank 0 0 4096 2) blank (by decide!), h0, h1, ?_⟩
  intro h
  have := h 1 (by decide)
  rw [h1] at this
  exact absurd this (by decide)

/-! ## The free memory size -/

theorem free_mem_size_loop_eq (cfg : Config) (P : phys_mem_pool) (n : Nat) :
    free_mem_size_loop cfg P n
      = ((List.range n).map
          (fun o => (P.free_lists o).nr_free * 2 ^ o * cfg.BUDDY_PAGE_SIZE)).sum % W64 := by
  induction n with
  | zero => rfl
  | succ n ih =>
    rw [free_mem_size_loop, ih, List.range_succ, List.map_append, List.sum_append]
    simp only [List.map_cons, List.map_nil, List.sum_cons, List.sum_nil, Nat.add_zero]
    have e : (P.free_lists n).nr_free * 2 ^ n * cfg.BUDDY_PAGE_SIZE
        = (P.free_lists n).nr_free * (cfg.BUDDY_PAGE_SIZE * 2 ^ n) := by ring
    rw [e]
    conv_rhs => rw [Nat.add_mod, Nat.mul_mod]
    conv_lhs => rw [Nat.add_mod, Nat.mod_mod, Nat.mod_mod]
    congr 2
    conv_lhs => rw [Nat.mul_mod, Nat.mod_mod]

/-- In a well-formed pool the free chunks have at most as many bytes as the
pool, which ends below `2^64`. -/
theorem Base.free_bytes_lt {cfg : Config} {s : State} {i : Nat} {A : List Nat}
    (hb : Base cfg s i A) :
    ((List.range cfg.BUDDY_MAX_ORDER).map
      (fun o => nf s i o * 2 ^ o * cfg.BUDDY_PAGE_SIZE)).sum
      ≤ (s.global_mem i).pool_mem_size
    ∧ (s.global_mem i).pool_mem_size < W64 := by
  have hcons := hb.conservation
  have hw := hb.geom.no_wrap
  have hp : 0 < 2 ^ (cfg.BUDDY_MAX_ORDER + cfg.BUDDY_PAGE_SIZE_ORDER) := two_pow_pos _
  refine ⟨?_, by omega⟩
  rw [hb.geom.size, List.sum_map_mul_right]
  exact Nat.mul_le_mul_right _ (by omega)

/-- C13: for every well-formed pool state, whatever chunks are handed out,
`get_free_mem_size_from_buddy(pool)` returns the sum over
`order = 0..BUDDY_MAX_ORDER-1` of `nr_free[order] * 2^order * BUDDY_PAGE_SIZE`;
the sum is at most `pool_mem_size`, so the `unsigned long` arithmetic of the
function does not wrap.  The function only reads the pool: it returns the
number and no state. -/
theorem get_free_mem_size_from_buddy_sum {cfg : Config} {s : State} {i : Nat}
    {A : List Nat} (hb : Base cfg s i A) :
    get_free_mem_size_from_buddy cfg s i
      = ((List.range cfg.BUDDY_MAX_ORDER).map
          (fun o => nf s i o * 2 ^ o * cfg.BUDDY_PAGE_SIZE)).sum := by
  have h := hb.free_bytes_lt
  unfold get_free_mem_size_from_buddy
  rw [free_mem_size_loop_eq]
  exact Nat.mod_eq_of_lt (lt_of_le_of_lt h.1 h.2)

theorem get_free_mem_size_from_buddy_sum_witness :
    get_free_mem_size_from_buddy cfg0 ex_get.1 0
      = ((List.range cfg0.BUDDY_MAX_ORDER).map
          (fun o => nf ex_get.1 0 o * 2 ^ o * cfg0.BUDDY_PAGE_SIZE)).sum :=
  get_free_mem_size_from_buddy_sum ex_get_reach.inv.1.base

/-- C12: a valid `init_buddy(pool, table, start, N)`, with a page-aligned start,
returns, and right after it `get_free_mem_size_from_buddy(pool)` is
`N * BUDDY_PAGE_SIZE`. -/
theorem init_buddy_free_mem_size {cfg : Config} {s0 : State} {i tbl start N : Nat}
    (h : InitPre cfg s0 i tbl start N) :
    ∃ t, init_buddy cfg s0 i tbl start N = .ok t ∧
      get_free_mem_size_from_buddy cfg t i = N * cfg.BUDDY_PAGE_SIZE := by
  obtain ⟨t, ht, _, _⟩ := init_buddy_spec h
  refine ⟨t, ht, ?_⟩
  obtain ⟨hinv, hN⟩ := (Reachable.init s0 t tbl start h ht).inv
  have hcons := hinv.base.conservation
  simp only [List.map_nil, List.sum_nil, Nat.add_zero] at hcons
  unfold get_free_mem_size_from_buddy
  rw [free_mem_size_loop_eq]
  have e : ((List.range cfg.BUDDY_MAX_ORDER).map
      (fun o => ((t.global_mem i).free_lists o).nr_free * 2 ^ o * cfg.BUDDY_PAGE_SIZE)).sum
      = N * cfg.BUDDY_PAGE_SIZE := by
    rw [← hN, ← hcons, List.sum_map_mul_right]
    rfl
  rw [e]
  apply Nat.mod_eq_of_lt
  have := h.no_wrap
  have hp : 0 < 2 ^ (cfg.BUDDY_MAX_ORDER + cfg.BUDDY_PAGE_SIZE_ORDER) := two_pow_pos _
  omega

theorem init_buddy_free_mem_size_witness :
    ∃ t, init_buddy cfg0 blank 0 0 0 4 = .ok t ∧
      get_free_mem_size_from_buddy cfg0 t 0 = 4 * cfg0.BUDDY_PAGE_SIZE :=
  init_buddy_free_mem_size (blank_init_pre 4 (by decide))

/-- C11: in a reachable state every chunk head that is not marked allocated is
on the free list of its order, once, and on no other free list; every member
of `free_lists[o]` has order `o` and is not marked allocated; and
`free_lists[o].nr_free` is the number of members of `free_lists[o]`. -/
theorem free_lists_well_formed {cfg : Config} {i N : Nat} {s : State} {A : List Nat}
    (hr : Reachable cfg i N s A) :
    (∀ p, Head s i A p → (s.pages p).allocated = false →
      (fl s i (s.pages p).order).count p = 1 ∧ ∀ o, p ∈ fl s i o → o = (s.pages p).order) ∧
    (∀ o p, p ∈ fl s i o → (s.pages p).order = o ∧ (s.pages p).allocated = false) ∧
    (∀ o, nf s i o = (fl s i o).length) := by
  have hb := hr.inv.1.base
  refine ⟨fun p hp hf => ⟨?_, fun o ho => (hb.order_of_mem ho).symm⟩,
    fun o p hm => ⟨hb.order_of_mem hm, hb.free_of_mem hm⟩, hb.count⟩
  exact List.count_eq_one_of_mem (hb.nodup _) (hb.mem_of_head hp hf)

theorem free_lists_well_formed_witness :
    (∀ p, Head ex_get.1 0 [0] p → (ex_get.1.pages p).allocated = false →
      (fl ex_get.1 0 (ex_get.1.pages p).order).count p = 1
        ∧ ∀ o, p ∈ fl ex_get.1 0 o → o = (ex_get.1.pages p).order) ∧
    (∀ o p, p ∈ fl ex_get.1 0 o →
      (ex_get.1.pages p).order = o ∧ (ex_get.1.pages p).allocated = false) ∧
    (∀ o, nf ex_get.1 0 o = (fl ex_get.1 0 o).length) :=
  free_lists_well_formed ex_get_reach

theorem eq_ok_of_okOr {α : Type} (r : Except Err α) (d a : α) (h : r.toBool = true)
    (e : okOr r d = a) : r = .ok a := by
  rw [← e]
  exact eq_ok_of_toBool r d h

theorem ex_three_eq : init_buddy cfg0 blank 0 0 0 3 = .ok ex_three :=
  eq_ok_of_toBool (init_buddy cfg0 blank 0 0 0 3) blank (by decide!)

theorem ex_three_reach : Reachable cfg0 0 3 ex_three [] :=
  Reachable.init blank ex_three 0 0 (blank_init_pre 3 (by decide)) ex_three_eq

/-- C14, amended: in a reachable state, for a chunk head at address `a` with
order `o`, the buddy address `b` that `get_buddy_chunk` computes is
`a XOR (BUDDY_PAGE_SIZE * 2^o)`; `get_buddy_chunk` returns `NULL` when
`b < pool_start_addr` or when the buddy chunk ends behind the pool,
`b + 2^o * BUDDY_PAGE_SIZE > pool_start_addr + pool_mem_size`, and the
descriptor of the page at `b` otherwise. -/
theorem get_buddy_chunk_address {cfg : Config} {i N : Nat} {s : State} {A : List Nat}
    {p : Nat} (hr : Reachable cfg i N s A) (hp : Head s i A p) :
    ∃ a, page_to_virt cfg s p = .ok a ∧
      buddy_addr cfg a (s.pages p).order
        = a ^^^ (cfg.BUDDY_PAGE_SIZE * 2 ^ (s.pages p).order) ∧
      get_buddy_chunk cfg s i p = .ok
        (if buddy_addr cfg a (s.pages p).order < (s.global_mem i).pool_start_addr
            ∨ (s.global_mem i).pool_start_addr + (s.global_mem i).pool_mem_size
              < buddy_addr cfg a (s.pages p).order
                + 2 ^ (s.pages p).order * cfg.BUDDY_PAGE_SIZE
          then none
          else some ((s.global_mem i).page_metadata
            + (buddy_addr cfg a (s.pages p).order - (s.global_mem i).pool_start_addr)
              / cfg.BUDDY_PAGE_SIZE)) := by
  have hb := hr.inv.1.base
  have hg := hb.geom
  have htab := hb.table_of_head hp
  have hpool := hb.pool_ok p htab
  have ho := hb.order_lt hp
  have hal := hb.page_nr_align hp
  have hps := hg.page_size_pos
  refine ⟨_, page_to_virt_eq hg htab hpool, ?_, ?_⟩
  · unfold buddy_addr
    have e : 2 ^ ((s.pages p).order + cfg.BUDDY_PAGE_SIZE_ORDER) % W64
        = cfg.BUDDY_PAGE_SIZE * 2 ^ (s.pages p).order := by
      rw [hg.cfg_ok.page_size, ← Nat.pow_add, Nat.add_comm]
      apply Nat.mod_eq_of_lt
      unfold W64
      exact Nat.pow_lt_pow_right (by decide) (by have := hg.cfg_ok.shift; omega)
    rw [e]
  · rw [get_buddy_chunk_eq hg htab hpool ho hal, buddy_addr_eq hg.cfg_ok _ _ ho]
    congr 1
    have c1 : (page_nr cfg (s.global_mem i) p ^^^ 2 ^ (s.pages p).order)
          * cfg.BUDDY_PAGE_SIZE < (s.global_mem i).pool_start_addr
        ↔ page_nr cfg (s.global_mem i) p ^^^ 2 ^ (s.pages p).order
          < start_nr cfg (s.global_mem i) := by
      rw [hg.start_eq]
      exact Nat.mul_lt_mul_right hps
    have c2 : (s.global_mem i).pool_start_addr + (s.global_mem i).pool_mem_size
          < (page_nr cfg (s.global_mem i) p ^^^ 2 ^ (s.pages p).order)
              * cfg.BUDDY_PAGE_SIZE + 2 ^ (s.pages p).order * cfg.BUDDY_PAGE_SIZE
        ↔ start_nr cfg (s.global_mem i) + (s.global_mem i).pool_phys_page_num
          < (page_nr cfg (s.global_mem i) p ^^^ 2 ^ (s.pages p).order)
            + 2 ^ (s.pages p).order := by
      rw [hg.size, ← Nat.add_mul]
      conv_lhs => rw [hg.start_eq, ← Nat.add_mul]
      exact Nat.mul_lt_mul_right hps
    have c3 : ((page_nr cfg (s.global_mem i) p ^^^ 2 ^ (s.pages p).order)
          * cfg.BUDDY_PAGE_SIZE - (s.global_mem i).pool_start_addr) / cfg.BUDDY_PAGE_SIZE
        = (page_nr cfg (s.global_mem i) p ^^^ 2 ^ (s.pages p).order)
          - start_nr cfg (s.global_mem i) := by
      conv_lhs => rw [hg.start_eq, ← Nat.sub_mul]
      exact Nat.mul_div_cancel _ hps
    simp only [c1, c2, c3]

theorem get_buddy_chunk_address_witness :
    ∃ a, page_to_virt cfg0 ex_init 0 = .ok a ∧
      buddy_addr cfg0 a (ex_init.pages 0).order
        = a ^^^ (cfg0.BUDDY_PAGE_SIZE * 2 ^ (ex_init.pages 0).order) ∧
      get_buddy_chunk cfg0 ex_init 0 0 = .ok
        (if buddy_addr cfg0 a (ex_init.pages 0).order < (ex_init.global_mem 0).pool_start_addr
            ∨ (ex_init.global_mem 0).pool_start_addr + (ex_init.global_mem 0).pool_mem_size
              < buddy_addr cfg0 a (ex_init.pages 0).order
                + 2 ^ (ex_init.pages 0).order * cfg0.BUDDY_PAGE_SIZE
          then none
          else some ((ex_init.global_mem 0).page_metadata
            + (buddy_addr cfg0 a (ex_init.pages 0).order - (ex_init.global_mem 0).pool_start_addr)
              / cfg0.BUDDY_PAGE_SIZE)) :=
  get_buddy_chunk_address ex_init_reach (Or.inr ⟨2, by decide!⟩)

/-- C14 fails for a buddy that starts inside the pool and ends behind it: in the
pool of three pages right after `init_buddy` the chunk at address 0 has order
1, its buddy address `0 XOR 4 = 4` lies inside the pool `[0, 6)`, and
`get_buddy_chunk` returns `NULL`. -/
theorem get_buddy_chunk_partial_buddy :
    Reachable cfg0 0 3 ex_three [] ∧ 0 ∈ fl ex_three 0 1 ∧
    page_to_virt cfg0 ex_three 0 = .ok 0 ∧ (ex_three.pages 0).order = 1 ∧
    (ex_three.global_mem 0).pool_start_addr ≤ 0 ^^^ (cfg0.BUDDY_PAGE_SIZE * 2 ^ 1) ∧
    0 ^^^ (cfg0.BUDDY_PAGE_SIZE * 2 ^ 1)
      < (ex_three.global_mem 0).pool_start_addr + (ex_three.global_mem 0).pool_mem_size ∧
    get_buddy_chunk cfg0 ex_three 0 0 = .ok none :=
  ⟨ex_three_reach, by decide!, eq_ok_of_okOr _ 0 0 (by decide!) (by decide!), by decide!,
    by decide!, by decide!, eq_ok_of_okOr _ none none (by decide!) (by decide!)⟩

/-! ## The depth of the recursions -/

theorem page_to_virt_fuel (cfg : Config) (s : State) (p : Nat) :
    page_to_virt cfg s p ≠ .error .out_of_fuel := by
  unfold page_to_virt
  cases (s.pages p).pool <;> simp

theorem get_buddy_chunk_fuel (cfg : Config) (s : State) (i c : Nat) :
    get_buddy_chunk cfg s i c ≠ .error .out_of_fuel := by
  unfold get_buddy_chunk
  have h := page_to_virt_fuel cfg s c
  cases hp : page_to_virt cfg s c with
  | error e =>
    rw [hp] at h
    simpa using h
  | ok a =>
    simp only
    split <;> simp

theorem split_step_order {cfg : Config} {s t : State} {i c : Nat}
    (h : split_step cfg s i c = .ok t) : (t.pages c).order = (s.pages c).order - 1 := by
  unfold split_step at h
  dsimp only at h
  split at h
  · exact Except.noConfusion h
  · split at h
    · exact Except.noConfusion h
    · split at h
      · exact Except.noConfusion h
      · exact Except.noConfusion h
      · rename_i b hb
        have e := Except.ok.inj h
        rw [← e]
        by_cases hbc : c = b
        · subst hbc; simp
        · simp [hbc]

theorem split_step_fuel (cfg : Config) (s : State) (i c : Nat) :
    split_step cfg s i c ≠ .error .out_of_fuel := by
  unfold split_step
  dsimp only
  split
  · simp
  · split
    · simp
    · split
      · rename_i e he
        intro h
        have e1 := Except.error.inj h
        rw [e1] at he
        exact get_buddy_chunk_fuel _ _ _ _ he
      · simp
      · simp

/-- With a fuel of the difference of the orders or more `split_chunk` does not
run out of fuel, and the result is that of the least such fuel. -/
theorem split_chunk_fuel_enough (cfg : Config) (i m c : Nat) :
    ∀ (d : Nat) (s : State) (fuel : Nat), (s.pages c).order = m + d → d ≤ fuel →
      split_chunk_fuel cfg i m fuel s (some c) = split_chunk_fuel cfg i m d s (some c)
      ∧ split_chunk_fuel cfg i m d s (some c) ≠ .error .out_of_fuel := by
  intro d
  induction d with
  | zero =>
    intro s fuel ho hf
    have h0 : split_chunk_fuel cfg i m 0 s (some c) = .ok (s, some c) := by
      simp [split_chunk_fuel, ho]
    have h1 : split_chunk_fuel cfg i m fuel s (some c) = .ok (s, some c) := by
      cases fuel <;> simp [split_chunk_fuel, ho]
    rw [h0, h1]
    exact ⟨rfl, fun h => Except.noConfusion h⟩
  | succ d ih =>
    intro s fuel ho hf
    obtain ⟨f, rfl⟩ : ∃ f, fuel = f + 1 := ⟨fuel - 1, by omega⟩
    have h1 : ¬ (s.pages c).order < m := by omega
    have h2 : ¬ (s.pages c).order = m := by omega
    simp only [split_chunk_fuel, h1, h2, if_false]
    cases hs : split_step cfg s i c with
    | error e =>
      simp only
      refine ⟨trivial, fun h => split_step_fuel cfg s i c ?_⟩
      rw [hs, Except.error.inj h]
    | ok s1 =>
      simp only
      exact ih s1 f (by rw [split_step_order hs, ho]; omega) (by omega)

theorem merge_body_top {cfg : Config} {s : State} {i c : Nat}
    (h : cfg.BUDDY_MAX_ORDER ≤ (s.pages c).order + 1) :
    merge_body cfg s i c = .ok (s, none) := by
  unfold merge_body
  dsimp only
  rw [if_pos (by omega)]

theorem merge_body_fuel (cfg : Config) (s : State) (i c : Nat) :
    merge_body cfg s i c ≠ .error .out_of_fuel := by
  unfold merge_body
  dsimp only
  split
  · simp
  · split
    · rename_i e he
      intro h
      rw [Except.error.inj h] at he
      exact get_buddy_chunk_fuel _ _ _ _ he
    · split
      · simp
      · split_ifs <;> simp

theorem merge_body_ok_aux {cfg : Config} {s t : State} {c b lo : Nat} {r : Option Nat}
    (hbo : ((s.setPage c { s.pages c with allocated := false }).pages b).order
      = (s.pages c).order)
    (hlo : lo = b ∨ lo = c) (hcap : (s.pages c).order + 1 < cfg.BUDDY_MAX_ORDER)
    (ht : t.pages = Function.update (s.setPage c { s.pages c with allocated := false }).pages lo
      { (s.setPage c { s.pages c with allocated := false }).pages lo with
        order := ((s.setPage c { s.pages c with allocated := false }).pages lo).order + 1 })
    (hr : r = some lo) :
    (∀ q, (s.pages q).allocated = false → (t.pages q).allocated = false) ∧
    ((s.pages c).order + 1 < cfg.BUDDY_MAX_ORDER → (t.pages c).allocated = false) ∧
    (∀ lo, r = some lo → (s.pages c).order + 1 < cfg.BUDDY_MAX_ORDER
      ∧ (t.pages lo).order = (s.pages c).order + 1) := by
  have key : ∀ q, (s.pages q).allocated = false →
      ((s.setPage c { s.pages c with allocated := false }).pages q).allocated = false := by
    intro q hq
    by_cases e : q = c
    · subst e; simp
    · simp [e, hq]
  have keyc : ((s.setPage c { s.pages c with allocated := false }).pages c).allocated
      = false := by simp
  have hoc : ((s.setPage c { s.pages c with allocated := false }).pages c).order
      = (s.pages c).order := by simp
  generalize s.setPage c { s.pages c with allocated := false } = s1 at *
  have hall : ∀ q, (s1.pages q).allocated = false → (t.pages q).allocated = false := by
    intro q hq
    rw [ht]
    by_cases e : q = lo
    · subst e; simpa using hq
    · simpa [e] using hq
  refine ⟨fun q hq => hall q (key q hq), fun _ => hall c keyc, ?_⟩
  intro lo' hlo'
  rw [hr] at hlo'
  have e := Option.some.inj hlo'
  subst e
  refine ⟨hcap, ?_⟩
  rw [ht]
  rcases hlo with e | e
  · subst e; simp [hbo]
  · subst e; simp [hoc]

/-- What one level of `merge_chunk` does to the descriptors, in any state: no
descriptor becomes allocated, below the top order the chunk is marked as not
allocated, and a chunk that the recursion goes on with has the next order. -/
theorem merge_body_ok {cfg : Config} {s t : State} {i c : Nat} {r : Option Nat}
    (h : merge_body cfg s i c = .ok (t, r)) :
    (∀ q, (s.pages q).allocated = false → (t.pages q).allocated = false) ∧
    ((s.pages c).order + 1 < cfg.BUDDY_MAX_ORDER → (t.pages c).allocated = false) ∧
    (∀ lo, r = some lo → (s.pages c).order + 1 < cfg.BUDDY_MAX_ORDER
      ∧ (t.pages lo).order = (s.pages c).order + 1) := by
  have key : ∀ q, (s.pages q).allocated = false →
      ((s.setPage c { s.pages c with allocated := false }).pages q).allocated = false := by
    intro q hq
    by_cases e : q = c
    · subst e; simp
    · simp [e, hq]
  have stop : ∀ u, ((u = s ∧ cfg.BUDDY_MAX_ORDER ≤ (s.pages c).order + 1)
        ∨ u = s.setPage c { s.pages c with allocated := false }) →
      Except.ok (u, none) = (Except.ok (t, r) : Except Err (State × Option Nat)) →
      (∀ q, (s.pages q).allocated = false → (t.pages q).allocated = false) ∧
      ((s.pages c).order + 1 < cfg.BUDDY_MAX_ORDER → (t.pages c).allocated = false) ∧
      (∀ lo, r = some lo → (s.pages c).order + 1 < cfg.BUDDY_MAX_ORDER
        ∧ (t.pages lo).order = (s.pages c).order + 1) := by
    intro u hu h
    have e := Prod.mk.inj (Except.ok.inj h)
    rw [← e.1, ← e.2]
    refine ⟨?_, ?_, fun lo hlo => Option.noConfusion hlo⟩
    · rcases hu with ⟨e1, _⟩ | e1
      · rw [e1]; exact fun q hq => hq
      · rw [e1]; exact key
    · intro hlt
      rcases hu with ⟨_, e1⟩ | e1
      · omega
      · rw [e1]; simp
  unfold merge_body at h
  dsimp only at h
  split at h
  · exact stop s (Or.inl ⟨rfl, by omega⟩) h
  · rename_i hcap
    have hcap' : (s.pages c).order + 1 < cfg.BUDDY_MAX_ORDER := by omega
    split at h
    · exact Except.noConfusion h
    · split at h
      · exact stop _ (Or.inr rfl) h
      · rename_i b hget
        by_cases hbo : ((s.setPage c { s.pages c with allocated := false }).pages b).order
            = (s.pages c).order
        · rw [if_neg (not_not.2 hbo)] at h
          by_cases hlt : b < c
          · simp only [if_pos hlt] at h
            split_ifs at h
            · exact stop _ (Or.inr rfl) h
            · have e := Prod.mk.inj (Except.ok.inj h)
              exact merge_body_ok_aux hbo (Or.inl rfl) hcap' (by rw [← e.1]; rfl) e.2.symm
          · simp only [if_neg hlt] at h
            split_ifs at h
            · exact stop _ (Or.inr rfl) h
            · have e := Prod.mk.inj (Except.ok.inj h)
              exact merge_body_ok_aux hbo (Or.inr rfl) hcap' (by rw [← e.1]; rfl) e.2.symm
        · rw [if_pos hbo] at h
          exact stop _ (Or.inr rfl) h

/-- With a fuel of `BUDDY_MAX_ORDER - 1` less the order of the chunk, or more,
`merge_chunk` does not run out of fuel, and the result is that of the least
such fuel. -/
theorem merge_chunk_fuel_enough (cfg : Config) (i : Nat) :
    ∀ (d : Nat) (s : State) (c fuel : Nat),
      cfg.BUDDY_MAX_ORDER - 1 - (s.pages c).order ≤ d → d ≤ fuel →
      merge_chunk_fuel cfg i fuel s c = merge_chunk_fuel cfg i d s c
      ∧ merge_chunk_fuel cfg i d s c ≠ .error .out_of_fuel := by
  intro d
  induction d with
  | zero =>
    intro s c fuel ho hf
    have hb : merge_body cfg s i c = .ok (s, none) := merge_body_top (by omega)
    have h0 : merge_chunk_fuel cfg i 0 s c = .ok s := by
      simp [merge_chunk_fuel, hb]
    have h1 : merge_chunk_fuel cfg i fuel s c = .ok s := by
      cases fuel <;> simp [merge_chunk_fuel, hb]
    rw [h0, h1]
    exact ⟨rfl, fun h => Except.noConfusion h⟩
  | succ d ih =>
    intro s c fuel ho hf
    obtain ⟨f, rfl⟩ : ∃ f, fuel = f + 1 := ⟨fuel - 1, by omega⟩
    simp only [merge_chunk_fuel]
    cases hs : merge_body cfg s i c with
    | error e =>
      simp only
      refine ⟨trivial, fun h => merge_body_fuel cfg s i c ?_⟩
      rw [hs, Except.error.inj h]
    | ok x =>
      obtain ⟨s1, r⟩ := x
      cases r with
      | none =>
        simp only
        exact ⟨trivial, fun h => Except.noConfusion h⟩
      | some lo =>
        simp only
        have h2 := (merge_body_ok hs).2.2 lo rfl
        exact ih s1 lo f (by rw [h2.2]; omega) (by omega)

/-- In any state, a `merge_chunk` that returns has marked no descriptor as
allocated, and has marked the chunk as not allocated unless the chunk has the
top order. -/
theorem merge_chunk_fuel_alloc (cfg : Config) (i : Nat) :
    ∀ (fuel : Nat) (s : State) (c : Nat) (t : State),
      merge_chunk_fuel cfg i fuel s c = .ok t →
      (∀ q, (s.pages q).allocated = false → (t.pages q).allocated = false) ∧
      ((s.pages c).order + 1 < cfg.BUDDY_MAX_ORDER → (t.pages c).allocated = false) := by
  intro fuel
  induction fuel with
  | zero =>
    intro s c t h
    simp only [merge_chunk_fuel] at h
    cases hs : merge_body cfg s i c with
    | error e => rw [hs] at h; exact Except.noConfusion h
    | ok x =>
      obtain ⟨s1, r⟩ := x
      rw [hs] at h
      cases r with
      | none =>
        have e := Except.ok.inj h
        subst e
        exact ⟨(merge_body_ok hs).1, (merge_body_ok hs).2.1⟩
      | some lo => exact Except.noConfusion h
  | succ fuel ih =>
    intro s c t h
    simp only [merge_chunk_fuel] at h
    cases hs : merge_body cfg s i c with
    | error e => rw [hs] at h; exact Except.noConfusion h
    | ok x =>
      obtain ⟨s1, r⟩ := x
      rw [hs] at h
      cases r with
      | none =>
        have e := Except.ok.inj h
        subst e
        exact ⟨(merge_body_ok hs).1, (merge_body_ok hs).2.1⟩
      | some lo =>
        have h1 := ih s1 lo t h
        have h2 := merge_body_ok hs
        exact ⟨fun q hq => h1.1 q (h2.1 q hq), fun hlt => h1.1 c (h2.2.1 hlt)⟩

theorem merge_chunk_top {cfg : Config} {s : State} {i c : Nat}
    (h : cfg.BUDDY_MAX_ORDER ≤ (s.pages c).order + 1) :
    merge_chunk cfg s i c = .ok s := by
  have hb : merge_body cfg s i c = .ok (s, none) := merge_body_top h
  unfold merge_chunk
  cases cfg.BUDDY_MAX_ORDER <;> simp [merge_chunk_fuel, hb]

/-- C19: in every state, for a chunk and a target order `m` at or below the
order of the chunk, `split_chunk` with room for `chunk.order - m` nested calls
does not run out of them, and `merge_chunk` with room for
`BUDDY_MAX_ORDER - 1 - chunk.order` nested calls does not either; more room
does not change a result, so `split_chunk` and `merge_chunk` return what the
recursion of this depth returns.  A level of `split_chunk` lowers the order of
the chunk by one, and the chunk on which `merge_chunk` calls itself has the
next order, which is at most `BUDDY_MAX_ORDER - 1`. -/
theorem split_merge_terminate (cfg : Config) (s : State) (i m c : Nat)
    (hm : m ≤ (s.pages c).order) :
    (split_chunk_fuel cfg i m ((s.pages c).order - m) s (some c) ≠ .error .out_of_fuel ∧
      ∀ fuel, (s.pages c).order - m ≤ fuel →
        split_chunk_fuel cfg i m fuel s (some c)
          = split_chunk_fuel cfg i m ((s.pages c).order - m) s (some c)) ∧
    split_chunk cfg s i m (some c)
      = split_chunk_fuel cfg i m ((s.pages c).order - m) s (some c) ∧
    (merge_chunk_fuel cfg i (cfg.BUDDY_MAX_ORDER - 1 - (s.pages c).order) s c
        ≠ .error .out_of_fuel ∧
      ∀ fuel, cfg.BUDDY_MAX_ORDER - 1 - (s.pages c).order ≤ fuel →
        merge_chunk_fuel cfg i fuel s c
          = merge_chunk_fuel cfg i (cfg.BUDDY_MAX_ORDER - 1 - (s.pages c).order) s c) ∧
    merge_chunk cfg s i c
      = merge_chunk_fuel cfg i (cfg.BUDDY_MAX_ORDER - 1 - (s.pages c).order) s c ∧
    (∀ t, m < (s.pages c).order → split_step cfg s i c = .ok t →
      (t.pages c).order + 1 = (s.pages c).order) ∧
    (∀ t lo, merge_body cfg s i c = .ok (t, some lo) →
      (t.pages lo).order = (s.pages c).order + 1
        ∧ (t.pages lo).order ≤ cfg.BUDDY_MAX_ORDER - 1) := by
  have hs := split_chunk_fuel_enough cfg i m c ((s.pages c).order - m) s
  have hg := merge_chunk_fuel_enough cfg i (cfg.BUDDY_MAX_ORDER - 1 - (s.pages c).order) s c
  refine ⟨⟨(hs _ (by omega) (le_refl _)).2, fun fuel hf => (hs fuel (by omega) hf).1⟩,
    show split_chunk_fuel cfg i m (s.pages c).order s (some c) = _ from
      (hs (s.pages c).order (by omega) (by omega)).1,
    ⟨(hg _ (le_refl _) (le_refl _)).2, fun fuel hf => (hg fuel (le_refl _) hf).1⟩,
    (hg _ (le_refl _) (by omega)).1, ?_, ?_⟩
  · intro t hlt ht
    rw [split_step_order ht]
    omega
  · intro t lo ht
    have h2 := (merge_body_ok ht).2.2 lo rfl
    exact ⟨h2.2, by rw [h2.2]; omega⟩

theorem split_merge_terminate_witness :
    (split_chunk_fuel cfg0 0 0 ((ex_init.pages 0).order - 0) ex_init (some 0)
        ≠ .error .out_of_fuel ∧
      ∀ fuel, (ex_init.pages 0).order - 0 ≤ fuel →
        split_chunk_fuel cfg0 0 0 fuel ex_init (some 0)
          = split_chunk_fuel cfg0 0 0 ((ex_init.pages 0).order - 0) ex_init (some 0)) ∧
    split_chunk cfg0 ex_init 0 0 (some 0)
      = split_chunk_fuel cfg0 0 0 ((ex_init.pages 0).order - 0) ex_init (some 0) ∧
    (merge_chunk_fuel cfg0 0 (cfg0.BUDDY_MAX_ORDER - 1 - (ex_init.pages 0).order) ex_init 0
        ≠ .error .out_of_fuel ∧
      ∀ fuel, cfg0.BUDDY_MAX_ORDER - 1 - (ex_init.pages 0).order ≤ fuel →
        merge_chunk_fuel cfg0 0 fuel ex_init 0
          = merge_chunk_fuel cfg0 0 (cfg0.BUDDY_MAX_ORDER - 1 - (ex_init.pages 0).order)
              ex_init 0) ∧
    merge_chunk cfg0 ex_init 0 0
      = merge_chunk_fuel cfg0 0 (cfg0.BUDDY_MAX_ORDER - 1 - (ex_init.pages 0).order) ex_init 0 ∧
    (∀ t, 0 < (ex_init.pages 0).order → split_step cfg0 ex_init 0 0 = .ok t →
      (t.pages 0).order + 1 = (ex_init.pages 0).order) ∧
    (∀ t lo, merge_body cfg0 ex_init 0 0 = .ok (t, some lo) →
      (t.pages lo).order = (ex_init.pages 0).order + 1
        ∧ (t.pages lo).order ≤ cfg0.BUDDY_MAX_ORDER - 1) :=
  split_merge_terminate cfg0 ex_init 0 0 0 (Nat.zero_le _)

/-! ## The `allocated` flag in `merge_chunk` -/

theorem ex_top_eq : buddy_get_pages cfg0 ex_init 0 2 = .ok (ex_top.1, some 0) := by
  have h1 : buddy_get_pages cfg0 ex_init 0 2 = .ok ex_top :=
    eq_ok_of_toBool (buddy_get_pages cfg0 ex_init 0 2) (blank, none) (by decide!)
  have h2 : ex_top.2 = some 0 := by decide!
  rw [h1, ← h2]

theorem ex_top_reach : Reachable cfg0 0 4 ex_top.1 [0] :=
  Reachable.get ex_init ex_top.1 [] 2 (some 0) ex_init_reach (by decide) ex_top_eq

theorem ex_two_eq : buddy_get_pages cfg0 ex_get.1 0 0 = .ok (ex_two.1, some 1) := by
  have h1 : buddy_get_pages cfg0 ex_get.1 0 0 = .ok ex_two :=
    eq_ok_of_toBool (buddy_get_pages cfg0 ex_get.1 0 0) (blank, none) (by decide!)
  have h2 : ex_two.2 = some 1 := by decide!
  rw [h1, ← h2]

theorem ex_two_reach : Reachable cfg0 0 4 ex_two.1 [1, 0] :=
  Reachable.get ex_get.1 ex_two.1 [0] 0 (some 1) ex_get_reach (by decide) ex_two_eq

/-- C18, amended: for a chunk of an order below `BUDDY_MAX_ORDER - 1`, after
`merge_chunk(pool, chunk)` returns the chunk is marked as not allocated; for a
chunk of the order `BUDDY_MAX_ORDER - 1` or more `merge_chunk` returns at once
and changes nothing, the `allocated` flag of the chunk included.  For a chunk
on a free list of a well-formed pool, as in `buddy_free_pages`, `merge_chunk`
returns and the chunk is marked as not allocated, whatever its order. -/
theorem merge_chunk_allocated (cfg : Config) (s : State) (i c : Nat) :
    (cfg.BUDDY_MAX_ORDER ≤ (s.pages c).order + 1 → merge_chunk cfg s i c = .ok s) ∧
    ((s.pages c).order + 1 < cfg.BUDDY_MAX_ORDER → ∀ t, merge_chunk cfg s i c = .ok t →
      (t.pages c).allocated = false) ∧
    (∀ A o, Base cfg s i A → c ∈ fl s i o → Coal cfg s i (some c) →
      ∃ t, merge_chunk cfg s i c = .ok t ∧ (t.pages c).allocated = false) := by
  refine ⟨merge_chunk_top, fun h t ht => (merge_chunk_fuel_alloc cfg i _ s c t ht).2 h, ?_⟩
  intro A o hb hc hco
  obtain ⟨t, ht, _⟩ := merge_chunk_fuel_spec cfg.BUDDY_MAX_ORDER s c o hb hc hco (by omega)
  exact ⟨t, ht, (merge_chunk_fuel_alloc cfg i _ s c t ht).1 c (hb.free_of_mem hc)⟩

theorem merge_chunk_allocated_witness :
    (ex_two.1.pages 0).allocated = true ∧
    ((okOr (merge_chunk cfg0 ex_two.1 0 0) blank).pages 0).allocated = false :=
  ⟨by decide!, (merge_chunk_allocated cfg0 ex_two.1 0 0).2.1 (by decide!) _
    (eq_ok_of_toBool _ blank (by decide!))⟩

/-- C18 fails at the order `BUDDY_MAX_ORDER - 1`: in the pool of four pages whose
one chunk of order 2 has been handed out, `merge_chunk` on that chunk returns
with the state unchanged, and the chunk is still marked allocated. -/
theorem merge_chunk_top_order_allocated :
    Reachable cfg0 0 4 ex_top.1 [0] ∧
    (ex_top.1.pages 0).order = cfg0.BUDDY_MAX_ORDER - 1 ∧
    merge_chunk cfg0 ex_top.1 0 0 = .ok ex_top.1 ∧
    (ex_top.1.pages 0).allocated = true :=
  ⟨ex_top_reach, by decide!, merge_chunk_top (by decide!), by decide!⟩

/-! ## The free lists after `split_chunk` -/

/-- The free lists along `split_chunk` on a free chunk `p` of order `k` of the
state `s0`: once the chunk has come down to order `j`, the lists are those of
`s0` with `p` moved to the list `j` and the upper halves `p + 2 ^ o` put in
front of the lists of the orders from `j` up to `k - 1`. -/
theorem split_chunk_fuel_lists {cfg : Config} {i m : Nat} {A : List Nat} {p k : Nat}
    {s0 : State} :
    ∀ (fuel : Nat) (t : State) (j : Nat), Base cfg t i A → p ∈ fl t i j →
      (∀ o, (fl t i o).erase p =
        if j ≤ o ∧ o < k then (p + 2 ^ o) :: (fl s0 i o).erase p else (fl s0 i o).erase p) →
      m ≤ j → j ≤ k → j ≤ fuel + m →
      ∃ u, split_chunk_fuel cfg i m fuel t (some p) = .ok (u, some p) ∧ Base cfg u i A
        ∧ p ∈ fl u i m ∧
        ∀ o, (fl u i o).erase p =
          if m ≤ o ∧ o < k then (p + 2 ^ o) :: (fl s0 i o).erase p
          else (fl s0 i o).erase p := by
  intro fuel
  induction fuel with
  | zero =>
    intro t j hb hmem hl h1 h2 h3
    have hj : j = m := by omega
    subst hj
    refine ⟨t, ?_, hb, hmem, hl⟩
    simp [split_chunk_fuel, hb.order_of_mem hmem]
  | succ fuel ih =>
    intro t j hb hmem hl h1 h2 h3
    have hok := hb.order_of_mem hmem
    by_cases hj : j = m
    · subst hj
      refine ⟨t, ?_, hb, hmem, hl⟩
      simp [split_chunk_fuel, hok]
    · obtain ⟨j', rfl⟩ : ∃ j', j = j' + 1 := ⟨j - 1, by omega⟩
      obtain ⟨t1, ht1, hrel⟩ := split_step_spec hb hmem
      have hb1 := hrel.split_base hb hmem
      have hpos : 0 < 2 ^ j' := two_pow_pos j'
      have hl1 : ∀ o, (fl t1 i o).erase p =
          if j' ≤ o ∧ o < k then (p + 2 ^ o) :: (fl s0 i o).erase p
          else (fl s0 i o).erase p := by
        intro o
        rw [hrel.fl_eq o]
        by_cases ho : o = j'
        · subst ho
          rw [if_pos rfl, if_pos ⟨le_refl _, by omega⟩]
          have hne : ¬ (p + 2 ^ o == p) = true := by
            simp only [beq_iff_eq]; omega
          rw [List.erase_cons_tail hne, List.erase_cons_head, hl o, if_neg (by omega)]
        · rw [if_neg ho, erase_erase_self (hb.nodup o), hl o]
          by_cases hc : j' + 1 ≤ o ∧ o < k
          · rw [if_pos hc, if_pos ⟨by omega, hc.2⟩]
          · rw [if_neg hc, if_neg (by omega)]
      have hm1 : p ∈ fl t1 i j' := (hrel.split_mem_iff hb j' p).2 (Or.inl ⟨rfl, Or.inr rfl⟩)
      obtain ⟨u, hu1, hu2, hu3, hu4⟩ := ih t1 j' hb1 hm1 hl1 (by omega) (by omega) (by omega)
      refine ⟨u, ?_, hu2, hu3, hu4⟩
      have hlt : ¬ j' + 1 < m := by omega
      simp [split_chunk_fuel, hok, hlt, hj, ht1, hu1]

/-- C16: in a well-formed pool, for a chunk `c` on the free list of its order
`k` and a target order `m ≤ k`, `split_chunk(pool, m, c)` returns `c`, now of
order `m`.  For `m = k` the state is unchanged.  For `m < k`, `nr_free[k]` is
one less, `nr_free[j]` is one more for `m < j < k`, `nr_free[m]` is two more,
the upper halves `c + 2^j` for `m ≤ j < k` are on the free list `j`, of order
`j` and not allocated, and the lists and counters of the orders below `m` or
above `k` are unchanged. -/
theorem split_chunk_postcondition {cfg : Config} {s : State} {i : Nat} {A : List Nat}
    {c k m : Nat} (hb : Base cfg s i A) (hc : c ∈ fl s i k) (hm : m ≤ k) :
    ∃ u, split_chunk cfg s i m (some c) = .ok (u, some c) ∧ (u.pages c).order = m ∧
      c ∈ fl u i m ∧
      (m = k → u = s) ∧
      (m < k →
        fl u i k = (fl s i k).erase c ∧ nf u i k = nf s i k - 1 ∧
        (∀ j, m < j → j < k → fl u i j = (c + 2 ^ j) :: fl s i j ∧ nf u i j = nf s i j + 1) ∧
        nf u i m = nf s i m + 2 ∧
        (∀ j, m ≤ j → j < k → c + 2 ^ j ∈ fl u i j ∧ (u.pages (c + 2 ^ j)).order = j
          ∧ (u.pages (c + 2 ^ j)).allocated = false) ∧
        (∀ j, j < m ∨ k < j → fl u i j = fl s i j ∧ nf u i j = nf s i j)) := by
  have hok := hb.order_of_mem hc
  obtain ⟨u, hu, hbu, hcu, hl⟩ := @split_chunk_fuel_lists cfg i m A c k s
    k s k hb hc (fun o => by rw [if_neg (by omega)]) hm (le_refl _) (by omega)
  have hsp : split_chunk cfg s i m (some c) = .ok (u, some c) := by
    unfold split_chunk
    simp only [hok]
    exact hu
  have hou := hbu.order_of_mem hcu
  have hnu : ∀ o, o ≠ m → (fl u i o).erase c = fl u i o := fun o ho =>
    List.erase_of_not_mem (hbu.not_mem_of_order (by rw [hou]; exact Ne.symm ho))
  have hns : ∀ o, o ≠ k → (fl s i o).erase c = fl s i o := fun o ho =>
    List.erase_of_not_mem (hb.not_mem_of_order (by rw [hok]; exact Ne.symm ho))
  refine ⟨u, hsp, hou, hcu, ?_, ?_⟩
  · intro e
    subst e
    have h0 : split_chunk_fuel cfg i m m s (some c) = .ok (s, some c) := by
      cases m <;> simp [split_chunk_fuel, hok]
    rw [h0] at hu
    exact (Prod.mk.inj (Except.ok.inj hu)).1.symm
  · intro hlt
    have hk : fl u i k = (fl s i k).erase c := by
      rw [← hnu k (by omega), hl k, if_neg (by omega)]
    have hmid : ∀ j, m < j → j < k → fl u i j = (c + 2 ^ j) :: fl s i j := by
      intro j h1 h2
      rw [← hnu j (by omega), hl j, if_pos ⟨by omega, h2⟩, hns j (by omega)]
    have hlow : (fl u i m).erase c = (c + 2 ^ m) :: fl s i m := by
      rw [hl m, if_pos ⟨le_refl _, hlt⟩, hns m (by omega)]
    have hout : ∀ j, j < m ∨ k < j → fl u i j = fl s i j := by
      intro j hj
      rw [← hnu j (by omega), hl j, if_neg (by omega), hns j (by omega)]
    refine ⟨hk, ?_, ?_, ?_, ?_, ?_⟩
    · rw [hbu.count, hb.count, hk, List.length_erase_of_mem hc]
    · intro j h1 h2
      refine ⟨hmid j h1 h2, ?_⟩
      rw [hbu.count, hb.count, hmid j h1 h2, List.length_cons]
    · have hlen := congrArg List.length hlow
      rw [List.length_erase_of_mem hcu, List.length_cons] at hlen
      have hpos := List.length_pos_of_mem hcu
      rw [hbu.count, hb.count]
      omega
    · intro j h1 h2
      have hmem : c + 2 ^ j ∈ fl u i j := by
        by_cases e : j = m
        · subst e
          exact List.mem_of_mem_erase (by rw [hlow]; exact List.mem_cons_self _ _)
        · rw [hmid j (by omega) h2]
          exact List.mem_cons_self _ _
      exact ⟨hmem, hbu.order_of_mem hmem, hbu.free_of_mem hmem⟩
    · intro j hj
      refine ⟨hout j hj, ?_⟩
      rw [hbu.count, hb.count, hout j hj]

theorem split_chunk_postcondition_witness :
    ∃ u, split_chunk cfg0 ex_init 0 0 (some 0) = .ok (u, some 0) ∧ (u.pages 0).order = 0 ∧
      0 ∈ fl u 0 0 ∧
      (0 = 2 → u = ex_init) ∧
      (0 < 2 →
        fl u 0 2 = (fl ex_init 0 2).erase 0 ∧ nf u 0 2 = nf ex_init 0 2 - 1 ∧
        (∀ j, 0 < j → j < 2 →
          fl u 0 j = (0 + 2 ^ j) :: fl ex_init 0 j ∧ nf u 0 j = nf ex_init 0 j + 1) ∧
        nf u 0 0 = nf ex_init 0 0 + 2 ∧
        (∀ j, 0 ≤ j → j < 2 → 0 + 2 ^ j ∈ fl u 0 j ∧ (u.pages (0 + 2 ^ j)).order = j
          ∧ (u.pages (0 + 2 ^ j)).allocated = false) ∧
        (∀ j, j < 0 ∨ 2 < j → fl u 0 j = fl ex_init 0 j ∧ nf u 0 j = nf ex_init 0 j)) :=
  split_chunk_postcondition ex_init_reach.inv.1.base (by decide!) (by decide)

/-! ## One merge of `merge_chunk` -/

theorem merge_chunk_continue {cfg : Config} {s t : State} {i c lo : Nat}
    (h : merge_body cfg s i c = .ok (t, some lo)) :
    merge_chunk cfg s i c = merge_chunk cfg t i lo := by
  have h2 := (merge_body_ok h).2.2 lo rfl
  have hg := merge_chunk_fuel_enough cfg i (cfg.BUDDY_MAX_ORDER - 1 - (t.pages lo).order) t lo
  obtain ⟨n, hn⟩ : ∃ n, cfg.BUDDY_MAX_ORDER = n + 1 := ⟨cfg.BUDDY_MAX_ORDER - 1, by omega⟩
  have e1 : merge_chunk cfg s i c = merge_chunk_fuel cfg i n t lo := by
    unfold merge_chunk
    rw [hn]
    simp [merge_chunk_fuel, h]
  rw [e1, (hg n (le_refl _) (by omega)).1]
  unfold merge_chunk
  rw [(hg cfg.BUDDY_MAX_ORDER (le_refl _) (by omega)).1]

/-- In a well-formed pool, for a chunk `c` on the free list of its order
`o < BUDDY_MAX_ORDER - 1`, `get_buddy_chunk` returns.  When it returns a
descriptor `b` of order `o` that is not allocated, then `b` is another member
of the free list `o`, and the body of `merge_chunk` takes `c` and `b` off that
list, lowers `nr_free[o]` by 2, gives the lower one of `c` and `b` the order
`o + 1`, puts it in front of the free list `o + 1`, raises `nr_free[o + 1]` by
1, leaves the other lists and counters alone, and `merge_chunk` goes on from
that chunk in that state.  When it returns `NULL`, or a descriptor of another
order, or an allocated one, `merge_chunk` returns with the state unchanged. -/
theorem merge_step_of_lookup {cfg : Config} {s : State} {i : Nat} {A : List Nat}
    {c o : Nat} (hb : Base cfg s i A) (hc : c ∈ fl s i o)
    (ho : o + 1 < cfg.BUDDY_MAX_ORDER) :
    ∃ r, get_buddy_chunk cfg s i c = .ok r ∧
      ((∀ b, r = some b → (s.pages b).order ≠ o ∨ (s.pages b).allocated = true) →
        merge_chunk cfg s i c = .ok s) ∧
      (∀ b, r = some b → (s.pages b).order = o → (s.pages b).allocated = false →
        b ∈ fl s i o ∧ b ≠ c ∧
        ∃ t, merge_body cfg s i c = .ok (t, some (min c b)) ∧
          merge_chunk cfg s i c = merge_chunk cfg t i (min c b) ∧
          fl t i o = ((fl s i o).erase c).erase b ∧ c ∉ fl t i o ∧ b ∉ fl t i o ∧
          nf t i o = nf s i o - 2 ∧
          (t.pages (min c b)).order = o + 1 ∧
          fl t i (o + 1) = min c b :: fl s i (o + 1) ∧
          nf t i (o + 1) = nf s i (o + 1) + 1 ∧
          ∀ o', o' ≠ o → o' ≠ o + 1 → fl t i o' = fl s i o' ∧ nf t i o' = nf s i o') := by
  have hpos : 0 < 2 ^ o := two_pow_pos o
  obtain ⟨r, hr, hr1, hr2⟩ := hb.buddy_lookup hc
  refine ⟨r, hr, ?_, ?_⟩
  · intro hno
    rcases merge_body_spec hb hc with ⟨h1, _⟩ | ⟨lo, t, _, _, h3, h4, h5, h6, _⟩
    · unfold merge_chunk
      cases cfg.BUDDY_MAX_ORDER <;> simp [merge_chunk_fuel, h1]
    · exfalso
      obtain ⟨e1, e2⟩ := hr2 lo h6 h4 h5
      rcases h3 with e | e
      · rcases hno _ (e1 e) with h | h
        · exact h (hb.order_of_mem h5)
        · rw [hb.free_of_mem h5] at h
          exact Bool.noConfusion h
      · rcases hno _ (e2 e) with h | h
        · exact h (hb.order_of_mem h4)
        · rw [hb.free_of_mem h4] at h
          exact Bool.noConfusion h
  · intro b hrb hbo hba
    obtain ⟨hgeo, hmem⟩ := hr1 b hrb
    have hbm : b ∈ fl s i o := hmem hbo hba
    have hbc : b ≠ c := by rcases hgeo with ⟨h, _⟩ | ⟨h, _⟩ <;> omega
    refine ⟨hbm, hbc, ?_⟩
    rcases merge_body_spec hb hc with ⟨_, h2⟩ | ⟨lo, t, h1, _, h3, h4, h5, h6, h7⟩
    · exfalso
      rcases hgeo with ⟨h, hd⟩ | ⟨h, hd⟩
      · exact (h2 ho c hd hc (h ▸ hbm)).1 rfl
      · exact (h2 ho b hd hbm (h ▸ hc)).2 h
    · obtain ⟨e1, e2⟩ := hr2 lo h6 h4 h5
      have hlo : min c b = lo ∧ ((c = lo ∧ b = lo + 2 ^ o) ∨ (c = lo + 2 ^ o ∧ b = lo)) := by
        rcases h3 with e | e
        · have hb' : b = lo + 2 ^ o := by
            have := e1 e
            rw [hrb] at this
            exact Option.some.inj this
          exact ⟨by rw [e, hb']; exact Nat.min_eq_left (by omega), Or.inl ⟨e, hb'⟩⟩
        · have hb' : b = lo := by
            have := e2 e
            rw [hrb] at this
            exact Option.some.inj this
          exact ⟨by rw [e, hb']; exact Nat.min_eq_right (by omega), Or.inr ⟨e, hb'⟩⟩
      obtain ⟨hmin, hcb⟩ := hlo
      rw [hmin]
      have hflo : fl t i o = ((fl s i o).erase lo).erase (lo + 2 ^ o) := by
        rw [h7.fl_eq o, if_neg (by omega)]
      have hnlo : ∀ o', o' ≠ o → lo ∉ fl s i o' := fun o' h' =>
        hb.not_mem_of_order (by rw [hb.order_of_mem h4]; exact Ne.symm h')
      have hnhi : ∀ o', o' ≠ o → lo + 2 ^ o ∉ fl s i o' := fun o' h' =>
        hb.not_mem_of_order (by rw [hb.order_of_mem h5]; exact Ne.symm h')
      have hmi := h7.merge_mem_iff hb
      have hn1 : lo ∉ fl t i o := by
        rw [hmi]; rintro (⟨h, _⟩ | ⟨h, _⟩)
        · omega
        · exact h rfl
      have hn2 : lo + 2 ^ o ∉ fl t i o := by
        rw [hmi]; rintro (⟨h, _⟩ | ⟨_, h, _⟩)
        · omega
        · exact h rfl
      refine ⟨t, h1, merge_chunk_continue h1, ?_, ?_, ?_, ?_, ?_, ?_, ?_, ?_⟩
      · rcases hcb with ⟨e, e'⟩ | ⟨e, e'⟩
        · rw [e, e', hflo]
        · rw [e, e', hflo, List.erase_comm]
      · rcases hcb with ⟨e, _⟩ | ⟨e, _⟩
        · rw [e]; exact hn1
        · rw [e]; exact hn2
      · rcases hcb with ⟨_, e⟩ | ⟨_, e⟩
        · rw [e]; exact hn2
        · rw [e]; exact hn1
      · rw [h7.nf_eq o, if_neg (by omega), if_pos rfl]
        omega
      · rw [h7.pages_eq lo, if_pos rfl]
      · rw [h7.fl_eq (o + 1), if_pos rfl, List.erase_of_not_mem (hnlo _ (by omega)),
          List.erase_of_not_mem (hnhi _ (by omega))]
      · rw [h7.nf_eq (o + 1), if_pos rfl]
      · intro o' n1 n2
        rw [h7.fl_eq o', if_neg n2, List.erase_of_not_mem (hnlo _ n1),
          List.erase_of_not_mem (hnhi _ n1), h7.nf_eq o', if_neg n2, if_neg n1]
        exact ⟨rfl, rfl⟩

theorem ex_freeing_base : Base cfg0 (free_state ex_get.1 0 0) 0 [] :=
  (free_state_rel ex_get.1 0 0).free_base ex_get_reach.inv.1.base (List.mem_singleton.2 rfl) rfl

/-! ## No `BUG_ON` fires -/

/-- C20: in a state reachable from a valid `init_buddy` by `buddy_get_pages` with
an order below `BUDDY_MAX_ORDER` and `buddy_free_pages` on chunks handed out
and not yet freed, `buddy_get_pages` for such an order and `buddy_free_pages`
on such a chunk return: no `BUG_ON` fires in them or in the `split_chunk`,
`merge_chunk`, `get_buddy_chunk` and `page_to_virt` they call, and no buddy
that `split_chunk` dereferences is `NULL`.  Also `page_to_virt` returns on
every chunk head, `split_chunk` returns on every free chunk and target order
at or below its order, and one level of `split_chunk` on a free chunk of order
`j + 1` finds the buddy `c + 2^j` and puts it on the free list `j`. -/
theorem no_bug_on_fires {cfg : Config} {i N : Nat} {s : State} {A : List Nat}
    (hr : Reachable cfg i N s A) :
    (∀ o, o < cfg.BUDDY_MAX_ORDER → ∃ t r, buddy_get_pages cfg s i o = .ok (t, r)) ∧
    (∀ p, p ∈ A → ∃ t, buddy_free_pages cfg s i (some p) = .ok t) ∧
    (∀ p, Head s i A p → ∃ a, page_to_virt cfg s p = .ok a) ∧
    (∀ c k m, c ∈ fl s i k → m ≤ k →
      ∃ u, split_chunk cfg s i m (some c) = .ok (u, some c)) ∧
    (∀ c j, c ∈ fl s i (j + 1) →
      ∃ t, split_step cfg s i c = .ok t ∧ c + 2 ^ j ∈ fl t i j) := by
  have hinv := hr.inv.1
  have hb := hinv.base
  refine ⟨?_, ?_, ?_, ?_, ?_⟩
  · intro o ho
    rcases buddy_get_pages_spec hinv ho with ⟨h1, _⟩ | ⟨t, p, _, _, h1, _⟩
    · exact ⟨_, _, h1⟩
    · exact ⟨_, _, h1⟩
  · intro p hp
    obtain ⟨t, ht, _⟩ := buddy_free_pages_spec hinv hp
    exact ⟨t, ht⟩
  · intro p hp
    have htab := hb.table_of_head hp
    exact ⟨_, page_to_virt_eq hb.geom htab (hb.pool_ok p htab)⟩
  · intro c k m hc hm
    obtain ⟨u, hu, _⟩ := @split_chunk_fuel_lists cfg i m A c k s
      k s k hb hc (fun o => by rw [if_neg (by omega)]) hm (le_refl _) (by omega)
    refine ⟨u, ?_⟩
    unfold split_chunk
    simp only [hb.order_of_mem hc]
    exact hu
  · intro c j hc
    obtain ⟨t, ht, hrel⟩ := split_step_spec hb hc
    exact ⟨t, ht, (hrel.split_mem_iff hb j _).2 (Or.inl ⟨rfl, Or.inl rfl⟩)⟩

theorem no_bug_on_fires_witness :
    (∀ o, o < cfg0.BUDDY_MAX_ORDER → ∃ t r, buddy_get_pages cfg0 ex_get.1 0 o = .ok (t, r)) ∧
    (∀ p, p ∈ [0] → ∃ t, buddy_free_pages cfg0 ex_get.1 0 (some p) = .ok t) ∧
    (∀ p, Head ex_get.1 0 [0] p → ∃ a, page_to_virt cfg0 ex_get.1 p = .ok a) ∧
    (∀ c k m, c ∈ fl ex_get.1 0 k → m ≤ k →
      ∃ u, split_chunk cfg0 ex_get.1 0 m (some c) = .ok (u, some c)) ∧
    (∀ c j, c ∈ fl ex_get.1 0 (j + 1) →
      ∃ t, split_step cfg0 ex_get.1 0 c = .ok t ∧ c + 2 ^ j ∈ fl t 0 j) :=
  no_bug_on_fires ex_get_reach

/-! ## The buddy of a chunk in one merge -/

theorem xor_addr_eq {cfg : Config} (hc : CfgOK cfg) (n o : Nat)
    (ho : o < cfg.BUDDY_MAX_ORDER) :
    (n * cfg.BUDDY_PAGE_SIZE) ^^^ (cfg.BUDDY_PAGE_SIZE * 2 ^ o)
      = (n ^^^ 2 ^ o) * cfg.BUDDY_PAGE_SIZE := by
  have e : 2 ^ (o + cfg.BUDDY_PAGE_SIZE_ORDER) % W64 = cfg.BUDDY_PAGE_SIZE * 2 ^ o := by
    rw [hc.page_size, ← Nat.pow_add, Nat.add_comm]
    apply Nat.mod_eq_of_lt
    unfold W64
    exact Nat.pow_lt_pow_right (by decide) (by have := hc.shift; omega)
  rw [← e]
  exact buddy_addr_eq hc n o ho

/-- In a well-formed pool, for a chunk `c` on the free list `o`, with `n` the
page number of `c` XOR `2 ^ o`: when the page `n` lies in the pool and its
descriptor has order `o`, the chunk of order `o` at `n` ends inside the pool,
and the descriptor is the neighbour of `c` at distance `2 ^ o`. -/
theorem Base.buddy_inside {cfg : Config} {s : State} {i : Nat} {A : List Nat} {c o : Nat}
    (hb : Base cfg s i A) (hc : c ∈ fl s i o)
    (h1 : start_nr cfg (s.global_mem i) ≤ page_nr cfg (s.global_mem i) c ^^^ 2 ^ o)
    (h2 : page_nr cfg (s.global_mem i) c ^^^ 2 ^ o
      < start_nr cfg (s.global_mem i) + (s.global_mem i).pool_phys_page_num)
    (h3 : (s.pages ((s.global_mem i).page_metadata
      + ((page_nr cfg (s.global_mem i) c ^^^ 2 ^ o) - start_nr cfg (s.global_mem i)))).order
        = o) :
    (page_nr cfg (s.global_mem i) c ^^^ 2 ^ o) + 2 ^ o
      ≤ start_nr cfg (s.global_mem i) + (s.global_mem i).pool_phys_page_num := by
  have hh := hb.head_of_mem hc
  have hpo := hb.order_of_mem hc
  obtain ⟨t1, t2⟩ := hb.table_of_head hh
  have hal := hb.tiling.align c hh
  have hwi := hb.tiling.within c hh
  simp only [hpo] at hal hwi
  replace hal : 2 ^ o ∣ page_nr cfg (s.global_mem i) c := hal
  have hpos : 0 < 2 ^ o := two_pow_pos o
  have hpow : 2 ^ (o + 1) = 2 * 2 ^ o := Nat.pow_succ'
  have hpe : page_nr cfg (s.global_mem i) c
      = start_nr cfg (s.global_mem i) + (c - (s.global_mem i).page_metadata) := rfl
  rcases xor_pow_cases o _ hal with ⟨hd, hx⟩ | ⟨hd, hx⟩
  · rw [hx] at h1 h2 h3 ⊢
    have hbe : (s.global_mem i).page_metadata
        + (page_nr cfg (s.global_mem i) c + 2 ^ o - start_nr cfg (s.global_mem i))
        = c + 2 ^ o := by omega
    rw [hbe] at h3
    have hba : 2 ^ o ∣ start_nr cfg (s.global_mem i)
        + (c + 2 ^ o - (s.global_mem i).page_metadata) := by
      have e : start_nr cfg (s.global_mem i) + (c + 2 ^ o - (s.global_mem i).page_metadata)
          = page_nr cfg (s.global_mem i) c + 2 ^ o := by omega
      rw [e]; exact (Nat.dvd_add_right hal).2 (dvd_refl _)
    have hs := hb.tiling.sibling (c := c) (l := c) (y := c + 2 ^ o) (o := o) hh hpo hd t1
      (le_refl _) (by omega) (by omega) (by omega) (by omega) hba
    have hw := hb.tiling.within _ hs.1
    simp only [h3] at hw
    omega
  · omega

/-- C17: in a well-formed pool, for a chunk `c` on the free list of its order
`o < BUDDY_MAX_ORDER - 1`, at the address `a`, let `b` be the descriptor of
the page at the buddy address `a XOR (BUDDY_PAGE_SIZE * 2^o)`.  When that
address lies in the pool and `b` has order `o` and is not allocated, then `b`
is the neighbour of `c` at distance `2^o`, is another member of the free list
`o`, and is what `get_buddy_chunk` returns; the body of `merge_chunk` takes
`c` and `b` off that list, lowers `nr_free[o]` by 2, gives the lower one of
`c` and `b` the order `o + 1`, puts it in front of the free list `o + 1`,
raises `nr_free[o + 1]` by 1, leaves the other lists and counters alone, and
`merge_chunk` goes on from that chunk in that state.  When the buddy address
lies outside the pool, or `b` has another order or is allocated, `merge_chunk`
returns with the state unchanged. -/
theorem merge_chunk_single_step {cfg : Config} {s : State} {i : Nat} {A : List Nat}
    {c o : Nat} (hb : Base cfg s i A) (hc : c ∈ fl s i o)
    (ho : o + 1 < cfg.BUDDY_MAX_ORDER) :
    ∃ a, page_to_virt cfg s c = .ok a ∧
      a = (s.global_mem i).pool_start_addr
        + (c - (s.global_mem i).page_metadata) * cfg.BUDDY_PAGE_SIZE ∧
      (∀ b, (s.global_mem i).pool_start_addr ≤ (a ^^^ (cfg.BUDDY_PAGE_SIZE * 2 ^ o)) →
        (a ^^^ (cfg.BUDDY_PAGE_SIZE * 2 ^ o))
          < (s.global_mem i).pool_start_addr + (s.global_mem i).pool_mem_size →
        b = (s.global_mem i).page_metadata
          + ((a ^^^ (cfg.BUDDY_PAGE_SIZE * 2 ^ o)) - (s.global_mem i).pool_start_addr)
            / cfg.BUDDY_PAGE_SIZE →
        (s.pages b).order = o → (s.pages b).allocated = false →
        (b = c + 2 ^ o ∨ c = b + 2 ^ o) ∧ b ∈ fl s i o ∧
        get_buddy_chunk cfg s i c = .ok (some b) ∧
        ∃ t, merge_body cfg s i c = .ok (t, some (min c b)) ∧
          merge_chunk cfg s i c = merge_chunk cfg t i (min c b) ∧
          fl t i o = ((fl s i o).erase c).erase b ∧ c ∉ fl t i o ∧ b ∉ fl t i o ∧
          nf t i o = nf s i o - 2 ∧
          (t.pages (min c b)).order = o + 1 ∧
          fl t i (o + 1) = min c b :: fl s i (o + 1) ∧
          nf t i (o + 1) = nf s i (o + 1) + 1 ∧
          ∀ o', o' ≠ o → o' ≠ o + 1 → fl t i o' = fl s i o' ∧ nf t i o' = nf s i o') ∧
      ((a ^^^ (cfg.BUDDY_PAGE_SIZE * 2 ^ o)) < (s.global_mem i).pool_start_addr
          ∨ (s.global_mem i).pool_start_addr + (s.global_mem i).pool_mem_size
            ≤ (a ^^^ (cfg.BUDDY_PAGE_SIZE * 2 ^ o))
          ∨ (s.pages ((s.global_mem i).page_metadata
              + ((a ^^^ (cfg.BUDDY_PAGE_SIZE * 2 ^ o)) - (s.global_mem i).pool_start_addr)
                / cfg.BUDDY_PAGE_SIZE)).order ≠ o
          ∨ (s.pages ((s.global_mem i).page_metadata
              + ((a ^^^ (cfg.BUDDY_PAGE_SIZE * 2 ^ o)) - (s.global_mem i).pool_start_addr)
                / cfg.BUDDY_PAGE_SIZE)).allocated = true →
        merge_chunk cfg s i c = .ok s) := by
  have hg := hb.geom
  have hps := hg.page_size_pos
  have hh := hb.head_of_mem hc
  have hpo := hb.order_of_mem hc
  have htab := hb.table_of_head hh
  have hpool := hb.pool_ok c htab
  have hal : 2 ^ o ∣ page_nr cfg (s.global_mem i) c := by
    have := hb.page_nr_align hh
    rwa [hpo] at this
  have hpos : 0 < 2 ^ o := two_pow_pos o
  have hxa := xor_addr_eq hg.cfg_ok (page_nr cfg (s.global_mem i) c) o (by omega)
  have hgb := get_buddy_chunk_eq hg htab hpool (by rw [hpo]; omega) (by rw [hpo]; exact hal)
  rw [hpo] at hgb
  have hxc := xor_pow_cases o _ hal
  have hin := hb.buddy_inside hc
  have hpe : page_nr cfg (s.global_mem i) c
      = start_nr cfg (s.global_mem i) + (c - (s.global_mem i).page_metadata) := rfl
  obtain ⟨t1, t2⟩ := htab
  generalize page_nr cfg (s.global_mem i) c ^^^ 2 ^ o = n at hxa hgb hxc hin
  have hend : (s.global_mem i).pool_start_addr + (s.global_mem i).pool_mem_size
      = (start_nr cfg (s.global_mem i) + (s.global_mem i).pool_phys_page_num)
        * cfg.BUDDY_PAGE_SIZE := by
    rw [Nat.add_mul, ← hg.start_eq, hg.size]
  have c1 : (s.global_mem i).pool_start_addr ≤ n * cfg.BUDDY_PAGE_SIZE
      ↔ start_nr cfg (s.global_mem i) ≤ n := by
    rw [hg.start_eq]
    exact ⟨fun h => Nat.le_of_mul_le_mul_right h hps, fun h => Nat.mul_le_mul_right _ h⟩
  have c2 : n * cfg.BUDDY_PAGE_SIZE
        < (s.global_mem i).pool_start_addr + (s.global_mem i).pool_mem_size
      ↔ n < start_nr cfg (s.global_mem i) + (s.global_mem i).pool_phys_page_num := by
    rw [hend]
    exact Nat.mul_lt_mul_right hps
  have c3 : (n * cfg.BUDDY_PAGE_SIZE - (s.global_mem i).pool_start_addr)
      / cfg.BUDDY_PAGE_SIZE = n - start_nr cfg (s.global_mem i) := by
    conv_lhs => rw [hg.start_eq, ← Nat.sub_mul]
    exact Nat.mul_div_cancel _ hps
  obtain ⟨r, hr, hstop, hmerge⟩ := merge_step_of_lookup hb hc ho
  rw [hgb] at hr
  have hr' := (Except.ok.inj hr).symm
  refine ⟨_, page_to_virt_eq hg ⟨t1, t2⟩ hpool, ?_, ?_, ?_⟩
  · rw [hpe, Nat.add_mul, ← hg.start_eq]
  · intro b k1 k2 k3 k4 k5
    rw [hxa] at k1 k2 k3
    rw [c1] at k1
    rw [c2] at k2
    rw [c3] at k3
    subst k3
    have hwhole := hin k1 k2 k4
    have hrb : r = some ((s.global_mem i).page_metadata
        + (n - start_nr cfg (s.global_mem i))) := by
      rw [hr', if_neg (by omega)]
    have hm := hmerge _ hrb k4 k5
    refine ⟨?_, hm.1, by rw [hgb, if_neg (by omega)], hm.2.2⟩
    rcases hxc with ⟨_, hx⟩ | ⟨_, hx⟩
    · left; omega
    · right; omega
  · intro hno
    apply hstop
    intro b' hb'
    rw [hr'] at hb'
    by_cases hc' : n < start_nr cfg (s.global_mem i)
        ∨ start_nr cfg (s.global_mem i) + (s.global_mem i).pool_phys_page_num < n + 2 ^ o
    · rw [if_pos hc'] at hb'
      exact Option.noConfusion hb'
    · rw [if_neg hc'] at hb'
      have e := Option.some.inj hb'
      subst e
      rw [hxa, c3] at hno
      have h1 : ¬ n * cfg.BUDDY_PAGE_SIZE < (s.global_mem i).pool_start_addr := by
        have := c1.2 (by omega)
        omega
      have h2 : ¬ (s.global_mem i).pool_start_addr + (s.global_mem i).pool_mem_size
          ≤ n * cfg.BUDDY_PAGE_SIZE := by
        have := c2.2 (by omega)
        omega
      rcases hno with h | h | h | h
      · exact absurd h h1
      · exact absurd h h2
      · exact Or.inl h
      · exact Or.inr h

theorem merge_chunk_single_step_witness :
    ∃ a, page_to_virt cfg0 (free_state ex_get.1 0 0) 0 = .ok a ∧
      a = ((free_state ex_get.1 0 0).global_mem 0).pool_start_addr
        + (0 - ((free_state ex_get.1 0 0).global_mem 0).page_metadata)
          * cfg0.BUDDY_PAGE_SIZE ∧
      (∀ b, ((free_state ex_get.1 0 0).global_mem 0).pool_start_addr
          ≤ (a ^^^ (cfg0.BUDDY_PAGE_SIZE * 2 ^ 0)) →
        (a ^^^ (cfg0.BUDDY_PAGE_SIZE * 2 ^ 0))
          < ((free_state ex_get.1 0 0).global_mem 0).pool_start_addr
            + ((free_state ex_get.1 0 0).global_mem 0).pool_mem_size →
        b = ((free_state ex_get.1 0 0).global_mem 0).page_metadata
          + ((a ^^^ (cfg0.BUDDY_PAGE_SIZE * 2 ^ 0))
              - ((free_state ex_get.1 0 0).global_mem 0).pool_start_addr)
            / cfg0.BUDDY_PAGE_SIZE →
        ((free_state ex_get.1 0 0).pages b).order = 0 →
        ((free_state ex_get.1 0 0).pages b).allocated = false →
        (b = 0 + 2 ^ 0 ∨ 0 = b + 2 ^ 0) ∧ b ∈ fl (free_state ex_get.1 0 0) 0 0 ∧
        get_buddy_chunk cfg0 (free_state ex_get.1 0 0) 0 0 = .ok (some b) ∧
        ∃ t, merge_body cfg0 (free_state ex_get.1 0 0) 0 0 = .ok (t, some (min 0 b)) ∧
          merge_chunk cfg0 (free_state ex_get.1 0 0) 0 0 = merge_chunk cfg0 t 0 (min 0 b) ∧
          fl t 0 0 = ((fl (free_state ex_get.1 0 0) 0 0).erase 0).erase b ∧
          0 ∉ fl t 0 0 ∧ b ∉ fl t 0 0 ∧
          nf t 0 0 = nf (free_state ex_get.1 0 0) 0 0 - 2 ∧
          (t.pages (min 0 b)).order = 0 + 1 ∧
          fl t 0 (0 + 1) = min 0 b :: fl (free_state ex_get.1 0 0) 0 (0 + 1) ∧
          nf t 0 (0 + 1) = nf (free_state ex_get.1 0 0) 0 (0 + 1) + 1 ∧
          ∀ o', o' ≠ 0 → o' ≠ 0 + 1 → fl t 0 o' = fl (free_state ex_get.1 0 0) 0 o'
            ∧ nf t 0 o' = nf (free_state ex_get.1 0 0) 0 o') ∧
      ((a ^^^ (cfg0.BUDDY_PAGE_SIZE * 2 ^ 0))
            < ((free_state ex_get.1 0 0).global_mem 0).pool_start_addr
          ∨ ((free_state ex_get.1 0 0).global_mem 0).pool_start_addr
              + ((free_state ex_get.1 0 0).global_mem 0).pool_mem_size
            ≤ (a ^^^ (cfg0.BUDDY_PAGE_SIZE * 2 ^ 0))
          ∨ ((free_state ex_get.1 0 0).pages
              (((free_state ex_get.1 0 0).global_mem 0).page_metadata
                + ((a ^^^ (cfg0.BUDDY_PAGE_SIZE * 2 ^ 0))
                    - ((free_state ex_get.1 0 0).global_mem 0).pool_start_addr)
                  / cfg0.BUDDY_PAGE_SIZE)).order ≠ 0
          ∨ ((free_state ex_get.1 0 0).pages
              (((free_state ex_get.1 0 0).global_mem 0).page_metadata
                + ((a ^^^ (cfg0.BUDDY_PAGE_SIZE * 2 ^ 0))
                    - ((free_state ex_get.1 0 0).global_mem 0).pool_start_addr)
                  / cfg0.BUDDY_PAGE_SIZE)).allocated = true →
        merge_chunk cfg0 (free_state ex_get.1 0 0) 0 0 = .ok (free_state ex_get.1 0 0)) :=
  merge_chunk_single_step ex_freeing_base (by decide!) (by decide)

end Buddy
